import Mathlib

/-!
# Unrolled linked list (`unrolled.h`)

A shallow embedding of the three classes of `unrolled.h` (`Node`, `list_iterator`,
`UnrolledLL`) over an explicit store of nodes.

* A pointer `Node<T>*` is an `Option Nat`: `none` is `NULL`, `some a` is the address `a`.
* The store is a list of cells indexed by address; a cell is `some node` while the node is
  allocated and `none` once it has been deleted.  `new` takes the next fresh address.
* Every operation returns an `Option`: `none` stands for undefined behaviour of the C++
  program (dereferencing `NULL` or a deleted node, indexing `elements` outside `[0, 6)`,
  a failed `assert`).
* `unsigned int` arithmetic is arithmetic modulo `UINT_MOD = 2 ^ 32`.
* Every node of the store is created by the non-array `new Node<T>(v)`.  The array form
  `delete [] p` applied to such a node is undefined behaviour: `pop_back` and `pop_front`
  have no result on the paths that execute it.  Only in `erase`, where the sole-node branch
  is entered by the defect theorems through a misplaced `--size_`, is `delete [] head_`
  taken as the release of the node, the reading more favourable to the code.
* An argument of type `T const&` may refer to an element of the list itself; `insert_ref`
  reads it where the source reads it, and `insert` is the case of an argument that is an
  object outside the nodes.
-/

namespace Unrolled

/-! ## Machine arithmetic -/

/-- The constant `NUM_ELEMENTS_PER_NODE` of the source. -/
def NUM_ELEMENTS_PER_NODE : Nat := 6

/-- Modulus of `unsigned int` arithmetic (32 bit). -/
def UINT_MOD : Nat := 4294967296

/-- The effect of `++x` / `x++` on an `unsigned int`. -/
def uinc (x : Nat) : Nat := (x + 1) % UINT_MOD

/-- The effect of `--x` / `x--` / `x-1` on an `unsigned int`. -/
def udec (x : Nat) : Nat := (x + UINT_MOD - 1) % UINT_MOD

/-! ## Nodes and the store -/

/-- The class `Node<T>`: links, the element array and the element count. -/
structure Node (T : Type) where
  next_ : Option Nat
  prev_ : Option Nat
  elements : List T
  num_elements : Nat
  deriving DecidableEq, Repr

/-- The constructor `Node(const T& v)`: no links, one element stored in slot 0.  The
constructor does not write the other slots of the array (for a scalar `T` their values are
indeterminate); the model fills them with `default`, and no operation reads a slot at or
above `num_elements` of a well-formed list. -/
def Node.new {T : Type} [Inhabited T] (v : T) : Node T :=
  { next_ := none
    prev_ := none
    elements := (List.replicate NUM_ELEMENTS_PER_NODE default).set 0 v
    num_elements := 1 }

/-- The store: cell `a` holds the node at address `a`, or `none` after `delete`. -/
abbrev Heap (T : Type) := List (Option (Node T))

/-- Dereference a pointer; `none` for `NULL`, for a deleted node and for a wild address. -/
def readNode {T : Type} (h : Heap T) (p : Option Nat) : Option (Node T) :=
  match p with
  | none => none
  | some a => (h[a]?).join

/-- An assignment to fields of `*p` (`p->field = e`). -/
def modifyNode {T : Type} (h : Heap T) (p : Option Nat) (f : Node T → Node T) :
    Option (Heap T) :=
  match p with
  | none => none
  | some a =>
    match readNode h (some a) with
    | none => none
    | some n => some (h.set a (some (f n)))

/-- The expression `new Node<T>(...)`: the node is placed at the next fresh address. -/
def allocNode {T : Type} (h : Heap T) (n : Node T) : Nat × Heap T :=
  (h.length, h ++ [some n])

/-- The statement `delete p`: a no-op on `NULL`, undefined on a node that is not allocated. -/
def deleteNode {T : Type} (h : Heap T) (p : Option Nat) : Option (Heap T) :=
  match p with
  | none => some h
  | some a =>
    match readNode h (some a) with
    | none => none
    | some _ => some (h.set a none)

/-- The statement `delete [] p` for a pointer to a node: a no-op on `NULL`.  Every node is
created by the non-array `new Node<T>(v)`, and the array form of `delete` applied to such
a node is undefined behaviour, whether or not the node is still allocated. -/
def deleteArray {T : Type} (h : Heap T) (p : Option Nat) : Option (Heap T) :=
  match p with
  | none => some h
  | some _ => none

/-- The pointer members that `Node<T>` declares, as selected by `p->name`.  A name that the
class does not declare selects nothing: the expression is ill-formed. -/
def Node.ptrMember {T : Type} (n : Node T) (name : String) : Option (Option Nat) :=
  if name = "next_" then some n.next_
  else if name = "prev_" then some n.prev_
  else none

/-- The assignment `elements[i] = v`; undefined outside the array. -/
def setElem {T : Type} (es : List T) (i : Nat) (v : T) : Option (List T) :=
  if i < es.length then some (es.set i v) else none

/-! ## The iterator -/

/-- The class `list_iterator<T>`: a node pointer and an offset into its array. -/
structure list_iterator where
  ptr_ : Option Nat
  offset : Nat
  deriving DecidableEq, Repr

/-- The default constructor `list_iterator()`. -/
def list_iterator.null : list_iterator := { ptr_ := none, offset := 0 }

/-- The dereference `operator*`: reads `ptr_->elements[offset]`. -/
def deref {T : Type} (h : Heap T) (it : list_iterator) : Option T := do
  let n ← readNode h it.ptr_
  n.elements[it.offset]?

/-- The post-increment `operator++(int)`: the new position of the iterator. -/
def postIncr {T : Type} (h : Heap T) (it : list_iterator) : Option list_iterator := do
  let n ← readNode h it.ptr_
  if n.next_ = none ∧ udec n.num_elements = it.offset then
    some { it with offset := NUM_ELEMENTS_PER_NODE }
  else if it.offset = udec n.num_elements then
    some { ptr_ := n.next_, offset := 0 }
  else
    some { it with offset := uinc it.offset }

/-- The pre-increment `operator++()`.  Its first condition reads `ptr_->next`, a member
that `Node<T>` does not declare (the post-increment reads `ptr_->next_`), so the operator
cannot be instantiated: it has no result, on any iterator. -/
def preIncr {T : Type} (h : Heap T) (it : list_iterator) : Option list_iterator := do
  let n ← readNode h it.ptr_
  let nx ← n.ptrMember ("next")
  if nx = none ∧ udec n.num_elements = it.offset then
    some { it with offset := NUM_ELEMENTS_PER_NODE }
  else if it.offset = udec n.num_elements then
    some { ptr_ := n.next_, offset := 0 }
  else
    some { it with offset := uinc it.offset }

/-- An argument of type `T const&`: a reference to an object outside the nodes of the
list, or to the element `it.ptr_->elements[it.offset]` of a node, such as the result of
`back()` or of `*it`. -/
inductive ConstRef (T : Type) where
  | object (v : T)
  | element (it : list_iterator)

/-- The value read through a reference in a given store. -/
def ConstRef.get {T : Type} (h : Heap T) : ConstRef T → Option T
  | ConstRef.object v => some v
  | ConstRef.element it => deref h it

/-- The decrement `operator--` (both forms move the iterator in the same way). -/
def decr {T : Type} (h : Heap T) (it : list_iterator) : Option list_iterator := do
  if it.offset = 0 then
    let n ← readNode h it.ptr_
    let p ← readNode h n.prev_
    some { ptr_ := n.prev_, offset := udec p.num_elements }
  else
    some { it with offset := udec it.offset }

/-! ## The list -/

/-- The class `UnrolledLL<T>`: head and tail pointers and the stored size. -/
structure UnrolledLL where
  head_ : Option Nat
  tail_ : Option Nat
  size_ : Nat
  deriving DecidableEq, Repr

/-- The default constructor `UnrolledLL()`. -/
def UnrolledLL.empty_list : UnrolledLL := { head_ := none, tail_ := none, size_ := 0 }

/-- The member `size()`. -/
def size (l : UnrolledLL) : Nat := l.size_

/-- The member `empty()`: whether `head_ == NULL`. -/
def empty (l : UnrolledLL) : Bool := l.head_ == none

/-- The member `begin()`. -/
def begin (l : UnrolledLL) : list_iterator := { ptr_ := l.head_, offset := 0 }

/-- The member `end()`. -/
def end_ (l : UnrolledLL) : list_iterator :=
  { ptr_ := l.tail_, offset := NUM_ELEMENTS_PER_NODE }

/-- The member `front()`. -/
def front {T : Type} (h : Heap T) (l : UnrolledLL) : Option T := do
  let n ← readNode h l.head_
  n.elements[0]?

/-- The member `back()`. -/
def back {T : Type} (h : Heap T) (l : UnrolledLL) : Option T := do
  let n ← readNode h l.tail_
  n.elements[udec n.num_elements]?

/-- The member `push_back`. -/
def push_back {T : Type} [Inhabited T] (v : T) (l : UnrolledLL) (h : Heap T) :
    Option (UnrolledLL × Heap T) :=
  match l.tail_ with
  | none =>
    let (newp, h1) := allocNode h (Node.new v)
    some ({ head_ := some newp, tail_ := some newp, size_ := uinc l.size_ }, h1)
  | some t => do
    let n ← readNode h (some t)
    if n.num_elements < NUM_ELEMENTS_PER_NODE then
      let h1 ← modifyNode h (some t) (fun n => { n with num_elements := uinc n.num_elements })
      let n1 ← readNode h1 (some t)
      let es ← setElem n1.elements (udec n1.num_elements) v
      let h2 ← modifyNode h1 (some t) (fun n => { n with elements := es })
      some ({ l with size_ := uinc l.size_ }, h2)
    else
      let (newp, h1) := allocNode h (Node.new v)
      let h2 ← modifyNode h1 (some newp) (fun n => { n with prev_ := some t })
      let h3 ← modifyNode h2 (some t) (fun n => { n with next_ := some newp })
      some ({ l with tail_ := some newp, size_ := uinc l.size_ }, h3)

/-- The member `push_front`. -/
def push_front {T : Type} [Inhabited T] (v : T) (l : UnrolledLL) (h : Heap T) :
    Option (UnrolledLL × Heap T) :=
  let (newp, h1) := allocNode h (Node.new v)
  match l.tail_ with
  | none => some ({ head_ := some newp, tail_ := some newp, size_ := uinc l.size_ }, h1)
  | some _ => do
    let h2 ← modifyNode h1 l.head_ (fun n => { n with prev_ := some newp })
    let h3 ← modifyNode h2 (some newp) (fun n => { n with next_ := l.head_ })
    some ({ l with head_ := some newp, size_ := uinc l.size_ }, h3)

/-- The member `pop_back`.  Both branches that release a node do so by `delete []`. -/
def pop_back {T : Type} (l : UnrolledLL) (h : Heap T) : Option (UnrolledLL × Heap T) :=
  if l.size_ = 1 then do
    -- delete [] head_;
    let h1 ← deleteArray h l.head_
    some ({ head_ := none, tail_ := none, size_ := udec l.size_ }, h1)
  else do
    let t ← readNode h l.tail_
    if t.num_elements = 1 then
      let temp := l.tail_
      let tail1 := t.prev_
      -- delete [] temp;
      let h1 ← deleteArray h temp
      let h2 ← modifyNode h1 tail1 (fun n => { n with next_ := none })
      some ({ l with tail_ := tail1, size_ := udec l.size_ }, h2)
    else
      let h1 ← modifyNode h l.tail_ (fun n => { n with num_elements := udec n.num_elements })
      some ({ l with size_ := udec l.size_ }, h1)

/-- The loop `for (i = start; i < bound; i++) elements[i] = elements[i+1]`, run for `k`
iterations from index `i`. -/
def shiftLeftLoop {T : Type} : Nat → Nat → List T → Option (List T)
  | 0, _, es => some es
  | k + 1, i, es => do
    let x ← es[i + 1]?
    let es1 ← setElem es i x
    shiftLeftLoop k (i + 1) es1

/-- The member `pop_front`.  The sole-node branch releases the node by `delete []`, the
branch that unlinks the head node by `delete`. -/
def pop_front {T : Type} (l : UnrolledLL) (h : Heap T) : Option (UnrolledLL × Heap T) :=
  if l.size_ = 1 then do
    -- delete [] head_;
    let h1 ← deleteArray h l.head_
    some ({ head_ := none, tail_ := none, size_ := udec l.size_ }, h1)
  else do
    let hd ← readNode h l.head_
    if hd.num_elements = 1 then
      let temp := l.head_
      let head1 := hd.next_
      -- delete temp;
      let h1 ← deleteNode h temp
      let h2 ← modifyNode h1 head1 (fun n => { n with prev_ := none })
      some ({ l with head_ := head1, size_ := udec l.size_ }, h2)
    else
      let es ← shiftLeftLoop (udec hd.num_elements) 0 hd.elements
      let h1 ← modifyNode h l.head_ (fun n => { n with elements := es })
      let h2 ← modifyNode h1 l.head_ (fun n => { n with num_elements := udec n.num_elements })
      some ({ l with size_ := udec l.size_ }, h2)

/-- The member `erase`: the returned iterator, the list and the store afterwards.  The
`delete [] head_` of the sole-node branch is taken as the release of the node. -/
def erase {T : Type} (itr : list_iterator) (l : UnrolledLL) (h : Heap T) :
    Option (list_iterator × UnrolledLL × Heap T) :=
  -- assert (size_ > 0);
  if l.size_ = 0 then none
  else
    -- --size_;
    let l1 : UnrolledLL := { l with size_ := udec l.size_ }
    if l1.size_ = 1 then do
      let h1 ← deleteNode h l1.head_
      some (list_iterator.null, { l1 with head_ := none, tail_ := none }, h1)
    else do
      -- the conditions of the following branches, evaluated left to right
      let c2 ← (if itr.ptr_ = l1.head_ then
                  (readNode h l1.head_).map (fun n => decide (n.num_elements = 1))
                else some false)
      if c2 then
        let hd ← readNode h l1.head_
        let head1 := hd.next_
        let h1 ← modifyNode h head1 (fun n => { n with prev_ := none })
        let result : list_iterator := { ptr_ := head1, offset := 0 }
        let h2 ← deleteNode h1 itr.ptr_
        some (result, { l1 with head_ := head1 }, h2)
      else
        let c3 ← (if itr.ptr_ = l1.tail_ then
                    (readNode h l1.tail_).map (fun n => decide (n.num_elements = 1))
                  else some false)
        if c3 then
          let tl ← readNode h l1.tail_
          let tail1 := tl.prev_
          let h1 ← modifyNode h tail1 (fun n => { n with next_ := none })
          let h2 ← deleteNode h1 itr.ptr_
          some ({ ptr_ := tail1, offset := NUM_ELEMENTS_PER_NODE }, { l1 with tail_ := tail1 }, h2)
        else
          let c4 ← (if itr.ptr_ = l1.tail_ then
                      (readNode h itr.ptr_).map
                        (fun n => decide (udec n.num_elements = itr.offset))
                    else some false)
          if c4 then
            let h1 ← modifyNode h l1.tail_
              (fun n => { n with num_elements := udec n.num_elements })
            some ({ ptr_ := l1.tail_, offset := NUM_ELEMENTS_PER_NODE }, l1, h1)
          else
            let cur ← readNode h itr.ptr_
            if cur.num_elements = 1 then
              let h1 ← modifyNode h cur.prev_ (fun n => { n with next_ := cur.next_ })
              let cur1 ← readNode h1 itr.ptr_
              let h2 ← modifyNode h1 cur1.next_ (fun n => { n with prev_ := cur1.prev_ })
              let cur2 ← readNode h2 itr.ptr_
              -- the `delete itr.ptr_` after the `return` is never executed
              some ({ ptr_ := cur2.next_, offset := 0 }, l1, h2)
            else if itr.offset ≠ udec cur.num_elements then
              let es ← shiftLeftLoop (udec cur.num_elements - itr.offset) itr.offset cur.elements
              let h1 ← modifyNode h itr.ptr_ (fun n => { n with elements := es })
              let h2 ← modifyNode h1 itr.ptr_
                (fun n => { n with num_elements := udec n.num_elements })
              some (itr, l1, h2)
            else
              let h1 ← modifyNode h itr.ptr_
                (fun n => { n with num_elements := udec n.num_elements })
              let cur1 ← readNode h1 itr.ptr_
              some ({ ptr_ := cur1.next_, offset := 0 }, l1, h1)

/-- The loop `for (unsigned i = start; i >= offset; i--) elements[i+1] = elements[i]`,
started at `i`.  With `offset = 0` the counter wraps around below zero and the loop runs
out of the array. -/
def shiftRightLoop {T : Type} (offset : Nat) : Nat → List T → Option (List T)
  | 0, es =>
    if 0 < offset then some es else none
  | i + 1, es =>
    if offset ≤ i + 1 then do
      let x ← es[i + 1]?
      let es1 ← setElem es (i + 2) x
      shiftRightLoop offset i es1
    else some es

/-- The member `insert` with an argument `v` that is an object outside the nodes of the
list: the returned iterator, the list and the store afterwards.  For an argument that
refers to an element of the list see `insert_ref`. -/
def insert {T : Type} [Inhabited T] (itr : list_iterator) (v : T) (l : UnrolledLL)
    (h : Heap T) : Option (list_iterator × UnrolledLL × Heap T) :=
  let l1 : UnrolledLL := { l with size_ := uinc l.size_ }
  if itr.offset = 0 then
    let (p, h1) := allocNode h (Node.new v)
    do
      let cur ← readNode h1 itr.ptr_
      let h2 ← modifyNode h1 (some p) (fun n => { n with prev_ := cur.prev_ })
      let h3 ← modifyNode h2 (some p) (fun n => { n with next_ := itr.ptr_ })
      let h4 ← modifyNode h3 itr.ptr_ (fun n => { n with prev_ := some p })
      if itr.ptr_ = l1.head_ then
        some ({ ptr_ := some p, offset := 0 }, { l1 with head_ := some p }, h4)
      else
        let pn ← readNode h4 (some p)
        let h5 ← modifyNode h4 pn.prev_ (fun n => { n with next_ := some p })
        some ({ ptr_ := some p, offset := 0 }, l1, h5)
  else do
    let cur ← readNode h itr.ptr_
    if cur.num_elements = NUM_ELEMENTS_PER_NODE then
      let last ← cur.elements[NUM_ELEMENTS_PER_NODE - 1]?
      let (p, h1) := allocNode h (Node.new last)
      let h2 ← modifyNode h1 (some p) (fun n => { n with next_ := cur.next_ })
      let h3 ← modifyNode h2 (some p) (fun n => { n with prev_ := itr.ptr_ })
      -- itr.ptr_->next_->prev_ = p;
      let c3 ← readNode h3 itr.ptr_
      let h4 ← modifyNode h3 c3.next_ (fun n => { n with prev_ := some p })
      -- itr.ptr_->prev_->next_ = p;
      let c4 ← readNode h4 itr.ptr_
      let h5 ← modifyNode h4 c4.prev_ (fun n => { n with next_ := some p })
      let c5 ← readNode h5 itr.ptr_
      let es ← (if itr.offset ≠ NUM_ELEMENTS_PER_NODE - 1 then
                  shiftRightLoop itr.offset (NUM_ELEMENTS_PER_NODE - 2) c5.elements
                else some c5.elements)
      let es1 ← setElem es itr.offset v
      let h6 ← modifyNode h5 itr.ptr_ (fun n => { n with elements := es1 })
      some (itr, l1, h6)
    else
      let es ← shiftRightLoop itr.offset (udec cur.num_elements) cur.elements
      let h1 ← modifyNode h itr.ptr_ (fun n => { n with elements := es })
      let h2 ← modifyNode h1 itr.ptr_
        (fun n => { n with num_elements := uinc n.num_elements })
      let c2 ← readNode h2 itr.ptr_
      let es1 ← setElem c2.elements itr.offset v
      let h3 ← modifyNode h2 itr.ptr_ (fun n => { n with elements := es1 })
      some (itr, l1, h3)

/-- The member `insert` called with an argument that may refer to an element of the list:
the parameter `T const& v` is read where the source reads it, by `new Node<T>(v)` before
any change in the first branch, and by `itr.ptr_->elements[itr.offset] = v` after the
elements have been shifted in the other two. -/
def insert_ref {T : Type} [Inhabited T] (itr : list_iterator) (r : ConstRef T)
    (l : UnrolledLL) (h : Heap T) : Option (list_iterator × UnrolledLL × Heap T) :=
  let l1 : UnrolledLL := { l with size_ := uinc l.size_ }
  if itr.offset = 0 then do
    let v ← r.get h
    let (p, h1) := allocNode h (Node.new v)
    let cur ← readNode h1 itr.ptr_
    let h2 ← modifyNode h1 (some p) (fun n => { n with prev_ := cur.prev_ })
    let h3 ← modifyNode h2 (some p) (fun n => { n with next_ := itr.ptr_ })
    let h4 ← modifyNode h3 itr.ptr_ (fun n => { n with prev_ := some p })
    if itr.ptr_ = l1.head_ then
      some ({ ptr_ := some p, offset := 0 }, { l1 with head_ := some p }, h4)
    else
      let pn ← readNode h4 (some p)
      let h5 ← modifyNode h4 pn.prev_ (fun n => { n with next_ := some p })
      some ({ ptr_ := some p, offset := 0 }, l1, h5)
  else do
    let cur ← readNode h itr.ptr_
    if cur.num_elements = NUM_ELEMENTS_PER_NODE then
      let last ← cur.elements[NUM_ELEMENTS_PER_NODE - 1]?
      let (p, h1) := allocNode h (Node.new last)
      let h2 ← modifyNode h1 (some p) (fun n => { n with next_ := cur.next_ })
      let h3 ← modifyNode h2 (some p) (fun n => { n with prev_ := itr.ptr_ })
      -- itr.ptr_->next_->prev_ = p;
      let c3 ← readNode h3 itr.ptr_
      let h4 ← modifyNode h3 c3.next_ (fun n => { n with prev_ := some p })
      -- itr.ptr_->prev_->next_ = p;
      let c4 ← readNode h4 itr.ptr_
      let h5 ← modifyNode h4 c4.prev_ (fun n => { n with next_ := some p })
      let c5 ← readNode h5 itr.ptr_
      let es ← (if itr.offset ≠ NUM_ELEMENTS_PER_NODE - 1 then
                  shiftRightLoop itr.offset (NUM_ELEMENTS_PER_NODE - 2) c5.elements
                else some c5.elements)
      let h6 ← modifyNode h5 itr.ptr_ (fun n => { n with elements := es })
      -- itr.ptr_->elements[itr.offset] = v;
      let v ← r.get h6
      let c6 ← readNode h6 itr.ptr_
      let es1 ← setElem c6.elements itr.offset v
      let h7 ← modifyNode h6 itr.ptr_ (fun n => { n with elements := es1 })
      some (itr, l1, h7)
    else
      let es ← shiftRightLoop itr.offset (udec cur.num_elements) cur.elements
      let h1 ← modifyNode h itr.ptr_ (fun n => { n with elements := es })
      let h2 ← modifyNode h1 itr.ptr_
        (fun n => { n with num_elements := uinc n.num_elements })
      -- itr.ptr_->elements[itr.offset] = v;
      let v ← r.get h2
      let c2 ← readNode h2 itr.ptr_
      let es1 ← setElem c2.elements itr.offset v
      let h3 ← modifyNode h2 itr.ptr_ (fun n => { n with elements := es1 })
      some (itr, l1, h3)

/-- The loop `for (n = ...; n < size_; n++)` of `destroy_list`, from counter `n` and cursor
`p`; `fuel` bounds the number of iterations. -/
def destroyLoop {T : Type} (size_ : Nat) : Nat → Nat → Option Nat → Heap T → Option (Heap T)
  | fuel, n, p, h =>
    if n < size_ then
      match fuel with
      | 0 => none
      | k + 1 =>
        let temp := p
        if n ≠ udec size_ then do
          let node ← readNode h p
          let h1 ← deleteNode h temp
          destroyLoop size_ k (uinc n) node.next_ h1
        else do
          let h1 ← deleteNode h temp
          destroyLoop size_ k (uinc n) p h1
    else some h

/-- The member `destroy_list`.  The loop counter runs from 0 to `size_`, so `size_`
iterations are enough. -/
def destroy_list {T : Type} (l : UnrolledLL) (h : Heap T) : Option (UnrolledLL × Heap T) := do
  let h1 ← destroyLoop l.size_ l.size_ 0 l.head_ h
  some ({ head_ := none, tail_ := none, size_ := 0 }, h1)

/-- The member `clear()`. -/
def clear {T : Type} (l : UnrolledLL) (h : Heap T) : Option (UnrolledLL × Heap T) :=
  destroy_list l h

/-- The loop `while (old_p)` of `copy_list`, with `fuel` bounding the number of
iterations.  `conv` is the conversion applied to the argument `old_p -> elements` (the
element array of the source node) when it is passed to `Node(const T& v)`. -/
def copyLoop {T : Type} [Inhabited T] (conv : List T → T) :
    Nat → Option Nat → Option Nat → Heap T → Option (Option Nat × Heap T)
  | _, none, tail_, h => some (tail_, h)
  | 0, some _, _, _ => none
  | fuel + 1, some o, tail_, h => do
    let src ← readNode h (some o)
    let (p, h1) := allocNode h (Node.new (conv src.elements))
    let h2 ← modifyNode h1 tail_ (fun n => { n with next_ := some p })
    let t2 ← readNode h2 tail_
    let h3 ← modifyNode h2 t2.next_ (fun n => { n with prev_ := tail_ })
    let t3 ← readNode h3 tail_
    let src3 ← readNode h3 (some o)
    copyLoop conv fuel src3.next_ t3.next_ h3

/-- The member `copy_list`: the list built from `old` in the same store.  The walk over the
source chain is given as many iterations as the store has cells. -/
def copy_list {T : Type} [Inhabited T] (conv : List T → T) (old : UnrolledLL) (h : Heap T) :
    Option (UnrolledLL × Heap T) :=
  if old.size_ = 0 then some ({ head_ := none, tail_ := none, size_ := old.size_ }, h)
  else do
    let oh ← readNode h old.head_
    let (p, h1) := allocNode h (Node.new (conv oh.elements))
    let oh1 ← readNode h1 old.head_
    let (t, h2) ← copyLoop conv h.length oh1.next_ (some p) h1
    some ({ head_ := some p, tail_ := t, size_ := old.size_ }, h2)

/-- The copy constructor `UnrolledLL(const UnrolledLL<T>& old)`. -/
def copy_construct {T : Type} [Inhabited T] (conv : List T → T) (old : UnrolledLL)
    (h : Heap T) : Option (UnrolledLL × Heap T) :=
  copy_list conv old h

/-- The assignment `operator=` to the list `this` from a different list object `old`
(the branch `&old != this`). -/
def assign {T : Type} [Inhabited T] (conv : List T → T) (this old : UnrolledLL)
    (h : Heap T) : Option (UnrolledLL × Heap T) := do
  let (_, h1) ← destroy_list this h
  copy_list conv old h1

/-! ## Observations of a list -/

/-- The nodes met from `p` along `next_`, at most `fuel` of them; `none` when the walk
leaves the allocated nodes or is longer than `fuel`. -/
def nodesFrom {T : Type} (h : Heap T) : Nat → Option Nat → Option (List (Node T))
  | _, none => some []
  | 0, some _ => none
  | fuel + 1, some a => do
    let n ← readNode h (some a)
    let rest ← nodesFrom h fuel n.next_
    some (n :: rest)

/-- The valid elements of a node, `elements[0 .. num_elements)`. -/
def Node.contents {T : Type} (n : Node T) : List T := n.elements.take n.num_elements

/-- The node chain of a list: the contents of each node from `head_` along `next_`. -/
def chunks {T : Type} (h : Heap T) (l : UnrolledLL) : Option (List (List T)) :=
  (nodesFrom h h.length l.head_).map (fun ns => ns.map Node.contents)

/-- The element counts of the nodes of the chain. -/
def counts {T : Type} (h : Heap T) (l : UnrolledLL) : Option (List Nat) :=
  (nodesFrom h h.length l.head_).map (fun ns => ns.map Node.num_elements)

/-- The logical element sequence of a list. -/
def toList {T : Type} (h : Heap T) (l : UnrolledLL) : Option (List T) :=
  (chunks h l).map List.flatten

/-- Walk of `k` steps from an iterator: dereference, then post-increment.  Returns the
values read and the final iterator. -/
def walk {T : Type} (h : Heap T) : Nat → list_iterator → Option (List T × list_iterator)
  | 0, it => some ([], it)
  | k + 1, it => do
    let v ← deref h it
    let it1 ← postIncr h it
    let (vs, e) ← walk h k it1
    some (v :: vs, e)

/-- A sequence of `push_back` calls, one per value, in order. -/
def pushAll {T : Type} [Inhabited T] : List T → UnrolledLL → Heap T → Option (UnrolledLL × Heap T)
  | [], l, h => some (l, h)
  | v :: vs, l, h => do
    let (l1, h1) ← push_back v l h
    pushAll vs l1 h1

/-! ## Well-formed lists -/

/-- The chain predicate: `Seg h prev p cells` says that from the pointer `p` the store holds a
NULL-terminated doubly linked chain of nodes, one per entry `(a, c)` of `cells`, where `a`
is the address of the node and `c` its valid contents; `prev` is the `prev_` link of the
first node.  Every node holds between 1 and 6 elements in an array of 6 slots. -/
def Seg {T : Type} (h : Heap T) : Option Nat → Option Nat → List (Nat × List T) → Prop
  | _, p, [] => p = none
  | prev, p, (a, c) :: rest =>
    p = some a ∧ ∃ n, readNode h (some a) = some n ∧ n.prev_ = prev ∧
      n.num_elements = c.length ∧ n.elements.length = NUM_ELEMENTS_PER_NODE ∧
      n.contents = c ∧ 1 ≤ c.length ∧ c.length ≤ NUM_ELEMENTS_PER_NODE ∧
      Seg h (some a) n.next_ rest

/-- The node chain of a list is `cells` in the store `h`: the chain from `head_` is `cells`,
no node occurs twice and `tail_` is the last node. -/
structure Chain {T : Type} (h : Heap T) (l : UnrolledLL) (cells : List (Nat × List T)) :
    Prop where
  seg : Seg h none l.head_ cells
  nodup : (cells.map Prod.fst).Nodup
  tail : l.tail_ = (cells.map Prod.fst).getLast?

/-- A list is represented by `cells` in the store `h`: its node chain is `cells` and
`size_` is the number of elements. -/
structure Rep {T : Type} (h : Heap T) (l : UnrolledLL) (cells : List (Nat × List T))
    extends Chain h l cells : Prop where
  size : l.size_ = ((cells.map Prod.snd).map List.length).sum
  bound : l.size_ < UINT_MOD

/-- Well-formedness of a list in a store. -/
def wf {T : Type} (h : Heap T) (l : UnrolledLL) : Prop := ∃ cells, Rep h l cells

/-- Every node of the chain but the last is full. -/
def Packed {T : Type} (cells : List (Nat × List T)) : Prop :=
  ∀ x ∈ cells.dropLast, x.2.length = NUM_ELEMENTS_PER_NODE

/-! ## Client loops and example states -/

/-- The client loop `while (!l.empty()) l.erase(l.begin());`, with `fuel` bounding the
number of iterations. -/
def eraseUntilEmpty {T : Type} : Nat → UnrolledLL → Heap T → Option (UnrolledLL × Heap T)
  | fuel, l, h =>
    if empty l then some (l, h)
    else
      match fuel with
      | 0 => none
      | k + 1 => do
        let (_, l1, h1) ← erase (begin l) l h
        eraseUntilEmpty k l1 h1

/-- The client loop `while (l.size() != 0) l.erase(l.begin());`, with `fuel` bounding the
number of iterations. -/
def eraseUntilSizeZero {T : Type} : Nat → UnrolledLL → Heap T → Option (UnrolledLL × Heap T)
  | fuel, l, h =>
    if size l = 0 then some (l, h)
    else
      match fuel with
      | 0 => none
      | k + 1 => do
        let (_, l1, h1) ← erase (begin l) l h
        eraseUntilSizeZero k l1 h1

/-- The store after `push_back(1)` on the empty list in the empty store. -/
def heap1 : Heap Nat :=
  [some { next_ := none, prev_ := none, elements := [1, 0, 0, 0, 0, 0], num_elements := 1 }]

/-- The list object after `push_back(1)`. -/
def list1 : UnrolledLL := { head_ := some 0, tail_ := some 0, size_ := 1 }

/-- The store after `push_back(1); push_back(2)`. -/
def heap2 : Heap Nat :=
  [some { next_ := none, prev_ := none, elements := [1, 2, 0, 0, 0, 0], num_elements := 2 }]

/-- The list object after `push_back(1); push_back(2)`. -/
def list2 : UnrolledLL := { head_ := some 0, tail_ := some 0, size_ := 2 }

/-- The store after `push_back(1); push_back(2); push_back(3)`. -/
def heap3 : Heap Nat :=
  [some { next_ := none, prev_ := none, elements := [1, 2, 3, 0, 0, 0], num_elements := 3 }]

/-- The list object after three `push_back` calls. -/
def list3 : UnrolledLL := { head_ := some 0, tail_ := some 0, size_ := 3 }

/-- The store after `push_back(1); ...; push_back(6)`: one full node. -/
def heap6 : Heap Nat :=
  [some { next_ := none, prev_ := none, elements := [1, 2, 3, 4, 5, 6], num_elements := 6 }]

/-- The list object after six `push_back` calls. -/
def list6 : UnrolledLL := { head_ := some 0, tail_ := some 0, size_ := 6 }

/-- The store after `push_back(1); ...; push_back(8)`: a full node and a node of two. -/
def heap8 : Heap Nat :=
  [some { next_ := some 1, prev_ := none, elements := [1, 2, 3, 4, 5, 6], num_elements := 6 },
   some { next_ := none, prev_ := some 0, elements := [7, 8, 0, 0, 0, 0], num_elements := 2 }]

/-- The list object after eight `push_back` calls. -/
def list8 : UnrolledLL := { head_ := some 0, tail_ := some 1, size_ := 8 }

/-- The store after `push_back(1); ...; push_back(7); push_front(0)`: the full node at
address 0 lies between the head node (address 2) and the tail node (address 1). -/
def heapMid : Heap Nat :=
  [some { next_ := some 1, prev_ := some 2, elements := [1, 2, 3, 4, 5, 6], num_elements := 6 },
   some { next_ := none, prev_ := some 0, elements := [7, 0, 0, 0, 0, 0], num_elements := 1 },
   some { next_ := some 0, prev_ := none, elements := [0, 0, 0, 0, 0, 0], num_elements := 1 }]

/-- The list object of `heapMid`. -/
def listMid : UnrolledLL := { head_ := some 2, tail_ := some 1, size_ := 8 }

/-! ## Positions, chains with an end pointer, operation sequences -/

/-- The chain predicate with an explicit end: as `Seg`, but the `next_` link of the last
node is `q` (and `p = q` for no node at all). -/
def SegTo {T : Type} (h : Heap T) :
    Option Nat → Option Nat → List (Nat × List T) → Option Nat → Prop
  | _, p, [], q => p = q
  | prev, p, (a, c) :: rest, q =>
    p = some a ∧ ∃ n, readNode h (some a) = some n ∧ n.prev_ = prev ∧
      n.num_elements = c.length ∧ n.elements.length = NUM_ELEMENTS_PER_NODE ∧
      n.contents = c ∧ 1 ≤ c.length ∧ c.length ≤ NUM_ELEMENTS_PER_NODE ∧
      SegTo h (some a) n.next_ rest q

/-- The address of the last node of `cells`, or `prev` when there is none. -/
def lastAddr {T : Type} : Option Nat → List (Nat × List T) → Option Nat
  | prev, [] => prev
  | _, (a, _) :: rest => lastAddr (some a) rest

/-- The iterator denoting the `k`-th element of the logical sequence of a chain. -/
def position {T : Type} : List (Nat × List T) → Nat → Option list_iterator
  | [], _ => none
  | (a, c) :: rest, k =>
    if k < c.length then some { ptr_ := some a, offset := k }
    else position rest (k - c.length)

/-- Whether an iterator is dereferenceable: `offset < ptr_->num_elements`. -/
def dereferenceable {T : Type} (h : Heap T) (it : list_iterator) : Bool :=
  match readNode h it.ptr_ with
  | some n => decide (it.offset < n.num_elements)
  | none => false

/-- The iterator after `k` post-increments. -/
def advance {T : Type} (h : Heap T) : Nat → list_iterator → Option list_iterator
  | 0, it => some it
  | k + 1, it => (postIncr h it).bind (advance h k)

/-- The loop `for (i = begin(); i != end(); i++)` of `print`, which writes `*i` and
`i.ptr_->num_elements` in every iteration; `fuel` bounds the number of iterations. -/
def printLoop {T : Type} (h : Heap T) :
    Nat → list_iterator → list_iterator → Option (List (T × Nat))
  | fuel, i, e =>
    if i ≠ e then
      match fuel with
      | 0 => none
      | k + 1 => do
        let v ← deref h i
        let n ← readNode h i.ptr_
        let i1 ← postIncr h i
        let rest ← printLoop h k i1 e
        some ((v, n.num_elements) :: rest)
    else some []

/-- The member `print`: the pairs written by the loop and the size written after it. -/
def print {T : Type} (h : Heap T) (l : UnrolledLL) (fuel : Nat) :
    Option (List (T × Nat) × Nat) :=
  (printLoop h fuel (begin l) (end_ l)).map (fun out => (out, l.size_))

/-- A call of one of the four end operations. -/
inductive Op (T : Type) where
  | push_back (v : T)
  | push_front (v : T)
  | pop_back
  | pop_front
  deriving Repr

/-- The effect of one call. -/
def applyOp {T : Type} [Inhabited T] :
    Op T → UnrolledLL → Heap T → Option (UnrolledLL × Heap T)
  | Op.push_back v, l, h => Unrolled.push_back v l h
  | Op.push_front v, l, h => Unrolled.push_front v l h
  | Op.pop_back, l, h => Unrolled.pop_back l h
  | Op.pop_front, l, h => Unrolled.pop_front l h

/-- The effect of a sequence of calls, in order. -/
def runOps {T : Type} [Inhabited T] :
    List (Op T) → UnrolledLL → Heap T → Option (UnrolledLL × Heap T)
  | [], l, h => some (l, h)
  | o :: os, l, h => do
    let (l1, h1) ← applyOp o l h
    runOps os l1 h1

/-- A sequence of calls is admissible from a list of `n` elements: every pop is applied to
a non-empty list, and every push to a list of fewer than `2 ^ 32 - 1` elements. -/
def opsOk {T : Type} : Nat → List (Op T) → Prop
  | _, [] => True
  | n, Op.push_back _ :: os => n + 1 < UINT_MOD ∧ opsOk (n + 1) os
  | n, Op.push_front _ :: os => n + 1 < UINT_MOD ∧ opsOk (n + 1) os
  | n, Op.pop_back :: os => 1 ≤ n ∧ opsOk (n - 1) os
  | n, Op.pop_front :: os => 1 ≤ n ∧ opsOk (n - 1) os

/-! ## Basic facts about the store -/

section store

variable {T : Type}

theorem readNode_lt {h : Heap T} {a : Nat} {n : Node T}
    (e : readNode h (some a) = some n) : a < h.length := by
  by_contra hc
  have : h[a]? = none := List.getElem?_eq_none (by omega)
  simp [readNode, this] at e

theorem readNode_set (h : Heap T) (a : Nat) (x : Option (Node T)) (q : Option Nat)
    (ha : a < h.length) :
    readNode (h.set a x) q = if q = some a then x else readNode h q := by
  cases q with
  | none => simp [readNode]
  | some b =>
    by_cases hb : b = a
    · subst hb
      simp [readNode, List.getElem?_set_self, ha]
    · have hba : a ≠ b := fun e => hb e.symm
      simp [readNode, List.getElem?_set_ne hba, hb]

theorem readNode_append (h : Heap T) (x : Option (Node T)) (q : Option Nat) :
    readNode (h ++ [x]) q = if q = some h.length then x else readNode h q := by
  cases q with
  | none => simp [readNode]
  | some b =>
    rcases Nat.lt_trichotomy b h.length with hb | hb | hb
    · have : b ≠ h.length := by omega
      simp [readNode, List.getElem?_append_left hb, this]
    · subst hb
      simp [readNode]
    · have h1 : (h ++ [x])[b]? = none := List.getElem?_eq_none (by simp; omega)
      have h2 : h[b]? = none := List.getElem?_eq_none (by omega)
      have : b ≠ h.length := by omega
      simp [readNode, h1, h2, this]

theorem modifyNode_some {h : Heap T} {a : Nat} {n : Node T} (f : Node T → Node T)
    (e : readNode h (some a) = some n) :
    modifyNode h (some a) f = some (h.set a (some (f n))) := by
  simp [modifyNode, e]

theorem deleteNode_some {h : Heap T} {a : Nat} {n : Node T}
    (e : readNode h (some a) = some n) :
    deleteNode h (some a) = some (h.set a none) := by
  simp [deleteNode, e]

end store

/-! ## Chains -/

section chains

variable {T : Type}

/-- A chain only depends on what the pointers dereference to. -/
theorem Seg.congr_read {h h2 : Heap T} (hr : ∀ p, readNode h2 p = readNode h p) :
    ∀ {cells : List (Nat × List T)} {prev p : Option Nat},
      Seg h prev p cells → Seg h2 prev p cells
  | [], _, _, hs => hs
  | (a, c) :: rest, _, _, hs => by
    obtain ⟨hp, n, hn, h1, h2, h3, h4, h5, h6, h7⟩ := hs
    exact ⟨hp, n, by rw [hr, hn], h1, h2, h3, h4, h5, h6, Seg.congr_read hr h7⟩

/-- A chain is untouched by a change of the store outside its addresses. -/
theorem Seg.frame {h h2 : Heap T} :
    ∀ {cells : List (Nat × List T)} {prev p : Option Nat},
      (∀ a ∈ cells.map Prod.fst, readNode h2 (some a) = readNode h (some a)) →
      Seg h prev p cells → Seg h2 prev p cells
  | [], _, _, _, hs => hs
  | (a, c) :: rest, _, _, hr, hs => by
    obtain ⟨hp, n, hn, h1, h2, h3, h4, h5, h6, h7⟩ := hs
    refine ⟨hp, n, ?_, h1, h2, h3, h4, h5, h6, Seg.frame (fun b hb => hr b ?_) h7⟩
    · rw [hr a (by simp), hn]
    · simp only [List.map_cons, List.mem_cons]
      exact Or.inr hb

/-- All addresses of a chain are allocated cells of the store. -/
theorem Seg.addr_lt {h : Heap T} :
    ∀ {cells : List (Nat × List T)} {prev p : Option Nat},
      Seg h prev p cells → ∀ a ∈ cells.map Prod.fst, a < h.length
  | [], _, _, _, a, ha => by simp at ha
  | (b, c) :: rest, _, _, hs, a, ha => by
    obtain ⟨_, n, hn, _, _, _, _, _, _, h7⟩ := hs
    simp only [List.map_cons, List.mem_cons] at ha
    rcases ha with ha | ha
    · subst ha
      exact readNode_lt hn
    · exact Seg.addr_lt h7 a ha

/-- With enough fuel the walk along `next_` finds exactly the nodes of the chain. -/
theorem Seg.nodesFrom_eq {h : Heap T} :
    ∀ {cells : List (Nat × List T)} {prev p : Option Nat} {f : Nat},
      Seg h prev p cells → cells.length ≤ f →
      ∃ ns, nodesFrom h f p = some ns ∧ ns.map Node.contents = cells.map Prod.snd ∧
        ns.map Node.num_elements = (cells.map Prod.snd).map List.length
  | [], _, _, f, hs, _ => by
    have hp : _ = none := hs
    subst hp
    cases f <;> exact ⟨[], rfl, rfl, rfl⟩
  | (a, c) :: rest, _, _, f, hs, hf => by
    obtain ⟨hp, n, hn, _, h2, _, h4, _, _, h7⟩ := hs
    subst hp
    cases f with
    | zero => simp at hf
    | succ k =>
      obtain ⟨ns, e1, e2, e3⟩ := Seg.nodesFrom_eq (f := k) h7 (by simpa using hf)
      refine ⟨n :: ns, ?_, ?_, ?_⟩
      · simp [Unrolled.nodesFrom, hn, e1]
      · simp [e2, h4]
      · simp [e3, h2]

/-- A duplicate-free list of numbers below `n` has at most `n` entries. -/
theorem length_le_of_nodup_lt {as : List Nat} {n : Nat} (hd : as.Nodup)
    (hlt : ∀ a ∈ as, a < n) : as.length ≤ n := by
  have hsub : as ⊆ List.range n := fun a ha => List.mem_range.mpr (hlt a ha)
  simpa using (hd.subperm hsub).length_le

theorem Chain.length_le {h : Heap T} {l : UnrolledLL} {cells : List (Nat × List T)}
    (hc : Chain h l cells) : cells.length ≤ h.length := by
  simpa using length_le_of_nodup_lt hc.nodup (Seg.addr_lt hc.seg)

/-- The computed node chain of a list is its representation. -/
theorem Chain.chunks_eq {h : Heap T} {l : UnrolledLL} {cells : List (Nat × List T)}
    (hc : Chain h l cells) : chunks h l = some (cells.map Prod.snd) := by
  obtain ⟨ns, e1, e2, _⟩ := Seg.nodesFrom_eq hc.seg hc.length_le
  simp [chunks, e1, e2]

theorem Chain.counts_eq {h : Heap T} {l : UnrolledLL} {cells : List (Nat × List T)}
    (hc : Chain h l cells) : counts h l = some ((cells.map Prod.snd).map List.length) := by
  obtain ⟨ns, e1, _, e3⟩ := Seg.nodesFrom_eq hc.seg hc.length_le
  simp [counts, e1, e3]

theorem Chain.toList_eq {h : Heap T} {l : UnrolledLL} {cells : List (Nat × List T)}
    (hc : Chain h l cells) : toList h l = some (cells.map Prod.snd).flatten := by
  simp [toList, hc.chunks_eq]

/-- The same list object has the same chain in any store that dereferences every pointer
to the same node. -/
theorem Chain.congr_store {h h2 : Heap T} {l : UnrolledLL} {cells : List (Nat × List T)}
    (hc : Chain h l cells) (he : ∀ p, readNode h2 p = readNode h p) : Chain h2 l cells :=
  ⟨Seg.congr_read he hc.seg, hc.nodup, hc.tail⟩

/-- The head and tail pointers are determined by the chain. -/
theorem Chain.ptr_eq {h h2 : Heap T} {l l2 : UnrolledLL} {cells : List (Nat × List T)}
    (hc : Chain h l cells) (hc2 : Chain h2 l2 cells) :
    l2.head_ = l.head_ ∧ l2.tail_ = l.tail_ := by
  refine ⟨?_, by rw [hc.tail, hc2.tail]⟩
  cases cells with
  | nil =>
    have e1 : l.head_ = none := hc.seg
    have e2 : l2.head_ = none := hc2.seg
    rw [e1, e2]
  | cons x rest =>
    obtain ⟨a, c⟩ := x
    have e1 : l.head_ = some a := hc.seg.1
    have e2 : l2.head_ = some a := hc2.seg.1
    rw [e1, e2]

/-- Replacing the part of a chain that starts at the node `t`: the nodes before `t` are
untouched, and the chain from `t` on is rebuilt from the old one. -/
theorem Seg.splice {h h2 : Heap T} {t : Nat} {c : List T}
    {rest tailcells : List (Nat × List T)} :
    ∀ {pre : List (Nat × List T)} {prev p : Option Nat},
      Seg h prev p (pre ++ (t, c) :: rest) →
      (∀ a ∈ pre.map Prod.fst, readNode h2 (some a) = readNode h (some a)) →
      (∀ prev2, Seg h prev2 (some t) ((t, c) :: rest) → Seg h2 prev2 (some t) tailcells) →
      Seg h2 prev p (pre ++ tailcells)
  | [], _, _, hs, _, hnew => by
    have hp : _ = some t := hs.1
    subst hp
    exact hnew _ hs
  | (a, ca) :: pre, _, _, hs, hfr, hnew => by
    obtain ⟨hp, n, hn, h1, h2, h3, h4, h5, h6, h7⟩ := hs
    refine ⟨hp, n, ?_, h1, h2, h3, h4, h5, h6, ?_⟩
    · rw [hfr a (by simp), hn]
    · exact Seg.splice h7 (fun b hb => hfr b (by
        simp only [List.map_cons, List.mem_cons]
        exact Or.inr hb)) hnew

/-- A non-empty chain ends in a last cell. -/
theorem exists_snoc_of_ne_nil {α : Type} {xs : List α} (hne : xs ≠ []) :
    ∃ pre x, xs = pre ++ [x] :=
  ⟨xs.dropLast, xs.getLast hne, (List.dropLast_append_getLast hne).symm⟩

end chains

/-! ## Arithmetic of `unsigned int` -/

theorem uinc_of_lt {x : Nat} (hx : x + 1 < UINT_MOD) : uinc x = x + 1 := by
  unfold uinc; exact Nat.mod_eq_of_lt hx

theorem udec_of_pos {x : Nat} (h1 : 1 ≤ x) (h2 : x < UINT_MOD) : udec x = x - 1 := by
  unfold udec UINT_MOD at *; omega

theorem udec_uinc {x : Nat} (hx : x < UINT_MOD) : udec (uinc x) = x := by
  unfold udec uinc UINT_MOD at *; omega

theorem uinc_ne_one {x : Nat} (h1 : 1 ≤ x) (hx : x < UINT_MOD) : uinc x ≠ 1 := by
  unfold uinc UINT_MOD at *; omega

/-! ## Shape of a represented list -/

section shape

variable {T : Type}

theorem Rep.nil_inv {h : Heap T} {l : UnrolledLL} (hr : Rep h l []) :
    l = UnrolledLL.empty_list := by
  have h1 : l.head_ = none := hr.seg
  have h2 : l.tail_ = none := by simpa using hr.tail
  have h3 : l.size_ = 0 := by simpa using hr.size
  cases l
  simp_all [UnrolledLL.empty_list]

theorem Rep.cons_inv {h : Heap T} {l : UnrolledLL} {a : Nat} {c : List T}
    {rest : List (Nat × List T)} (hr : Rep h l ((a, c) :: rest)) :
    l.head_ = some a ∧ (∃ t, l.tail_ = some t) ∧ 1 ≤ l.size_ ∧
      ∃ n, readNode h (some a) = some n ∧ n.prev_ = none ∧ n.num_elements = c.length := by
  obtain ⟨hp, n, hn, h1, h2, _, _, h5, _, _⟩ := hr.seg
  refine ⟨hp, ?_, ?_, n, hn, h1, h2⟩
  · rw [hr.tail]
    cases hq : (List.map Prod.fst ((a, c) :: rest)).getLast? with
    | none => simp at hq
    | some t => exact ⟨t, rfl⟩
  · rw [hr.size]
    simp only [List.map_cons, List.sum_cons]
    omega

end shape

/-! ## `push_back` on the chain -/

section pushback

variable {T : Type}

theorem take_set_succ (v : T) : ∀ (es : List T) (i : Nat), i < es.length →
    (es.set i v).take (i + 1) = es.take i ++ [v]
  | [], _, hi => by simp at hi
  | _ :: es, 0, _ => by simp
  | x :: es, i + 1, hi => by
    have := take_set_succ v es i (by simpa using hi)
    simp [this]

/-- The last node of a chain. -/
theorem Seg.last_node {h : Heap T} {t : Nat} {c : List T} :
    ∀ {pre : List (Nat × List T)} {prev p : Option Nat},
      Seg h prev p (pre ++ [(t, c)]) →
      ∃ n, readNode h (some t) = some n ∧ n.next_ = none ∧ n.num_elements = c.length ∧
        n.elements.length = NUM_ELEMENTS_PER_NODE ∧ n.contents = c ∧ 1 ≤ c.length ∧
        c.length ≤ NUM_ELEMENTS_PER_NODE
  | [], _, _, hs => by
    obtain ⟨_, n, hn, _, h2, h3, h4, h5, h6, h7⟩ := hs
    exact ⟨n, hn, h7, h2, h3, h4, h5, h6⟩
  | _ :: pre, _, _, hs => by
    obtain ⟨_, n, _, _, _, _, _, _, _, h7⟩ := hs
    exact Seg.last_node h7

theorem Chain.snoc_inv {h : Heap T} {l : UnrolledLL} {pre : List (Nat × List T)} {t : Nat}
    {c : List T} (hc : Chain h l (pre ++ [(t, c)])) :
    l.tail_ = some t ∧ t ∉ pre.map Prod.fst ∧ (pre.map Prod.fst).Nodup ∧
      (∀ a ∈ pre.map Prod.fst, a < h.length) := by
  have hnd := hc.nodup
  simp only [List.map_append, List.map_cons, List.map_nil] at hnd
  have hnd2 := List.nodup_append.mp hnd
  refine ⟨by simp [hc.tail], ?_, hnd2.1, ?_⟩
  · intro hmem
    exact hnd2.2.2 hmem (by simp)
  · intro a ha
    exact Seg.addr_lt hc.seg a (by simp [List.mem_append]; simp at ha; exact Or.inl ha)

variable [Inhabited T]

theorem Node.new_contents (v : T) : (Node.new v).contents = [v] := rfl

theorem Node.new_length (v : T) : (Node.new v).elements.length = NUM_ELEMENTS_PER_NODE := by
  simp [Node.new]

/-- `push_back` on the empty chain allocates a one-element node. -/
theorem push_back_nil {h : Heap T} {l : UnrolledLL} (v : T) (hc : Chain h l []) :
    ∃ l1 h1, push_back v l h = some (l1, h1) ∧ Chain h1 l1 [(h.length, [v])] ∧
      l1.size_ = uinc l.size_ := by
  have htl : l.tail_ = none := by simpa using hc.tail
  refine ⟨{ head_ := some h.length, tail_ := some h.length, size_ := uinc l.size_ },
    h ++ [some (Node.new v)], by simp only [push_back, htl, allocNode], ?_, rfl⟩
  refine ⟨⟨rfl, Node.new v, by simp [readNode_append], rfl, rfl, Node.new_length v, rfl,
    by simp, by simp [NUM_ELEMENTS_PER_NODE], rfl⟩, by simp, by simp⟩

/-- `push_back` on a chain whose tail node has room stores the value in the tail node. -/
theorem push_back_room {h : Heap T} {l : UnrolledLL} {pre : List (Nat × List T)} {t : Nat}
    {c : List T} (v : T) (hc : Chain h l (pre ++ [(t, c)]))
    (hroom : c.length < NUM_ELEMENTS_PER_NODE) :
    ∃ l1 h1, push_back v l h = some (l1, h1) ∧ Chain h1 l1 (pre ++ [(t, c ++ [v])]) ∧
      l1.size_ = uinc l.size_ := by
  obtain ⟨htl, hnot, _, _⟩ := hc.snoc_inv
  obtain ⟨n, hn, hnext, hcnt, hlen, hcon, hpos, hle⟩ := Seg.last_node hc.seg
  have hlt := readNode_lt hn
  have hlt6 : c.length < 6 := hroom
  have hu : uinc c.length = c.length + 1 := uinc_of_lt (by unfold UINT_MOD; omega)
  have hd : udec (c.length + 1) = c.length := by
    rw [← hu]; exact udec_uinc (by unfold UINT_MOD; omega)
  let n1 : Node T := { n with num_elements := uinc n.num_elements }
  let s1 : Heap T := h.set t (some n1)
  have r1 : ∀ q, readNode s1 q = if q = some t then some n1 else readNode h q :=
    fun q => readNode_set h t _ q hlt
  have r1t : readNode s1 (some t) = some n1 := by rw [r1]; simp
  let n2 : Node T := { n1 with elements := n.elements.set c.length v }
  let s2 : Heap T := s1.set t (some n2)
  have r2 : ∀ q, readNode s2 q = if q = some t then some n2 else readNode s1 q :=
    fun q => readNode_set s1 t _ q (by simp [s1]; exact hlt)
  have hset : setElem n1.elements (udec n1.num_elements) v
      = some (n.elements.set c.length v) := by
    have e1 : n1.num_elements = c.length + 1 := by simp only [n1]; rw [hcnt, hu]
    have e2 : n1.elements = n.elements := rfl
    have e3 : c.length < n.elements.length := by rw [hlen]; exact hroom
    rw [e1, hd, e2, setElem, if_pos e3]
  refine ⟨{ l with size_ := uinc l.size_ }, s2, ?_, ?_, rfl⟩
  · have hlt2 : n.num_elements < NUM_ELEMENTS_PER_NODE := by rw [hcnt]; exact hroom
    simp only [push_back, htl, hn, Option.bind_eq_bind, Option.some_bind, hlt2, if_true]
    rw [modifyNode_some _ hn]
    simp only [Option.some_bind]
    rw [r1t]
    simp only [Option.some_bind]
    rw [hset]
    simp only [Option.some_bind]
    rw [modifyNode_some _ r1t]
    rfl
  · refine ⟨?_, ?_, ?_⟩
    · refine Seg.splice hc.seg ?_ ?_
      · intro a ha
        have hat : a ≠ t := fun e => hnot (e ▸ ha)
        rw [r2, r1]; simp [hat]
      · intro prev2 hs
        obtain ⟨_, m, hm, hp, _, _, _, _, _, _⟩ := hs
        have hmn : n = m := by rw [hn] at hm; exact Option.some.inj hm
        subst hmn
        refine ⟨rfl, n2, by rw [r2]; simp, hp, ?_, ?_, ?_, ?_, ?_, hnext⟩
        · simp only [n2, n1]; rw [hcnt, hu]; simp
        · simp only [n2]; rw [List.length_set]; exact hlen
        · have e3 : c.length < n.elements.length := by rw [hlen]; exact hroom
          have : n2.contents = (n.elements.set c.length v).take (c.length + 1) := by
            simp only [Node.contents, n2, n1]; rw [hcnt, hu]
          rw [this, take_set_succ v _ _ e3]
          have hc2 : n.elements.take c.length = c := by
            have := hcon; simp only [Node.contents, hcnt] at this; exact this
          rw [hc2]
        · simp
        · simp; exact hroom
    · have := hc.nodup; simpa using this
    · simp [htl]

/-- `push_back` on a chain whose tail node is full links a new one-element node after the
tail node. -/
theorem push_back_full {h : Heap T} {l : UnrolledLL} {pre : List (Nat × List T)} {t : Nat}
    {c : List T} (v : T) (hc : Chain h l (pre ++ [(t, c)]))
    (hfull : c.length = NUM_ELEMENTS_PER_NODE) :
    ∃ l1 h1, push_back v l h = some (l1, h1) ∧
      Chain h1 l1 (pre ++ [(t, c), (h.length, [v])]) ∧ l1.size_ = uinc l.size_ := by
  obtain ⟨htl, hnot, hnd, hall⟩ := hc.snoc_inv
  obtain ⟨n, hn, hnext, hcnt, hlen, hcon, hpos, hle⟩ := Seg.last_node hc.seg
  have hlt := readNode_lt hn
  have hne : t ≠ h.length := by omega
  let new := Node.new v
  let s1 : Heap T := h ++ [some new]
  have r1 : ∀ q, readNode s1 q = if q = some h.length then some new else readNode h q :=
    fun q => readNode_append h _ q
  have r1n : readNode s1 (some h.length) = some new := by rw [r1]; simp
  let new2 : Node T := { new with prev_ := some t }
  let s2 : Heap T := s1.set h.length (some new2)
  have r2 : ∀ q, readNode s2 q = if q = some h.length then some new2 else readNode s1 q :=
    fun q => readNode_set s1 h.length _ q (by simp [s1])
  have r2t : readNode s2 (some t) = some n := by rw [r2, r1]; simp [hne, hn]
  let n3 : Node T := { n with next_ := some h.length }
  let s3 : Heap T := s2.set t (some n3)
  have r3 : ∀ q, readNode s3 q = if q = some t then some n3 else readNode s2 q :=
    fun q => readNode_set s2 t _ q (by simp [s2, s1]; omega)
  refine ⟨{ l with tail_ := some h.length, size_ := uinc l.size_ }, s3, ?_, ?_, rfl⟩
  · have hlt2 : ¬ n.num_elements < NUM_ELEMENTS_PER_NODE := by rw [hcnt, hfull]; simp
    simp only [push_back, htl, hn, Option.bind_eq_bind, Option.some_bind, hlt2, if_false,
      allocNode]
    rw [modifyNode_some _ r1n]
    simp only [Option.some_bind]
    rw [modifyNode_some _ r2t]
    rfl
  · refine ⟨?_, ?_, ?_⟩
    · refine Seg.splice hc.seg ?_ ?_
      · intro a ha
        have hat : a ≠ t := fun e => hnot (e ▸ ha)
        have hal : a ≠ h.length := by have := hall a ha; omega
        rw [r3, r2, r1]; simp [hat, hal]
      · intro prev2 hs
        obtain ⟨_, m, hm, hp, _, _, _, _, _, _⟩ := hs
        have hmn : n = m := by rw [hn] at hm; exact Option.some.inj hm
        subst hmn
        refine ⟨rfl, n3, by rw [r3]; simp, hp, hcnt, hlen, hcon, hpos, hle, ?_⟩
        refine ⟨rfl, new2, ?_, rfl, rfl, Node.new_length v, rfl, by simp,
          by simp [NUM_ELEMENTS_PER_NODE], rfl⟩
        rw [r3, r2]; simp [Ne.symm hne]
    · have hnd0 := hc.nodup
      simp only [List.map_append, List.map_cons, List.map_nil] at hnd0 ⊢
      rw [List.nodup_append] at hnd0 ⊢
      refine ⟨hnd0.1, ?_, ?_⟩
      · simp [hne]
      · intro a ha1 ha2
        simp only [List.mem_cons, List.mem_singleton, List.not_mem_nil, or_false] at ha2
        rcases ha2 with e | e
        · exact hnot (e ▸ ha1)
        · have := hall a ha1; omega
    · simp

end pushback

/-! ## `pop_back` on the chain -/

section popback

variable {T : Type}

/-- The part of a chain after some of its first nodes is a chain. -/
theorem Seg.suffix {h : Heap T} {ys : List (Nat × List T)} :
    ∀ {pre : List (Nat × List T)} {prev p : Option Nat},
      Seg h prev p (pre ++ ys) → ∃ prev2 p2, Seg h prev2 p2 ys
  | [], prev, p, hs => ⟨prev, p, hs⟩
  | _ :: pre, _, _, hs => by
    obtain ⟨_, n, _, _, _, _, _, _, _, h7⟩ := hs
    exact Seg.suffix h7

/-- `pop_back` on a chain whose tail node holds more than one element drops the last
element of the tail node. -/
theorem pop_back_shrink {h : Heap T} {l : UnrolledLL} {pre : List (Nat × List T)} {t : Nat}
    {c : List T} (v : T) (hc : Chain h l (pre ++ [(t, c ++ [v])])) (hpos : 1 ≤ c.length)
    (hsz : l.size_ ≠ 1) :
    ∃ l2 h2, pop_back l h = some (l2, h2) ∧ Chain h2 l2 (pre ++ [(t, c)]) ∧
      l2.size_ = udec l.size_ := by
  obtain ⟨htl, hnot, _, _⟩ := hc.snoc_inv
  obtain ⟨n, hn, hnext, hcnt, hlen, hcon, _, hle⟩ := Seg.last_node hc.seg
  have hlt := readNode_lt hn
  have hcnt2 : n.num_elements = c.length + 1 := by simpa using hcnt
  have hle6 : c.length + 1 ≤ 6 := by simpa [NUM_ELEMENTS_PER_NODE] using hle
  have hd : udec (c.length + 1) = c.length := by
    rw [udec_of_pos (by omega) (by unfold UINT_MOD; omega)]; rfl
  let n1 : Node T := { n with num_elements := udec n.num_elements }
  let s1 : Heap T := h.set t (some n1)
  have r1 : ∀ q, readNode s1 q = if q = some t then some n1 else readNode h q :=
    fun q => readNode_set h t _ q hlt
  refine ⟨{ l with size_ := udec l.size_ }, s1, ?_, ?_, rfl⟩
  · have hne1 : n.num_elements ≠ 1 := by omega
    simp only [pop_back, hsz, if_false, htl, hn, Option.bind_eq_bind, Option.some_bind, hne1]
    rw [modifyNode_some _ hn]
    rfl
  · refine ⟨?_, ?_, ?_⟩
    · refine Seg.splice hc.seg ?_ ?_
      · intro a ha
        have hat : a ≠ t := fun e => hnot (e ▸ ha)
        rw [r1]; simp [hat]
      · intro prev2 hs
        obtain ⟨_, m, hm, hp, _, _, _, _, _, _⟩ := hs
        have hmn : n = m := by rw [hn] at hm; exact Option.some.inj hm
        subst hmn
        refine ⟨rfl, n1, by rw [r1]; simp, hp, ?_, hlen, ?_, hpos, by
          simp only [NUM_ELEMENTS_PER_NODE]; omega, hnext⟩
        · simp only [n1]; rw [hcnt2, hd]
        · have e1 : n1.contents = n.elements.take c.length := by
            simp only [Node.contents, n1]; rw [hcnt2, hd]
          have e2 : n.elements.take (c.length + 1) = c ++ [v] := by
            have := hcon; simp only [Node.contents, hcnt2] at this; exact this
          have e3 : n.elements.take c.length = (n.elements.take (c.length + 1)).take c.length := by
            rw [List.take_take]; simp
          rw [e1, e3, e2]; simp
    · have := hc.nodup; simpa using this
    · simp [htl]

/-- `pop_back` on a chain of at least two nodes whose tail node holds one element has no
result: the tail node is released by `delete []`. -/
theorem pop_back_unlink {h : Heap T} {l : UnrolledLL} {pre : List (Nat × List T)} {t u : Nat}
    {c : List T} (v : T) (hc : Chain h l (pre ++ [(t, c), (u, [v])])) (hsz : l.size_ ≠ 1) :
    pop_back l h = none := by
  have hc2 : Chain h l ((pre ++ [(t, c)]) ++ [(u, [v])]) := by simpa using hc
  obtain ⟨htl, _, _, _⟩ := hc2.snoc_inv
  obtain ⟨nu, hnu, _, hcntu, _⟩ := Seg.last_node hc2.seg
  have hone : nu.num_elements = 1 := by simpa using hcntu
  simp only [pop_back, hsz, if_false, htl, hnu, Option.bind_eq_bind, Option.some_bind, hone,
    if_true, deleteArray, Option.none_bind]

end popback

/-! ## Iteration over a chain -/

section iteration

variable {T : Type}

/-- Walking through one node: from offset `o` of a node with contents `c`, `k` steps read
the rest of the node, and the walk continues from the position `q` reached by the
increment at the node's last valid offset. -/
theorem walk_node {h : Heap T} {a : Nat} {n : Node T} {cv : List T}
    (hn : readNode h (some a) = some n) (hcnt : n.num_elements = cv.length)
    (hcon : n.contents = cv) (hle : cv.length ≤ NUM_ELEMENTS_PER_NODE)
    {m : Nat} {q e : list_iterator} {r : List T}
    (hq : q = if n.next_ = none then { ptr_ := some a, offset := NUM_ELEMENTS_PER_NODE }
      else { ptr_ := n.next_, offset := 0 })
    (hrest : walk h m q = some (r, e)) :
    ∀ (k o : Nat), o + (k + 1) = cv.length →
      walk h (k + 1 + m) { ptr_ := some a, offset := o } = some (cv.drop o ++ r, e) := by
  have hle6 : cv.length ≤ 6 := hle
  have hderef : ∀ o (ho : o < cv.length),
      deref h { ptr_ := some a, offset := o } = some (cv[o]) := by
    intro o ho
    have e1 : cv[o]? = n.elements[o]? := by
      rw [← hcon, Node.contents, hcnt]
      exact List.getElem?_take_of_lt ho
    simp only [deref, hn, Option.bind_eq_bind, Option.some_bind]
    rw [← e1, List.getElem?_eq_getElem ho]
  intro k
  induction k with
  | zero =>
    intro o ho
    have ho1 : o < cv.length := by omega
    have hud : udec n.num_elements = o := by
      rw [hcnt, udec_of_pos (by omega) (by unfold UINT_MOD; omega)]; omega
    have hinc : postIncr h { ptr_ := some a, offset := o } = some q := by
      simp only [postIncr, hn, Option.bind_eq_bind, Option.some_bind, hud, and_true]
      rw [hq]
      by_cases hnx : n.next_ = none <;> simp [hnx]
    have hw : walk h (0 + 1 + m) { ptr_ := some a, offset := o }
        = some (cv[o] :: r, e) := by
      have : 0 + 1 + m = m + 1 := by omega
      rw [this]
      simp only [walk, hderef o ho1, hinc, hrest, Option.bind_eq_bind, Option.some_bind]
    rw [hw, List.drop_eq_getElem_cons ho1]
    have hnil : cv.drop (o + 1) = [] := List.drop_eq_nil_of_le (by omega)
    rw [hnil]; rfl
  | succ k ih =>
    intro o ho
    have ho1 : o < cv.length := by omega
    have hud : udec n.num_elements ≠ o := by
      rw [hcnt, udec_of_pos (by omega) (by unfold UINT_MOD; omega)]; omega
    have hui : uinc o = o + 1 := uinc_of_lt (by unfold UINT_MOD; omega)
    have hinc : postIncr h { ptr_ := some a, offset := o }
        = some { ptr_ := some a, offset := o + 1 } := by
      simp only [postIncr, hn, Option.bind_eq_bind, Option.some_bind, hud, and_false,
        if_false, Ne.symm hud, hui]
    have hw : walk h (k + 1 + 1 + m) { ptr_ := some a, offset := o }
        = some (cv[o] :: (cv.drop (o + 1) ++ r), e) := by
      have : k + 1 + 1 + m = (k + 1 + m) + 1 := by omega
      rw [this]
      simp only [walk, hderef o ho1, hinc, ih (o + 1) (by omega), Option.bind_eq_bind,
        Option.some_bind]
    rw [hw, List.drop_eq_getElem_cons ho1]; rfl

/-- Walking from the first element of a chain reads all its elements in order and arrives
at offset `NUM_ELEMENTS_PER_NODE` of the last node. -/
theorem Seg.walk_all {h : Heap T} :
    ∀ {rest : List (Nat × List T)} {a : Nat} {c : List T} {prev : Option Nat},
      Seg h prev (some a) ((a, c) :: rest) →
      Unrolled.walk h ((((a, c) :: rest).map Prod.snd).flatten.length)
          { ptr_ := some a, offset := 0 }
        = some ((((a, c) :: rest).map Prod.snd).flatten,
            { ptr_ := (((a, c) :: rest).map Prod.fst).getLast?,
              offset := NUM_ELEMENTS_PER_NODE })
  | [], a, c, _, hs => by
    obtain ⟨_, n, hn, _, hcnt, _, hcon, hpos, hle, hnext⟩ := hs
    have hnx : n.next_ = none := hnext
    have := walk_node hn hcnt hcon hle (m := 0)
      (q := { ptr_ := some a, offset := NUM_ELEMENTS_PER_NODE })
      (e := { ptr_ := some a, offset := NUM_ELEMENTS_PER_NODE }) (r := [])
      (by simp [hnx]) rfl (c.length - 1) 0 (by omega)
    have hk : c.length - 1 + 1 + 0 = c.length := by omega
    rw [hk] at this
    simpa using this
  | (b, cb) :: rest, a, c, _, hs => by
    obtain ⟨_, n, hn, _, hcnt, _, hcon, hpos, hle, hnext⟩ := hs
    have hnx : n.next_ = some b := hnext.1
    rw [hnx] at hnext
    have ih := Seg.walk_all hnext
    have := walk_node hn hcnt hcon hle (q := { ptr_ := some b, offset := 0 })
      (by simp [hnx]) ih (c.length - 1) 0 (by omega)
    have hk : c.length - 1 + 1 + (((b, cb) :: rest).map Prod.snd).flatten.length
        = (((a, c) :: (b, cb) :: rest).map Prod.snd).flatten.length := by
      simp; omega
    rw [hk] at this
    simpa using this

/-- On a non-empty chain, walking from `begin()` for as many steps as there are elements
reads the logical sequence and arrives at `end()`. -/
theorem Chain.walk_begin {h : Heap T} {l : UnrolledLL} {cells : List (Nat × List T)}
    (hc : Chain h l cells) (hne : cells ≠ []) :
    Unrolled.walk h (cells.map Prod.snd).flatten.length (begin l)
      = some ((cells.map Prod.snd).flatten, end_ l) := by
  cases cells with
  | nil => exact absurd rfl hne
  | cons x rest =>
    obtain ⟨a, c⟩ := x
    have hs := hc.seg
    have hhd : l.head_ = some a := hs.1
    rw [hhd] at hs
    have := Seg.walk_all hs
    simp only [begin, end_, hhd, hc.tail]
    exact this

end iteration

/-! ## Sequences of `push_back` -/

section pushall

variable {T : Type} [Inhabited T]

theorem uinc_add (x n : Nat) : (uinc x + n) % UINT_MOD = (x + (n + 1)) % UINT_MOD := by
  unfold uinc
  rw [Nat.add_mod, Nat.mod_mod, ← Nat.add_mod]
  congr 1
  omega

/-- The state after a sequence of `push_back` calls on a list whose nodes are packed. -/
theorem pushAll_chain : ∀ (vs : List T) (l : UnrolledLL) (h : Heap T)
    (cells : List (Nat × List T)), Chain h l cells → Packed cells → l.size_ < UINT_MOD →
    ∃ l1 h1 cells1, pushAll vs l h = some (l1, h1) ∧ Chain h1 l1 cells1 ∧ Packed cells1 ∧
      (cells1.map Prod.snd).flatten = (cells.map Prod.snd).flatten ++ vs ∧
      l1.size_ = (l.size_ + vs.length) % UINT_MOD
  | [], l, h, cells, hc, hp, hb =>
    ⟨l, h, cells, rfl, hc, hp, by simp, by simp [Nat.mod_eq_of_lt hb]⟩
  | v :: vs, l, h, cells, hc, hp, _ => by
    have step : ∃ l1 h1 cells1, push_back v l h = some (l1, h1) ∧ Chain h1 l1 cells1 ∧
        Packed cells1 ∧ (cells1.map Prod.snd).flatten = (cells.map Prod.snd).flatten ++ [v] ∧
        l1.size_ = uinc l.size_ := by
      by_cases hnil : cells = []
      · subst hnil
        obtain ⟨l1, h1, e1, c1, z1⟩ := push_back_nil v hc
        exact ⟨l1, h1, _, e1, c1, by simp [Packed], by simp, z1⟩
      · obtain ⟨pre, ⟨t, c⟩, hcons⟩ := exists_snoc_of_ne_nil hnil
        subst hcons
        rcases Nat.lt_or_ge c.length NUM_ELEMENTS_PER_NODE with hroom | hfull
        · obtain ⟨l1, h1, e1, c1, z1⟩ := push_back_room v hc hroom
          refine ⟨l1, h1, _, e1, c1, ?_, by simp, z1⟩
          simpa [Packed] using hp
        · obtain ⟨_, _, _, _, _, _, _, hle⟩ := Seg.last_node hc.seg
          have hfull2 : c.length = NUM_ELEMENTS_PER_NODE := by omega
          obtain ⟨l1, h1, e1, c1, z1⟩ := push_back_full v hc hfull2
          refine ⟨l1, h1, _, e1, c1, ?_, by simp, z1⟩
          intro x hx
          have hdl : (pre ++ [(t, c), (h.length, [v])]).dropLast = pre ++ [(t, c)] := by
            simp [List.dropLast_append_cons]
          rw [hdl, List.mem_append] at hx
          rcases hx with hx | hx
          · exact hp x (by simpa using hx)
          · simp only [List.mem_singleton] at hx
            subst hx
            exact hfull2
    obtain ⟨l1, h1, cells1, e1, c1, p1, f1, z1⟩ := step
    have hb1 : l1.size_ < UINT_MOD := by
      rw [z1]; exact Nat.mod_lt _ (by unfold UINT_MOD; omega)
    obtain ⟨l2, h2, cells2, e2, c2, p2, f2, z2⟩ := pushAll_chain vs l1 h1 cells1 c1 p1 hb1
    refine ⟨l2, h2, cells2, ?_, c2, p2, ?_, ?_⟩
    · simp only [pushAll, e1, Option.bind_eq_bind, Option.some_bind, e2]
    · rw [f2, f1]; simp
    · rw [z2, z1, uinc_add]; simp

omit [Inhabited T] in
/-- The empty list has the empty chain in every store. -/
theorem Chain.of_empty_list (h : Heap T) : Chain h UnrolledLL.empty_list [] :=
  ⟨rfl, by simp, by simp [UnrolledLL.empty_list]⟩

/-- The state after a sequence of `push_back` calls on the empty list. -/
theorem pushAll_empty (vs : List T) (h : Heap T) :
    ∃ l1 h1 cells1, pushAll vs UnrolledLL.empty_list h = some (l1, h1) ∧
      Chain h1 l1 cells1 ∧ Packed cells1 ∧ (cells1.map Prod.snd).flatten = vs ∧
      l1.size_ = vs.length % UINT_MOD := by
  obtain ⟨l1, h1, cells1, e1, c1, p1, f1, z1⟩ :=
    pushAll_chain vs UnrolledLL.empty_list h [] (Chain.of_empty_list h) (by simp [Packed])
      (by simp [UnrolledLL.empty_list, UINT_MOD])
  exact ⟨l1, h1, cells1, e1, c1, p1, by simpa using f1,
    by simpa [UnrolledLL.empty_list] using z1⟩

end pushall

/-! ## Node counts of a packed chain -/

section packed

variable {T : Type}

/-- The element counts of a packed chain are determined by the number of elements. -/
theorem packed_lengths (pre : List Nat) (r : Nat) (hfull : ∀ x ∈ pre, x = 6) (h1 : 1 ≤ r)
    (h2 : r ≤ 6) :
    pre ++ [r] = List.replicate (((pre ++ [r]).sum + 5) / 6 - 1) 6 ++
      [(pre ++ [r]).sum - 6 * (((pre ++ [r]).sum + 5) / 6 - 1)] := by
  have hp : pre = List.replicate pre.length 6 := List.eq_replicate_iff.mpr ⟨rfl, hfull⟩
  have hs : (pre ++ [r]).sum = 6 * pre.length + r := by
    rw [List.sum_append, hp]; simp; ring
  rw [hs]
  have e1 : (6 * pre.length + r + 5) / 6 - 1 = pre.length := by omega
  rw [e1]
  have e2 : 6 * pre.length + r - 6 * pre.length = r := by omega
  rw [e2, ← hp]

/-- The element counts along a packed, non-empty chain holding `n` elements. -/
theorem Chain.packed_counts {h : Heap T} {l : UnrolledLL} {cells : List (Nat × List T)}
    (hc : Chain h l cells) (hp : Packed cells) (hne : cells ≠ []) :
    (cells.map Prod.snd).map List.length =
      List.replicate (((cells.map Prod.snd).flatten.length + 5) / 6 - 1) 6 ++
        [(cells.map Prod.snd).flatten.length
          - 6 * (((cells.map Prod.snd).flatten.length + 5) / 6 - 1)] := by
  obtain ⟨pre, ⟨t, c⟩, rfl⟩ := exists_snoc_of_ne_nil hne
  obtain ⟨_, _, _, _, _, _, hpos, hle⟩ := Seg.last_node hc.seg
  have hfull : ∀ x ∈ (pre.map Prod.snd).map List.length, x = 6 := by
    intro x hx
    simp only [List.map_map, List.mem_map, Function.comp] at hx
    obtain ⟨y, hy, rfl⟩ := hx
    exact hp y (by simpa using hy)
  have := packed_lengths _ c.length hfull hpos hle
  rw [List.length_flatten]
  simpa using this

end packed

/-! ## The example states are well-formed -/

theorem rep_list1 : Rep heap1 list1 [(0, [1])] :=
  { seg := ⟨rfl, _, rfl, rfl, rfl, rfl, rfl, by decide, by decide, rfl⟩
    nodup := by decide
    tail := rfl
    size := rfl
    bound := by decide }

theorem rep_list2 : Rep heap2 list2 [(0, [1, 2])] :=
  { seg := ⟨rfl, _, rfl, rfl, rfl, rfl, rfl, by decide, by decide, rfl⟩
    nodup := by decide
    tail := rfl
    size := rfl
    bound := by decide }

theorem rep_list3 : Rep heap3 list3 [(0, [1, 2, 3])] :=
  { seg := ⟨rfl, _, rfl, rfl, rfl, rfl, rfl, by decide, by decide, rfl⟩
    nodup := by decide
    tail := rfl
    size := rfl
    bound := by decide }

theorem rep_list6 : Rep heap6 list6 [(0, [1, 2, 3, 4, 5, 6])] :=
  { seg := ⟨rfl, _, rfl, rfl, rfl, rfl, rfl, by decide, by decide, rfl⟩
    nodup := by decide
    tail := rfl
    size := rfl
    bound := by decide }

theorem rep_list8 : Rep heap8 list8 [(0, [1, 2, 3, 4, 5, 6]), (1, [7, 8])] :=
  { seg := ⟨rfl, _, rfl, rfl, rfl, rfl, rfl, by decide, by decide,
      rfl, _, rfl, rfl, rfl, rfl, rfl, by decide, by decide, rfl⟩
    nodup := by decide
    tail := rfl
    size := rfl
    bound := by decide }

theorem rep_listMid :
    Rep heapMid listMid [(2, [0]), (0, [1, 2, 3, 4, 5, 6]), (1, [7])] :=
  { seg := ⟨rfl, _, rfl, rfl, rfl, rfl, rfl, by decide, by decide,
      rfl, _, rfl, rfl, rfl, rfl, rfl, by decide, by decide,
      rfl, _, rfl, rfl, rfl, rfl, rfl, by decide, by decide, rfl⟩
    nodup := by decide
    tail := rfl
    size := rfl
    bound := by decide }

/-- The example states are the ones the operations build from the empty list. -/
theorem examples_built :
    pushAll [1] UnrolledLL.empty_list [] = some (list1, heap1) ∧
    pushAll [1, 2] UnrolledLL.empty_list [] = some (list2, heap2) ∧
    pushAll [1, 2, 3] UnrolledLL.empty_list [] = some (list3, heap3) ∧
    pushAll [1, 2, 3, 4, 5, 6] UnrolledLL.empty_list [] = some (list6, heap6) ∧
    pushAll [1, 2, 3, 4, 5, 6, 7, 8] UnrolledLL.empty_list [] = some (list8, heap8) ∧
    (pushAll [1, 2, 3, 4, 5, 6, 7] UnrolledLL.empty_list []).bind
      (fun s => push_front 0 s.1 s.2) = some (listMid, heapMid) := by
  refine ⟨?_, ?_, ?_, ?_, ?_, ?_⟩ <;> decide

/-! ## Chains with an end pointer -/

section segto

variable {T : Type}

/-- The total number of elements of the cells. -/
theorem total_eq_flatten (cells : List (Nat × List T)) :
    ((cells.map Prod.snd).map List.length).sum = (cells.map Prod.snd).flatten.length := by
  rw [List.length_flatten]

theorem Seg.toSegTo {h : Heap T} :
    ∀ {cells : List (Nat × List T)} {prev p : Option Nat},
      Seg h prev p cells → SegTo h prev p cells none
  | [], _, _, hs => hs
  | (_, _) :: _, _, _, hs => by
    obtain ⟨hp, n, hn, h1, h2, h3, h4, h5, h6, h7⟩ := hs
    exact ⟨hp, n, hn, h1, h2, h3, h4, h5, h6, Seg.toSegTo h7⟩

theorem SegTo.toSeg {h : Heap T} :
    ∀ {cells : List (Nat × List T)} {prev p : Option Nat},
      SegTo h prev p cells none → Seg h prev p cells
  | [], _, _, hs => hs
  | (_, _) :: _, _, _, hs => by
    obtain ⟨hp, n, hn, h1, h2, h3, h4, h5, h6, h7⟩ := hs
    exact ⟨hp, n, hn, h1, h2, h3, h4, h5, h6, SegTo.toSeg h7⟩

/-- A chain splits at any point into a first part that ends where the second starts. -/
theorem SegTo.split {h : Heap T} {ys : List (Nat × List T)} {r : Option Nat} :
    ∀ {xs : List (Nat × List T)} {prev p : Option Nat},
      SegTo h prev p (xs ++ ys) r →
      ∃ q, SegTo h prev p xs q ∧ SegTo h (lastAddr prev xs) q ys r
  | [], _, p, hs => ⟨p, rfl, hs⟩
  | (a, c) :: xs, _, _, hs => by
    obtain ⟨hp, n, hn, h1, h2, h3, h4, h5, h6, h7⟩ := hs
    obtain ⟨q, hq1, hq2⟩ := SegTo.split h7
    exact ⟨q, ⟨hp, n, hn, h1, h2, h3, h4, h5, h6, hq1⟩, hq2⟩

/-- Two chains join when the first ends where the second starts. -/
theorem SegTo.join {h : Heap T} {ys : List (Nat × List T)} {q r : Option Nat} :
    ∀ {xs : List (Nat × List T)} {prev p : Option Nat},
      SegTo h prev p xs q → SegTo h (lastAddr prev xs) q ys r →
      SegTo h prev p (xs ++ ys) r
  | [], _, _, h1, h2 => by
    have hp : _ = q := h1
    subst hp
    exact h2
  | (a, c) :: xs, _, _, hs, h2 => by
    obtain ⟨hp, n, hn, e1, e2, e3, e4, e5, e6, e7⟩ := hs
    exact ⟨hp, n, hn, e1, e2, e3, e4, e5, e6, SegTo.join e7 h2⟩

/-- A chain is untouched by a change of the store outside its addresses. -/
theorem SegTo.frame_read {h h2 : Heap T} {q : Option Nat} :
    ∀ {cells : List (Nat × List T)} {prev p : Option Nat},
      (∀ a ∈ cells.map Prod.fst, readNode h2 (some a) = readNode h (some a)) →
      SegTo h prev p cells q → SegTo h2 prev p cells q
  | [], _, _, _, hs => hs
  | (a, c) :: rest, _, _, hr, hs => by
    obtain ⟨hp, n, hn, h1, h2, h3, h4, h5, h6, h7⟩ := hs
    refine ⟨hp, n, ?_, h1, h2, h3, h4, h5, h6, SegTo.frame_read (fun b hb => hr b ?_) h7⟩
    · rw [hr a (by simp), hn]
    · simp only [List.map_cons, List.mem_cons]
      exact Or.inr hb

theorem lastAddr_append_cons (prev : Option Nat) (xs : List (Nat × List T)) (a : Nat)
    (c : List T) : lastAddr prev (xs ++ [(a, c)]) = some a := by
  induction xs generalizing prev with
  | nil => rfl
  | cons x xs ih =>
    obtain ⟨b, cb⟩ := x
    exact ih (some b)

/-- Redirecting the `next_` link of the last node of a chain. -/
theorem SegTo.set_end {h h2 : Heap T} {u : Nat} {cu : List T} {q q2 : Option Nat}
    {n : Node T} (hn : readNode h (some u) = some n)
    (hn2 : readNode h2 (some u) = some { n with next_ := q2 }) :
    ∀ {pre : List (Nat × List T)} {prev p : Option Nat},
      SegTo h prev p (pre ++ [(u, cu)]) q →
      (∀ a ∈ pre.map Prod.fst, readNode h2 (some a) = readNode h (some a)) →
      SegTo h2 prev p (pre ++ [(u, cu)]) q2
  | [], _, _, hs, _ => by
    obtain ⟨hp, m, hm, e1, e2, e3, e4, e5, e6, _⟩ := hs
    have hmn : n = m := by rw [hn] at hm; exact Option.some.inj hm
    subst hmn
    exact ⟨hp, _, hn2, e1, e2, e3, e4, e5, e6, rfl⟩
  | (a, c) :: pre, _, _, hs, hfr => by
    obtain ⟨hp, m, hm, e1, e2, e3, e4, e5, e6, e7⟩ := hs
    refine ⟨hp, m, ?_, e1, e2, e3, e4, e5, e6, SegTo.set_end hn hn2 e7 (fun b hb => hfr b ?_)⟩
    · rw [hfr a (by simp), hm]
    · simp only [List.map_cons, List.mem_cons]
      exact Or.inr hb

/-- Changing the `prev_` link of the first node of a chain. -/
theorem SegTo.reroot {h h2 : Heap T} {b : Nat} {cb : List T}
    {rest : List (Nat × List T)} {prev prev2 p q : Option Nat} {n : Node T}
    (hn : readNode h (some b) = some n)
    (hn2 : readNode h2 (some b) = some { n with prev_ := prev2 })
    (hs : SegTo h prev p ((b, cb) :: rest) q)
    (hfr : ∀ a ∈ rest.map Prod.fst, readNode h2 (some a) = readNode h (some a)) :
    SegTo h2 prev2 p ((b, cb) :: rest) q := by
  obtain ⟨hp, m, hm, e1, e2, e3, e4, e5, e6, e7⟩ := hs
  have hmn : n = m := by rw [hn] at hm; exact Option.some.inj hm
  subst hmn
  exact ⟨hp, _, hn2, rfl, e2, e3, e4, e5, e6, SegTo.frame_read hfr e7⟩

/-- The node in the middle of a chain. -/
theorem SegTo.mid {h : Heap T} {pre rest : List (Nat × List T)} {t : Nat} {c : List T}
    {prev p r : Option Nat} (hs : SegTo h prev p (pre ++ (t, c) :: rest) r) :
    ∃ q n, SegTo h prev p pre q ∧ q = some t ∧ readNode h (some t) = some n ∧
      n.prev_ = lastAddr prev pre ∧ n.num_elements = c.length ∧
      n.elements.length = NUM_ELEMENTS_PER_NODE ∧ n.contents = c ∧ 1 ≤ c.length ∧
      c.length ≤ NUM_ELEMENTS_PER_NODE ∧ SegTo h (some t) n.next_ rest r := by
  obtain ⟨q, hq1, hq2⟩ := SegTo.split hs
  obtain ⟨hp, n, hn, e1, e2, e3, e4, e5, e6, e7⟩ := hq2
  exact ⟨q, n, hq1, hp, hn, e1, e2, e3, e4, e5, e6, e7⟩

/-- The first pointer of a non-empty chain is its first address. -/
theorem SegTo.head_eq {h : Heap T} {a : Nat} {c : List T} {rest : List (Nat × List T)}
    {prev p q : Option Nat} (hs : SegTo h prev p ((a, c) :: rest) q) : p = some a := hs.1

end segto

/-! ## Positions -/

section positions

variable {T : Type}

/-- The position of an element of a cell in the middle of a chain. -/
theorem position_split (t : Nat) (cv : List T) (rest : List (Nat × List T)) (o : Nat)
    (ho : o < cv.length) :
    ∀ pre : List (Nat × List T),
      position (pre ++ (t, cv) :: rest) ((pre.map Prod.snd).flatten.length + o)
        = some { ptr_ := some t, offset := o }
  | [] => by simp [position, ho]
  | (a, ca) :: pre => by
    have ih := position_split t cv rest o ho pre
    have hk : ¬ (ca.length + (List.map Prod.snd pre).flatten.length + o < ca.length) := by
      omega
    have hsub : ca.length + (List.map Prod.snd pre).flatten.length + o - ca.length
        = (List.map Prod.snd pre).flatten.length + o := by omega
    simp only [List.cons_append, position, List.map_cons, List.flatten_cons,
      List.length_append, hk, if_false, hsub]
    exact ih

/-- A position denotes an element of one cell of the chain. -/
theorem position_inv : ∀ (cells : List (Nat × List T)) (k : Nat) (it : list_iterator),
    position cells k = some it →
    ∃ pre t cv rest o, cells = pre ++ (t, cv) :: rest ∧
      it = { ptr_ := some t, offset := o } ∧ o < cv.length ∧
      k = (pre.map Prod.snd).flatten.length + o
  | [], _, _, hp => by simp [position] at hp
  | (a, ca) :: cells, k, it, hp => by
    by_cases hk : k < ca.length
    · simp only [position, hk, if_true, Option.some.injEq] at hp
      exact ⟨[], a, ca, cells, k, rfl, hp.symm, hk, by simp⟩
    · simp only [position, hk, if_false] at hp
      obtain ⟨pre, t, cv, rest, o, e1, e2, e3, e4⟩ := position_inv cells _ it hp
      refine ⟨(a, ca) :: pre, t, cv, rest, o, by rw [e1]; rfl, e2, e3, ?_⟩
      simp only [List.map_cons, List.flatten_cons, List.length_append]
      omega

/-- Every index below the number of elements has a position. -/
theorem position_of_lt : ∀ (cells : List (Nat × List T)) (k : Nat),
    k < (cells.map Prod.snd).flatten.length → ∃ it, position cells k = some it
  | [], k, hk => by simp at hk
  | (a, ca) :: cells, k, hk => by
    by_cases hka : k < ca.length
    · exact ⟨{ ptr_ := some a, offset := k }, by simp only [position, hka, if_true]⟩
    · simp only [List.map_cons, List.flatten_cons, List.length_append] at hk
      obtain ⟨it, hit⟩ := position_of_lt cells (k - ca.length) (by omega)
      exact ⟨it, by simp only [position, hka, if_false, hit]⟩

/-- The element at an index inside a cell of the flattened chain. -/
theorem flatten_getElem_split (pre rest : List (Nat × List T)) (t : Nat) (cv : List T)
    (o : Nat) (ho : o < cv.length) :
    ((pre ++ (t, cv) :: rest).map Prod.snd).flatten[(pre.map Prod.snd).flatten.length + o]?
      = cv[o]? := by
  simp only [List.map_append, List.map_cons, List.flatten_append, List.flatten_cons]
  rw [List.getElem?_append_right (by omega)]
  have : (List.map Prod.snd pre).flatten.length + o - (List.map Prod.snd pre).flatten.length
      = o := by omega
  rw [this, List.getElem?_append_left ho]

/-- Reading through an iterator at a valid offset of a node. -/
theorem deref_node {h : Heap T} {t : Nat} {n : Node T} {cv : List T}
    (hn : readNode h (some t) = some n) (hcnt : n.num_elements = cv.length)
    (hcon : n.contents = cv) (o : Nat) (ho : o < cv.length) :
    deref h { ptr_ := some t, offset := o } = cv[o]? ∧
      dereferenceable h { ptr_ := some t, offset := o } = true := by
  constructor
  · have e1 : cv[o]? = n.elements[o]? := by
      rw [← hcon, Node.contents, hcnt]
      exact List.getElem?_take_of_lt ho
    simp only [deref, hn, Option.bind_eq_bind, Option.some_bind]
    exact e1.symm
  · simp only [dereferenceable, hn, hcnt]
    exact decide_eq_true ho

/-- The post-increment inside a node, at its last element with a successor, and at the last
element of the chain. -/
theorem postIncr_node {h : Heap T} {t : Nat} {n : Node T} {cv : List T}
    (hn : readNode h (some t) = some n) (hcnt : n.num_elements = cv.length)
    (hle : cv.length ≤ NUM_ELEMENTS_PER_NODE) (o : Nat) (ho : o < cv.length) :
    postIncr h { ptr_ := some t, offset := o } =
      if o + 1 < cv.length then some { ptr_ := some t, offset := o + 1 }
      else if n.next_ = none then some { ptr_ := some t, offset := NUM_ELEMENTS_PER_NODE }
      else some { ptr_ := n.next_, offset := 0 } := by
  have hle6 : cv.length ≤ 6 := hle
  have hud : udec n.num_elements = cv.length - 1 := by
    rw [hcnt, udec_of_pos (by omega) (by unfold UINT_MOD; omega)]
  by_cases h1 : o + 1 < cv.length
  · have hne : cv.length - 1 ≠ o := by omega
    have hui : uinc o = o + 1 := uinc_of_lt (by unfold UINT_MOD; omega)
    simp only [postIncr, hn, Option.bind_eq_bind, Option.some_bind, hud, hne, and_false,
      if_false, Ne.symm hne, hui, h1, if_true]
  · have he : cv.length - 1 = o := by omega
    simp only [postIncr, hn, Option.bind_eq_bind, Option.some_bind, hud, he, and_true, h1,
      if_false]
    by_cases hnx : n.next_ = none <;> simp [hnx]

theorem advance_succ (h : Heap T) : ∀ (k : Nat) (it : list_iterator),
    advance h (k + 1) it = (advance h k it).bind (postIncr h)
  | 0, it => by simp [advance]
  | k + 1, it => by
    have ih := advance_succ h k
    simp only [advance] at ih ⊢
    cases hp : postIncr h it with
    | none => simp
    | some it1 => simpa using ih it1

/-- The post-increment moves from the position of an element to the position of the next
one, or to `(last node, NUM_ELEMENTS_PER_NODE)` from the last element. -/
theorem Seg.postIncr_position {h : Heap T} {cells : List (Nat × List T)}
    {prev p : Option Nat} (hs : Seg h prev p cells) (k : Nat) (it : list_iterator)
    (hpos : position cells k = some it) :
    postIncr h it =
      if k + 1 < (cells.map Prod.snd).flatten.length then position cells (k + 1)
      else some { ptr_ := lastAddr prev cells, offset := NUM_ELEMENTS_PER_NODE } := by
  obtain ⟨pre, t, cv, rest, o, rfl, rfl, ho, rfl⟩ := position_inv cells k it hpos
  obtain ⟨q, n, _, _, hn, _, hcnt, _, _, _, hle, hrest⟩ := SegTo.mid hs.toSegTo
  rw [postIncr_node hn hcnt hle o ho]
  have htot : ((pre ++ (t, cv) :: rest).map Prod.snd).flatten.length
      = (pre.map Prod.snd).flatten.length + cv.length
        + (rest.map Prod.snd).flatten.length := by
    simp; omega
  by_cases h1 : o + 1 < cv.length
  · have hlt : (pre.map Prod.snd).flatten.length + o + 1
        < ((pre ++ (t, cv) :: rest).map Prod.snd).flatten.length := by rw [htot]; omega
    rw [if_pos h1, if_pos hlt]
    have := position_split t cv rest (o + 1) h1 pre
    rw [← this]; rfl
  · rw [if_neg h1]
    cases rest with
    | nil =>
      have hnx : n.next_ = none := hrest
      have hge : ¬ ((pre.map Prod.snd).flatten.length + o + 1
          < ((pre ++ [(t, cv)]).map Prod.snd).flatten.length) := by
        rw [htot]; simp; omega
      rw [if_pos hnx, if_neg hge, lastAddr_append_cons]
    | cons x rest2 =>
      obtain ⟨b, cb⟩ := x
      obtain ⟨hb, m, _, _, _, _, _, hposb, _, _⟩ := hrest
      have hnx : ¬ n.next_ = none := by rw [hb]; simp
      have hlt : (pre.map Prod.snd).flatten.length + o + 1
          < ((pre ++ (t, cv) :: (b, cb) :: rest2).map Prod.snd).flatten.length := by
        rw [htot]; simp; omega
      rw [if_neg hnx, if_pos hlt, hb]
      have := position_split b cb rest2 0 (by omega) (pre ++ [(t, cv)])
      have hk : ((pre ++ [(t, cv)]).map Prod.snd).flatten.length + 0
          = (pre.map Prod.snd).flatten.length + o + 1 := by simp; omega
      rw [hk] at this
      rw [← this]; simp

theorem lastAddr_eq_getLast (prev : Option Nat) {cells : List (Nat × List T)}
    (hne : cells ≠ []) : lastAddr prev cells = (cells.map Prod.fst).getLast? := by
  obtain ⟨pre, ⟨a, cv⟩, rfl⟩ := exists_snoc_of_ne_nil hne
  rw [lastAddr_append_cons]
  simp

/-- The iterator at the position of an element is dereferenceable and reads it. -/
theorem Seg.deref_position {h : Heap T} {cells : List (Nat × List T)}
    {prev p : Option Nat} (hs : Seg h prev p cells) (k : Nat) (it : list_iterator)
    (hpos : position cells k = some it) :
    deref h it = (cells.map Prod.snd).flatten[k]? ∧ dereferenceable h it = true := by
  obtain ⟨pre, t, cv, rest, o, rfl, rfl, ho, rfl⟩ := position_inv cells k it hpos
  obtain ⟨q, n, _, _, hn, _, hcnt, _, hcon, _, _, _⟩ := SegTo.mid hs.toSegTo
  rw [flatten_getElem_split pre rest t cv o ho]
  exact deref_node hn hcnt hcon o ho

/-- The first position of a non-empty chain is `begin()`. -/
theorem Chain.position_zero {h : Heap T} {l : UnrolledLL} {cells : List (Nat × List T)}
    (hc : Chain h l cells) (hne : cells ≠ []) : position cells 0 = some (begin l) := by
  cases cells with
  | nil => exact absurd rfl hne
  | cons x rest =>
    obtain ⟨a, cv⟩ := x
    obtain ⟨hp, n, _, _, _, _, _, hpos, _, _⟩ := hc.seg
    have h0 : 0 < cv.length := by omega
    simp only [position, h0, if_true, begin, hp]

/-- After `k` increments from `begin()` the iterator is at the position of the `k`-th
element. -/
theorem Chain.advance_position {h : Heap T} {l : UnrolledLL}
    {cells : List (Nat × List T)} (hc : Chain h l cells) :
    ∀ k, k < (cells.map Prod.snd).flatten.length →
      ∃ it, position cells k = some it ∧ advance h k (begin l) = some it
  | 0, hk => by
    have hne : cells ≠ [] := by
      intro e; subst e; simp at hk
    exact ⟨begin l, hc.position_zero hne, rfl⟩
  | k + 1, hk => by
    obtain ⟨it, hp, ha⟩ := Chain.advance_position hc k (by omega)
    obtain ⟨it2, hp2⟩ := position_of_lt cells (k + 1) hk
    refine ⟨it2, hp2, ?_⟩
    rw [advance_succ, ha, Option.some_bind, Seg.postIncr_position hc.seg k it hp, if_pos hk,
      hp2]

/-- After as many increments as there are elements the iterator is `end()`. -/
theorem Chain.advance_end {h : Heap T} {l : UnrolledLL} {cells : List (Nat × List T)}
    (hc : Chain h l cells) (hne : cells ≠ []) :
    advance h (cells.map Prod.snd).flatten.length (begin l) = some (end_ l) := by
  have hpos : 1 ≤ (cells.map Prod.snd).flatten.length := by
    cases cells with
    | nil => exact absurd rfl hne
    | cons x rest =>
      obtain ⟨a, cv⟩ := x
      obtain ⟨_, n, _, _, _, _, _, hp, _, _⟩ := hc.seg
      simp; omega
  obtain ⟨k, hk⟩ : ∃ k, (cells.map Prod.snd).flatten.length = k + 1 :=
    ⟨(cells.map Prod.snd).flatten.length - 1, by omega⟩
  obtain ⟨it, hp, ha⟩ := hc.advance_position k (by omega)
  rw [hk, advance_succ, ha, Option.some_bind, Seg.postIncr_position hc.seg k it hp,
    if_neg (by omega), lastAddr_eq_getLast none hne, ← hc.tail]
  rfl

end positions

/-! ## The shifting loops -/

section loops

variable {T : Type}

/-- The left-shifting loop moves the `k` elements after index `i` one slot to the left and
leaves every other slot as it was. -/
theorem shiftLeftLoop_spec : ∀ (k i : Nat) (es : List T), i + k < es.length →
    ∃ es2, shiftLeftLoop k i es = some es2 ∧ es2.length = es.length ∧
      ∀ j, es2[j]? = if i ≤ j ∧ j < i + k then es[j + 1]? else es[j]?
  | 0, i, es, _ => ⟨es, rfl, rfl, fun j => by
      have : ¬ (i ≤ j ∧ j < i + 0) := by omega
      rw [if_neg this]⟩
  | k + 1, i, es, hlen => by
    have h1 : i + 1 < es.length := by omega
    have h0 : i < es.length := by omega
    obtain ⟨es2, e1, e2, e3⟩ := shiftLeftLoop_spec k (i + 1) (es.set i es[i + 1])
      (by rw [List.length_set]; omega)
    refine ⟨es2, ?_, by rw [e2, List.length_set], ?_⟩
    · simp only [shiftLeftLoop, List.getElem?_eq_getElem h1, setElem, h0, if_true,
        Option.bind_eq_bind, Option.some_bind, e1]
    · intro j
      rw [e3 j]
      by_cases hj : j = i
      · subst hj
        have c1 : ¬ (j + 1 ≤ j ∧ j < j + 1 + k) := by omega
        have c2 : j ≤ j ∧ j < j + (k + 1) := by omega
        rw [if_neg c1, if_pos c2, List.getElem?_set_self h0, List.getElem?_eq_getElem h1]
      · by_cases hin : i + 1 ≤ j ∧ j < i + 1 + k
        · have c2 : i ≤ j ∧ j < i + (k + 1) := by omega
          rw [if_pos hin, if_pos c2, List.getElem?_set_ne (by omega)]
        · have c2 : ¬ (i ≤ j ∧ j < i + (k + 1)) := by omega
          rw [if_neg hin, if_neg c2, List.getElem?_set_ne (fun e => hj e.symm)]

/-- The contents of a node after the left shift from offset `o` and the decrement of the
count: the element at offset `o` is gone. -/
theorem shift_contents {es es2 cv : List T} {o : Nat} (ho : o < cv.length)
    (hcon : es.take cv.length = cv)
    (hsh : ∀ j, es2[j]? = if o ≤ j ∧ j < o + (cv.length - 1 - o) then es[j + 1]? else es[j]?) :
    es2.take (cv.length - 1) = cv.eraseIdx o := by
  apply List.ext_getElem?
  intro j
  rw [List.getElem?_take, List.getElem?_eraseIdx, hsh j]
  have hget : ∀ i, i < cv.length → cv[i]? = es[i]? := by
    intro i hi
    rw [← hcon, List.getElem?_take, if_pos hi]
  by_cases hj : j < cv.length - 1
  · rw [if_pos hj]
    by_cases hjo : j < o
    · have c : ¬ (o ≤ j ∧ j < o + (cv.length - 1 - o)) := by omega
      rw [if_neg c, if_pos hjo, hget j (by omega)]
    · have c : o ≤ j ∧ j < o + (cv.length - 1 - o) := by omega
      rw [if_pos c, if_neg hjo, hget (j + 1) (by omega)]
  · rw [if_neg hj]
    by_cases hjo : j < o
    · omega
    · rw [if_neg hjo]
      exact (List.getElem?_eq_none (by omega)).symm

/-- The right-shifting loop started at index `i` moves the elements at `offset .. i` one slot
to the right and leaves every other slot as it was. -/
theorem shiftRightLoop_spec (o : Nat) (ho : 1 ≤ o) : ∀ (i : Nat) (es : List T),
    i + 1 < es.length →
    ∃ es2, shiftRightLoop o i es = some es2 ∧ es2.length = es.length ∧
      ∀ j, es2[j]? = if o < j ∧ j ≤ i + 1 then es[j - 1]? else es[j]?
  | 0, es, _ => ⟨es, by simp only [shiftRightLoop]; rw [if_pos (by omega)], rfl, fun j => by
      have : ¬ (o < j ∧ j ≤ 0 + 1) := by omega
      rw [if_neg this]⟩
  | i + 1, es, hlen => by
    by_cases hoi : o ≤ i + 1
    · have h1 : i + 1 < es.length := by omega
      obtain ⟨es2, e1, e2, e3⟩ := shiftRightLoop_spec o ho i (es.set (i + 2) es[i + 1])
        (by rw [List.length_set]; omega)
      refine ⟨es2, ?_, by rw [e2, List.length_set], ?_⟩
      · simp only [shiftRightLoop, hoi, if_true, List.getElem?_eq_getElem h1, setElem, hlen,
          Option.bind_eq_bind, Option.some_bind, e1]
      · intro j
        rw [e3 j]
        by_cases hj : j = i + 2
        · subst hj
          have c1 : ¬ (o < i + 2 ∧ i + 2 ≤ i + 1) := by omega
          have c2 : o < i + 2 ∧ i + 2 ≤ i + 1 + 1 := by omega
          rw [if_neg c1, if_pos c2, List.getElem?_set_self hlen]
          exact (List.getElem?_eq_getElem h1).symm
        · by_cases hin : o < j ∧ j ≤ i + 1
          · have c2 : o < j ∧ j ≤ i + 1 + 1 := by omega
            rw [if_pos hin, if_pos c2, List.getElem?_set_ne (by omega)]
          · have c2 : ¬ (o < j ∧ j ≤ i + 1 + 1) := by omega
            rw [if_neg hin, if_neg c2, List.getElem?_set_ne (fun e => hj e.symm)]
    · refine ⟨es, by simp only [shiftRightLoop, hoi, if_false], rfl, fun j => ?_⟩
      have : ¬ (o < j ∧ j ≤ i + 1 + 1) := by omega
      rw [if_neg this]

/-- The element at an index of a list with a value inserted before index `o`. -/
theorem getElem?_insert (cv : List T) (v : T) (o : Nat) (ho : o ≤ cv.length) (j : Nat) :
    (cv.take o ++ v :: cv.drop o)[j]? =
      if j < o then cv[j]? else if j = o then some v else cv[j - 1]? := by
  have hlt : (cv.take o).length = o := by rw [List.length_take]; omega
  by_cases h1 : j < o
  · rw [if_pos h1, List.getElem?_append_left (by omega), List.getElem?_take, if_pos h1]
  · rw [if_neg h1, List.getElem?_append_right (by omega), hlt]
    by_cases h2 : j = o
    · subst h2; simp
    · rw [if_neg h2]
      obtain ⟨k, hk⟩ : ∃ k, j - o = k + 1 := ⟨j - o - 1, by omega⟩
      rw [hk, List.getElem?_cons_succ, List.getElem?_drop]
      congr 1
      omega

/-- The contents of a node after the right shift from offset `o`, the increment of the
count and the store of `v` at offset `o`. -/
theorem insert_contents {es es2 cv : List T} {o : Nat} (v : T) (ho : o < cv.length)
    (hlen : cv.length < es.length) (hlen2 : es2.length = es.length)
    (hcon : es.take cv.length = cv)
    (hsh : ∀ j, es2[j]? = if o < j ∧ j ≤ cv.length - 1 + 1 then es[j - 1]? else es[j]?) :
    (es2.set o v).take (cv.length + 1) = cv.take o ++ v :: cv.drop o := by
  apply List.ext_getElem?
  intro j
  rw [List.getElem?_take, getElem?_insert cv v o (by omega) j]
  have hget : ∀ i, i < cv.length → cv[i]? = es[i]? := by
    intro i hi
    rw [← hcon, List.getElem?_take, if_pos hi]
  by_cases hj : j < cv.length + 1
  · rw [if_pos hj]
    by_cases hjo : j < o
    · have c : ¬ (o < j ∧ j ≤ cv.length - 1 + 1) := by omega
      rw [if_pos hjo, List.getElem?_set_ne (by omega), hsh j, if_neg c, hget j (by omega)]
    · rw [if_neg hjo]
      by_cases hje : j = o
      · subst hje
        rw [if_pos rfl, List.getElem?_set_self (by omega)]
      · have c : o < j ∧ j ≤ cv.length - 1 + 1 := by omega
        rw [if_neg hje, List.getElem?_set_ne (fun e => hje e.symm), hsh j, if_pos c,
          hget (j - 1) (by omega)]
  · rw [if_neg hj]
    have h1 : ¬ j < o := by omega
    have h2 : ¬ j = o := by omega
    rw [if_neg h1, if_neg h2]
    exact (List.getElem?_eq_none (by omega)).symm

end loops

/-! ## Local changes of a chain -/

section surgery

variable {T : Type}

theorem nodup_mid {pre rest : List (Nat × List T)} {t : Nat} {c : List T}
    (hnd : ((pre ++ (t, c) :: rest).map Prod.fst).Nodup) :
    t ∉ pre.map Prod.fst ∧ t ∉ rest.map Prod.fst ∧ (pre.map Prod.fst).Nodup ∧
      (rest.map Prod.fst).Nodup ∧
      ∀ a ∈ pre.map Prod.fst, a ∉ rest.map Prod.fst := by
  simp only [List.map_append, List.map_cons] at hnd
  obtain ⟨h1, h2, h3⟩ := List.nodup_append.mp hnd
  obtain ⟨h4, h5⟩ := List.nodup_cons.mp h2
  refine ⟨fun hm => h3 hm (List.mem_cons_self _ _), h4, h1, h5, fun a ha hm => ?_⟩
  exact h3 ha (List.mem_cons_of_mem _ hm)

theorem nodup_head {rest : List (Nat × List T)} {t : Nat} {c : List T}
    (hnd : (((t, c) :: rest).map Prod.fst).Nodup) :
    t ∉ ([] : List (Nat × List T)).map Prod.fst ∧ t ∉ rest.map Prod.fst ∧
      (([] : List (Nat × List T)).map Prod.fst).Nodup ∧ (rest.map Prod.fst).Nodup ∧
      ∀ a ∈ ([] : List (Nat × List T)).map Prod.fst, a ∉ rest.map Prod.fst :=
  @nodup_mid T [] rest t c hnd

/-- Replacing the contents of one node of a chain, links unchanged. -/
theorem Chain.update_node {h h2 : Heap T} {l : UnrolledLL} {pre rest : List (Nat × List T)}
    {t : Nat} {c c2 : List T} {n n2 : Node T}
    (hc : Chain h l (pre ++ (t, c) :: rest))
    (hn : readNode h (some t) = some n)
    (hread : ∀ q, readNode h2 q = if q = some t then some n2 else readNode h q)
    (hnext : n2.next_ = n.next_) (hprev : n2.prev_ = n.prev_)
    (hcnt : n2.num_elements = c2.length)
    (hlen : n2.elements.length = NUM_ELEMENTS_PER_NODE) (hcon : n2.contents = c2)
    (hpos : 1 ≤ c2.length) (hle : c2.length ≤ NUM_ELEMENTS_PER_NODE) :
    Chain h2 l (pre ++ (t, c2) :: rest) := by
  obtain ⟨hnp, hnr, _, _, _⟩ := nodup_mid hc.nodup
  refine ⟨?_, ?_, ?_⟩
  · refine Seg.splice hc.seg ?_ ?_
    · intro a ha
      have hat : a ≠ t := fun e => hnp (e ▸ ha)
      rw [hread]; simp [hat]
    · intro prev2 hs
      obtain ⟨_, m, hm, e1, _, _, _, _, _, e7⟩ := hs
      have hmn : n = m := by rw [hn] at hm; exact Option.some.inj hm
      subst hmn
      refine ⟨rfl, n2, by rw [hread]; simp, by rw [hprev, e1], hcnt, hlen, hcon, hpos, hle,
        ?_⟩
      rw [hnext]
      refine Seg.frame ?_ e7
      intro a ha
      have hat : a ≠ t := fun e => hnr (e ▸ ha)
      rw [hread]; simp [hat]
  · have := hc.nodup; simpa using this
  · have := hc.tail; simpa using this

/-- Two-step store updates at one address. -/
theorem readNode_set_set (h : Heap T) (a : Nat) (x y : Option (Node T)) (q : Option Nat)
    (ha : a < h.length) :
    readNode ((h.set a x).set a y) q = if q = some a then y else readNode h q := by
  rw [readNode_set _ _ _ _ (by simpa using ha), readNode_set _ _ _ _ ha]
  by_cases hq : q = some a <;> simp [hq]

/-- Every address of a chain is an allocated cell (chain form). -/
theorem Chain.cells_lt {h : Heap T} {l : UnrolledLL} {cells : List (Nat × List T)}
    (hc : Chain h l cells) : ∀ a ∈ cells.map Prod.fst, a < h.length :=
  Seg.addr_lt hc.seg

/-- Linking a new one-element node before the head node. -/
theorem Chain.link_head {h h2 : Heap T} {l : UnrolledLL} {a : Nat} {ca : List T}
    {rest : List (Nat × List T)} {na nw : Node T} {w : Nat} {v : T}
    (hc : Chain h l ((a, ca) :: rest)) (hna : readNode h (some a) = some na)
    (hw : h.length ≤ w)
    (hread : ∀ q, readNode h2 q = if q = some w then some nw
      else if q = some a then some { na with prev_ := some w } else readNode h q)
    (hnext : nw.next_ = some a) (hprev : nw.prev_ = none) (hcnt : nw.num_elements = 1)
    (hlen : nw.elements.length = NUM_ELEMENTS_PER_NODE) (hcon : nw.contents = [v]) :
    Chain h2 { l with head_ := some w } ((w, [v]) :: (a, ca) :: rest) := by
  have hlt := hc.cells_lt
  have haw : a ≠ w := by
    have := hlt a (by simp); omega
  have hnw : ∀ b ∈ rest.map Prod.fst, b ≠ w := by
    intro b hb
    have := hlt b (by simp only [List.map_cons, List.mem_cons]; exact Or.inr hb); omega
  obtain ⟨_, hnr, _, _, _⟩ := nodup_head hc.nodup
  refine ⟨?_, ?_, ?_⟩
  · refine ⟨rfl, nw, by rw [hread]; simp, hprev, by rw [hcnt]; rfl, hlen, hcon, by simp,
      by simp [NUM_ELEMENTS_PER_NODE], ?_⟩
    rw [hnext]
    have hs := hc.seg
    have hhd : l.head_ = some a := hs.1
    rw [hhd] at hs
    refine (SegTo.reroot hna ?_ hs.toSegTo ?_).toSeg
    · rw [hread]; simp [haw]
    · intro b hb
      have hba : b ≠ a := fun e => hnr (e ▸ hb)
      rw [hread]; simp [hnw b hb, hba]
  · have := hc.nodup
    simp only [List.map_cons, List.nodup_cons] at this ⊢
    refine ⟨?_, this⟩
    simp only [List.mem_cons, not_or]
    exact ⟨fun e => haw e.symm, fun hm => hnw w hm rfl⟩
  · have := hc.tail
    simpa using this

/-- Unlinking the head node of a chain of at least two nodes. -/
theorem Chain.unlink_head {h h2 : Heap T} {l : UnrolledLL} {a b : Nat} {ca cb : List T}
    {rest : List (Nat × List T)} {nb : Node T}
    (hc : Chain h l ((a, ca) :: (b, cb) :: rest)) (hnb : readNode h (some b) = some nb)
    (hread : ∀ q, readNode h2 q = if q = some a then none
      else if q = some b then some { nb with prev_ := none } else readNode h q) :
    Chain h2 { l with head_ := some b } ((b, cb) :: rest) := by
  obtain ⟨_, hnr, _, hndr, _⟩ := nodup_head hc.nodup
  have hba : b ≠ a := fun e => hnr (by rw [← e]; simp)
  obtain ⟨_, hnr2, _, _, _⟩ := nodup_head hndr
  obtain ⟨_, na, _, _, _, _, _, _, _, hs⟩ := hc.seg
  have hnx : na.next_ = some b := hs.1
  rw [hnx] at hs
  refine ⟨?_, hndr, ?_⟩
  · refine (SegTo.reroot hnb ?_ hs.toSegTo ?_).toSeg
    · rw [hread]; simp [hba]
    · intro x hx
      have hxa : x ≠ a := fun e => hnr (by
        rw [← e]; simp only [List.map_cons, List.mem_cons]; exact Or.inr hx)
      have hxb : x ≠ b := fun e => hnr2 (e ▸ hx)
      rw [hread]; simp [hxa, hxb]
  · have := hc.tail
    simpa using this

/-- Unlinking the tail node of a chain of at least two nodes. -/
theorem Chain.unlink_tail {h h2 : Heap T} {l : UnrolledLL} {pre : List (Nat × List T)}
    {t u : Nat} {c cu : List T} {nt : Node T}
    (hc : Chain h l (pre ++ [(t, c), (u, cu)])) (hnt : readNode h (some t) = some nt)
    (hread : ∀ q, readNode h2 q = if q = some u then none
      else if q = some t then some { nt with next_ := none } else readNode h q) :
    Chain h2 { l with tail_ := some t } (pre ++ [(t, c)]) := by
  obtain ⟨hnp, hnr, _, _, hpr⟩ := nodup_mid hc.nodup
  have htu : t ≠ u := fun e => hnr (by rw [← e]; simp)
  refine ⟨?_, ?_, by simp⟩
  · refine Seg.splice hc.seg ?_ ?_
    · intro a ha
      have hat : a ≠ t := fun e => hnp (e ▸ ha)
      have hau : a ≠ u := fun e => hpr a ha (by rw [e]; simp)
      rw [hread]; simp [hat, hau]
    · intro prev2 hs
      obtain ⟨_, m, hm, e1, e2, e3, e4, e5, e6, _⟩ := hs
      have hmn : nt = m := by rw [hnt] at hm; exact Option.some.inj hm
      subst hmn
      exact ⟨rfl, { nt with next_ := none }, by rw [hread]; simp [htu], e1, e2, e3, e4, e5,
        e6, rfl⟩
  · have := hc.nodup
    simp only [List.map_append, List.map_cons, List.map_nil] at this ⊢
    exact this.sublist ((List.Sublist.refl _).append
      ((List.Sublist.cons u (List.Sublist.refl [])).cons₂ t))

/-- Unlinking a node between two other nodes of a chain; the node stays allocated. -/
theorem Chain.unlink_mid {h h2 : Heap T} {l : UnrolledLL} {pre rest : List (Nat × List T)}
    {u t b : Nat} {cu c cb : List T} {nu nb : Node T}
    (hc : Chain h l (pre ++ (u, cu) :: (t, c) :: (b, cb) :: rest))
    (hnu : readNode h (some u) = some nu) (hnb : readNode h (some b) = some nb)
    (hread : ∀ q, readNode h2 q = if q = some u then some { nu with next_ := some b }
      else if q = some b then some { nb with prev_ := some u } else readNode h q) :
    Chain h2 l (pre ++ (u, cu) :: (b, cb) :: rest) := by
  obtain ⟨hnp, hnr, _, hndr, hpr⟩ := nodup_mid hc.nodup
  obtain ⟨_, hnr2, _, hndr2, _⟩ := nodup_head hndr
  obtain ⟨_, hnr3, _, _, _⟩ := nodup_head hndr2
  have hub : u ≠ b := fun e => hnr (by rw [e]; simp)
  have hs0 : SegTo h none l.head_ ((pre ++ [(u, cu)]) ++ (t, c) :: (b, cb) :: rest) none := by
    simpa using hc.seg.toSegTo
  obtain ⟨q1, hq1, hq2⟩ := SegTo.split hs0
  obtain ⟨_, nt, _, _, _, _, _, _, _, hs3⟩ := hq2
  have hnx : nt.next_ = some b := hs3.1
  rw [hnx] at hs3
  have hpre : SegTo h2 none l.head_ (pre ++ [(u, cu)]) (some b) := by
    refine SegTo.set_end hnu ?_ hq1 ?_
    · rw [hread]; simp
    · intro a ha
      have hau : a ≠ u := fun e => hnp (e ▸ ha)
      have hab : a ≠ b := fun e => hpr a ha (by rw [e]; simp)
      rw [hread]; simp [hau, hab]
  have hsuf : SegTo h2 (some u) (some b) ((b, cb) :: rest) none := by
    refine SegTo.reroot hnb ?_ hs3 ?_
    · rw [hread]; simp [Ne.symm hub]
    · intro x hx
      have hxb : x ≠ b := fun e => hnr3 (e ▸ hx)
      have hxu : x ≠ u := fun e => hnr (by
        rw [← e]; simp only [List.map_cons, List.mem_cons]; exact Or.inr (Or.inr hx))
      rw [hread]; simp [hxb, hxu]
  have hj := SegTo.join hpre (by rw [lastAddr_append_cons]; exact hsuf)
  refine ⟨by simpa using hj.toSeg, ?_, ?_⟩
  · have := hc.nodup
    simp only [List.map_append, List.map_cons] at this ⊢
    exact this.sublist ((List.Sublist.refl _).append
      (((List.Sublist.refl _).cons t).cons₂ u))
  · have := hc.tail
    simpa using this

/-- Linking a new one-element node between a node and its predecessor. -/
theorem Chain.link_mid {h h2 : Heap T} {l : UnrolledLL} {pre rest : List (Nat × List T)}
    {u t w : Nat} {cu c : List T} {nu nt nw : Node T} {v : T}
    (hc : Chain h l (pre ++ (u, cu) :: (t, c) :: rest))
    (hnu : readNode h (some u) = some nu) (hnt : readNode h (some t) = some nt)
    (hw : h.length ≤ w)
    (hread : ∀ q, readNode h2 q = if q = some w then some nw
      else if q = some t then some { nt with prev_ := some w }
      else if q = some u then some { nu with next_ := some w } else readNode h q)
    (hnext : nw.next_ = some t) (hprev : nw.prev_ = some u) (hcnt : nw.num_elements = 1)
    (hlen : nw.elements.length = NUM_ELEMENTS_PER_NODE) (hcon : nw.contents = [v]) :
    Chain h2 l (pre ++ (u, cu) :: (w, [v]) :: (t, c) :: rest) := by
  have hlt := hc.cells_lt
  have hfresh : ∀ a ∈ (pre ++ (u, cu) :: (t, c) :: rest).map Prod.fst, a ≠ w := by
    intro a ha
    have := hlt a ha; omega
  obtain ⟨hnp, hnr, _, hndr, hpr⟩ := nodup_mid hc.nodup
  obtain ⟨_, hnr2, _, _, _⟩ := nodup_head hndr
  have hut : u ≠ t := fun e => hnr (by rw [e]; simp)
  have huw : u ≠ w := hfresh u (by simp)
  have htw : t ≠ w := hfresh t (by simp)
  have hs0 : SegTo h none l.head_ ((pre ++ [(u, cu)]) ++ (t, c) :: rest) none := by
    simpa using hc.seg.toSegTo
  obtain ⟨q1, hq1, hq2⟩ := SegTo.split hs0
  rw [lastAddr_append_cons] at hq2
  have hq1t : q1 = some t := hq2.1
  subst hq1t
  have hpre : SegTo h2 none l.head_ (pre ++ [(u, cu)]) (some w) := by
    refine SegTo.set_end hnu ?_ hq1 ?_
    · rw [hread]; simp [huw, hut]
    · intro a ha
      have hau : a ≠ u := fun e => hnp (e ▸ ha)
      have hat : a ≠ t := fun e => hpr a ha (by rw [e]; simp)
      have haw : a ≠ w := hfresh a (by
        simp only [List.map_append, List.mem_append]; exact Or.inl ha)
      rw [hread]; simp [hau, hat, haw]
  have hsuf : SegTo h2 (some w) (some t) ((t, c) :: rest) none := by
    refine SegTo.reroot hnt ?_ hq2 ?_
    · rw [hread]; simp [htw]
    · intro x hx
      have hxt : x ≠ t := fun e => hnr2 (e ▸ hx)
      have hxu : x ≠ u := fun e => hnr (by
        rw [← e]; simp only [List.map_cons, List.mem_cons]; exact Or.inr hx)
      have hxw : x ≠ w := hfresh x (by
        simp only [List.map_append, List.map_cons, List.mem_append, List.mem_cons]
        exact Or.inr (Or.inr (Or.inr hx)))
      rw [hread]; simp [hxt, hxu, hxw]
  have hnew : SegTo h2 (some u) (some w) ((w, [v]) :: (t, c) :: rest) none :=
    ⟨rfl, nw, by rw [hread]; simp, hprev, by rw [hcnt]; rfl, hlen, hcon, by simp,
      by simp [NUM_ELEMENTS_PER_NODE], by rw [hnext]; exact hsuf⟩
  have hj := SegTo.join hpre (by rw [lastAddr_append_cons]; exact hnew)
  refine ⟨by simpa using hj.toSeg, ?_, ?_⟩
  · have hnd := hc.nodup
    have hperm : List.Perm ((pre.map Prod.fst ++ [u]) ++ w :: (t :: rest.map Prod.fst))
        (w :: ((pre.map Prod.fst ++ [u]) ++ (t :: rest.map Prod.fst))) := List.perm_middle
    have hgoal : ((pre.map Prod.fst ++ [u]) ++ w :: (t :: rest.map Prod.fst)).Nodup := by
      rw [hperm.nodup_iff, List.nodup_cons]
      refine ⟨fun hm => hfresh w ?_ rfl, ?_⟩
      · simpa using hm
      · simpa using hnd
    simpa using hgoal
  · have := hc.tail
    simpa using this

end surgery

/-! ## `push_front`, `pop_front` and `pop_back` on the chain -/

section frontops

variable {T : Type}

theorem Node.new_first [Inhabited T] (v : T) : (Node.new v).elements[0]? = some v := by
  simp [Node.new, NUM_ELEMENTS_PER_NODE]

/-- `push_front` links a new one-element node before the chain. -/
theorem push_front_chain [Inhabited T] {h : Heap T} {l : UnrolledLL}
    {cells : List (Nat × List T)} (v : T) (hc : Chain h l cells) :
    ∃ l1 h1, push_front v l h = some (l1, h1) ∧
      Chain h1 l1 ((h.length, [v]) :: cells) ∧ l1.size_ = uinc l.size_ ∧
      front h1 l1 = some v := by
  cases cells with
  | nil =>
    have htl : l.tail_ = none := by simpa using hc.tail
    have hnew : readNode (h ++ [some (Node.new v)]) (some h.length) = some (Node.new v) := by
      simp [readNode_append]
    refine ⟨{ head_ := some h.length, tail_ := some h.length, size_ := uinc l.size_ },
      h ++ [some (Node.new v)], by simp only [push_front, htl, allocNode], ?_, rfl, ?_⟩
    · exact ⟨⟨rfl, Node.new v, hnew, rfl, rfl, Node.new_length v, rfl, by simp,
        by simp [NUM_ELEMENTS_PER_NODE], rfl⟩, by simp, by simp⟩
    · simp only [front, hnew, Option.bind_eq_bind, Option.some_bind]
      exact Node.new_first v
  | cons x rest =>
    obtain ⟨a, ca⟩ := x
    obtain ⟨hhd, n, hn, _, _, _, _, _, _, _⟩ := hc.seg
    have htl : ∃ t, l.tail_ = some t := by
      rw [hc.tail]
      cases hq : (List.map Prod.fst ((a, ca) :: rest)).getLast? with
      | none => simp at hq
      | some t => exact ⟨t, rfl⟩
    obtain ⟨t, htl⟩ := htl
    have halt := readNode_lt hn
    have hne : a ≠ h.length := by omega
    let new := Node.new v
    let s1 : Heap T := h ++ [some new]
    have r1 : ∀ q, readNode s1 q = if q = some h.length then some new else readNode h q :=
      fun q => readNode_append h _ q
    have r1a : readNode s1 (some a) = some n := by rw [r1]; simp [hne, hn]
    let s2 : Heap T := s1.set a (some { n with prev_ := some h.length })
    have r2 : ∀ q, readNode s2 q =
        if q = some a then some { n with prev_ := some h.length } else readNode s1 q :=
      fun q => readNode_set s1 a _ q (by simp [s1]; omega)
    have r2n : readNode s2 (some h.length) = some new := by
      rw [r2, r1]; simp [Ne.symm hne]
    let s3 : Heap T := s2.set h.length (some { new with next_ := some a })
    have r3 : ∀ q, readNode s3 q =
        if q = some h.length then some { new with next_ := some a } else readNode s2 q :=
      fun q => readNode_set s2 h.length _ q (by simp [s2, s1])
    have hread : ∀ q, readNode s3 q =
        if q = some h.length then some { new with next_ := some a }
        else if q = some a then some { n with prev_ := some h.length }
        else readNode h q := by
      intro q
      rw [r3, r2, r1]
      by_cases hq : q = some h.length <;> simp [hq]
    refine ⟨{ l with head_ := some h.length, size_ := uinc l.size_ }, s3, ?_, ?_, rfl, ?_⟩
    · simp only [push_front, allocNode, htl, hhd]
      rw [modifyNode_some _ r1a]
      simp only [Option.bind_eq_bind, Option.some_bind]
      rw [modifyNode_some _ r2n]
      rfl
    · have := Chain.link_head (v := v) hc hn (Nat.le_refl _) hread rfl rfl rfl
        (Node.new_length v) rfl
      exact ⟨this.seg, this.nodup, this.tail⟩
    · have : readNode s3 (some h.length) = some { new with next_ := some a } := by
        rw [hread]; simp
      simp only [front, this, Option.bind_eq_bind, Option.some_bind]
      exact Node.new_first v

/-- `pop_front` on a list whose `size_` is 1 and whose head is not `NULL` has no result:
the node is released by `delete []`. -/
theorem pop_front_single {h : Heap T} {l : UnrolledLL} {a : Nat} (hhd : l.head_ = some a)
    (hsz : l.size_ = 1) : pop_front l h = none := by
  simp only [pop_front, hsz, if_true, hhd, deleteArray, Option.bind_eq_bind, Option.none_bind]

/-- `pop_back` on a list whose `size_` is 1 and whose head is not `NULL` has no result:
the node is released by `delete []`. -/
theorem pop_back_single {h : Heap T} {l : UnrolledLL} {a : Nat} (hhd : l.head_ = some a)
    (hsz : l.size_ = 1) : pop_back l h = none := by
  simp only [pop_back, hsz, if_true, hhd, deleteArray, Option.bind_eq_bind, Option.none_bind]

/-- `pop_front` on a chain of at least two nodes whose head node holds one element unlinks
the head node. -/
theorem pop_front_unlink {h : Heap T} {l : UnrolledLL} {a b : Nat} {x : T} {cb : List T}
    {rest : List (Nat × List T)} (hc : Chain h l ((a, [x]) :: (b, cb) :: rest))
    (hsz : l.size_ ≠ 1) :
    ∃ l2 h2, pop_front l h = some (l2, h2) ∧ Chain h2 l2 ((b, cb) :: rest) ∧
      l2.size_ = udec l.size_ := by
  obtain ⟨hhd, n, hn, _, hcnt, _, _, _, _, hs⟩ := hc.seg
  have hnx : n.next_ = some b := hs.1
  obtain ⟨_, nb, hnb, _⟩ := hs
  obtain ⟨_, hnr, _, _, _⟩ := nodup_head hc.nodup
  have hba : b ≠ a := fun e => hnr (by rw [← e]; simp)
  have hlt := readNode_lt hn
  have hltb := readNode_lt hnb
  let s1 : Heap T := h.set a none
  have r1 : ∀ q, readNode s1 q = if q = some a then none else readNode h q :=
    fun q => readNode_set h a _ q hlt
  have r1b : readNode s1 (some b) = some nb := by rw [r1]; simp [hba, hnb]
  let s2 : Heap T := s1.set b (some { nb with prev_ := none })
  have r2 : ∀ q, readNode s2 q =
      if q = some b then some { nb with prev_ := none } else readNode s1 q :=
    fun q => readNode_set s1 b _ q (by simp [s1]; exact hltb)
  have hread : ∀ q, readNode s2 q = if q = some a then none
      else if q = some b then some { nb with prev_ := none } else readNode h q := by
    intro q
    rw [r2, r1]
    by_cases hq : q = some a
    · subst hq; simp [Ne.symm hba]
    · simp [hq]
  refine ⟨{ l with head_ := some b, size_ := udec l.size_ }, s2, ?_, ?_, rfl⟩
  · have hone : n.num_elements = 1 := by simpa using hcnt
    simp only [pop_front, hsz, if_false, hhd, hn, Option.bind_eq_bind, Option.some_bind, hone,
      if_true, hnx]
    rw [deleteNode_some hn]
    simp only [Option.some_bind]
    rw [modifyNode_some _ r1b]
    rfl
  · have := Chain.unlink_head hc hnb hread
    exact ⟨this.seg, this.nodup, this.tail⟩

/-- `pop_front` on a chain whose head node holds more than one element shifts the rest of
the head node one slot to the left. -/
theorem pop_front_shift {h : Heap T} {l : UnrolledLL} {a : Nat} {x : T} {cv : List T}
    {rest : List (Nat × List T)} (hc : Chain h l ((a, x :: cv) :: rest))
    (hpos : 1 ≤ cv.length) (hsz : l.size_ ≠ 1) :
    ∃ l2 h2, pop_front l h = some (l2, h2) ∧ Chain h2 l2 ((a, cv) :: rest) ∧
      l2.size_ = udec l.size_ := by
  obtain ⟨hhd, n, hn, _, hcnt, hlen, hcon, _, hle, _⟩ := hc.seg
  have hcnt2 : n.num_elements = cv.length + 1 := by simpa using hcnt
  have hle6 : cv.length + 1 ≤ 6 := by simpa [NUM_ELEMENTS_PER_NODE] using hle
  have hlen6 : n.elements.length = 6 := hlen
  have hd : udec (cv.length + 1) = cv.length := by
    rw [udec_of_pos (by omega) (by unfold UINT_MOD; omega)]; rfl
  obtain ⟨es2, e1, e2, e3⟩ := shiftLeftLoop_spec cv.length 0 n.elements (by omega)
  have hlt := readNode_lt hn
  let n1 : Node T := { n with elements := es2 }
  let n2 : Node T := { n1 with num_elements := udec n1.num_elements }
  refine ⟨{ l with size_ := udec l.size_ }, (h.set a (some n1)).set a (some n2), ?_, ?_, rfl⟩
  · have hne1 : n.num_elements ≠ 1 := by omega
    have hne2 : cv.length + 1 ≠ 1 := by omega
    have r1 : readNode (h.set a (some n1)) (some a) = some n1 := by
      rw [readNode_set _ _ _ _ hlt]; simp
    simp only [pop_front, hsz, if_false, hhd, hn, Option.bind_eq_bind, Option.some_bind, hne1,
      hcnt2, hne2, hd, e1]
    rw [modifyNode_some _ hn]
    simp only [Option.some_bind]
    rw [modifyNode_some _ r1]
    rfl
  · have hrd : ∀ q, readNode ((h.set a (some n1)).set a (some n2)) q
        = if q = some a then some n2 else readNode h q :=
      fun q => readNode_set_set h a _ _ q hlt
    have hupd : Chain ((h.set a (some n1)).set a (some n2)) l ([] ++ (a, cv) :: rest) :=
      @Chain.update_node T h _ l [] rest a (x :: cv) cv n n2 hc hn hrd rfl rfl
      (by simp only [n2, n1]; rw [hcnt2, hd]) (by simp only [n2, n1]; rw [e2]; exact hlen)
      (by
        have hc2 : n.elements.take (x :: cv).length = x :: cv := by
          have := hcon; simp only [Node.contents, hcnt] at this; exact this
        have : es2.take ((x :: cv).length - 1) = (x :: cv).eraseIdx 0 :=
          shift_contents (by simp) hc2 (by simpa using e3)
        simp only [Node.contents, n2, n1]
        rw [hcnt2, hd]
        simpa using this)
      hpos (by simp only [NUM_ELEMENTS_PER_NODE]; omega)
    exact ⟨hupd.seg, hupd.nodup, hupd.tail⟩

end frontops

/-! ## The four end operations on well-formed lists -/

section endops

variable {T : Type}

/-- Every node of a chain holds between 1 and 6 elements. -/
theorem Seg.cell_bounds {h : Heap T} :
    ∀ {cells : List (Nat × List T)} {prev p : Option Nat},
      Seg h prev p cells → ∀ x ∈ cells, 1 ≤ x.2.length ∧ x.2.length ≤ NUM_ELEMENTS_PER_NODE
  | [], _, _, _, x, hx => by simp at hx
  | (a, c) :: rest, _, _, hs, x, hx => by
    obtain ⟨_, n, _, _, _, _, _, h5, h6, h7⟩ := hs
    simp only [List.mem_cons] at hx
    rcases hx with e | e
    · subst e; exact ⟨h5, h6⟩
    · exact Seg.cell_bounds h7 x e

/-- A chain without elements has no node. -/
theorem Seg.eq_nil_of_total {h : Heap T} {cells : List (Nat × List T)} {prev p : Option Nat}
    (hs : Seg h prev p cells) (hz : (cells.map Prod.snd).flatten.length = 0) : cells = [] := by
  cases cells with
  | nil => rfl
  | cons x rest =>
    have := (Seg.cell_bounds hs x (by simp)).1
    simp only [List.map_cons, List.flatten_cons, List.length_append] at hz
    omega

/-- A chain whose number of elements is `size_`, below `2 ^ 32`, is a representation. -/
theorem Rep.of_chain {h : Heap T} {l : UnrolledLL} {cells : List (Nat × List T)}
    (hc : Chain h l cells) (hsz : l.size_ = (cells.map Prod.snd).flatten.length)
    (hb : l.size_ < UINT_MOD) : Rep h l cells :=
  { seg := hc.seg, nodup := hc.nodup, tail := hc.tail,
    size := by rw [hsz, total_eq_flatten], bound := hb }

theorem Rep.size_eq {h : Heap T} {l : UnrolledLL} {cells : List (Nat × List T)}
    (hr : Rep h l cells) : l.size_ = (cells.map Prod.snd).flatten.length := by
  rw [hr.size, total_eq_flatten]

/-- Two chains of the same list in the same store hold the same number of elements. -/
theorem Chain.total_unique {h : Heap T} {l : UnrolledLL} {cells cells2 : List (Nat × List T)}
    (hc : Chain h l cells) (hc2 : Chain h l cells2) :
    (cells2.map Prod.snd).flatten.length = (cells.map Prod.snd).flatten.length := by
  have e1 := hc.counts_eq
  have e2 := hc2.counts_eq
  rw [e1] at e2
  have := Option.some.inj e2
  rw [← total_eq_flatten, ← total_eq_flatten, this]

/-- `push_back` on any chain: the value is appended to the logical sequence. -/
theorem push_back_chain [Inhabited T] {h : Heap T} {l : UnrolledLL}
    {cells : List (Nat × List T)} (v : T) (hc : Chain h l cells) :
    ∃ l1 h1 cells1, push_back v l h = some (l1, h1) ∧ Chain h1 l1 cells1 ∧
      (cells1.map Prod.snd).flatten = (cells.map Prod.snd).flatten ++ [v] ∧
      l1.size_ = uinc l.size_ := by
  by_cases hnil : cells = []
  · subst hnil
    obtain ⟨l1, h1, e1, c1, z1⟩ := push_back_nil v hc
    exact ⟨l1, h1, _, e1, c1, by simp, z1⟩
  · obtain ⟨pre, ⟨t, c⟩, hcons⟩ := exists_snoc_of_ne_nil hnil
    subst hcons
    rcases Nat.lt_or_ge c.length NUM_ELEMENTS_PER_NODE with hroom | hfull
    · obtain ⟨l1, h1, e1, c1, z1⟩ := push_back_room v hc hroom
      exact ⟨l1, h1, _, e1, c1, by simp, z1⟩
    · obtain ⟨_, _, _, _, _, _, _, hle⟩ := Seg.last_node hc.seg
      have hf : c.length = NUM_ELEMENTS_PER_NODE := by omega
      obtain ⟨l1, h1, e1, c1, z1⟩ := push_back_full v hc hf
      exact ⟨l1, h1, _, e1, c1, by simp, z1⟩

/-- `pop_back` on a chain whose tail node holds at least two elements, with a `size_`
other than 1: the last element of the logical sequence is removed. -/
theorem pop_back_chain {h : Heap T} {l : UnrolledLL} {pre : List (Nat × List T)} {t : Nat}
    {cv : List T} (hc : Chain h l (pre ++ [(t, cv)])) (hsz : l.size_ ≠ 1)
    (hcv : 2 ≤ cv.length) :
    ∃ l2 h2, pop_back l h = some (l2, h2) ∧ Chain h2 l2 (pre ++ [(t, cv.dropLast)]) ∧
      l2.size_ = udec l.size_ := by
  have hne : cv ≠ [] := by intro e; subst e; simp at hcv
  obtain ⟨c0, x, rfl⟩ := exists_snoc_of_ne_nil hne
  have hp0 : 1 ≤ c0.length := by
    have hl : (c0 ++ [x]).length = c0.length + 1 := by simp
    rw [hl] at hcv
    omega
  obtain ⟨l2, h2, e, c2, z⟩ := pop_back_shrink x hc hp0 hsz
  exact ⟨l2, h2, e, by simpa using c2, z⟩

/-- `pop_back` on a non-empty chain whose tail node holds one element has no result: the
node is released by `delete []`, as the sole node of the list or as its unlinked tail. -/
theorem pop_back_undefined {h : Heap T} {l : UnrolledLL} {pre : List (Nat × List T)} {t : Nat}
    {x : T} (hc : Chain h l (pre ++ [(t, [x])])) : pop_back l h = none := by
  by_cases hsz : l.size_ = 1
  · cases pre with
    | nil => exact pop_back_single hc.seg.1 hsz
    | cons y ys => exact pop_back_single (a := y.1) hc.seg.1 hsz
  · cases pre with
    | nil =>
      obtain ⟨hhd, n, hn, _, hcnt, _⟩ := hc.seg
      have htl : l.tail_ = some t := by rw [hc.tail]; rfl
      have hone : n.num_elements = 1 := by simpa using hcnt
      simp only [pop_back, hsz, if_false, htl, hn, Option.bind_eq_bind, Option.some_bind, hone,
        if_true, deleteArray, Option.none_bind]
    | cons y ys =>
      obtain ⟨pre2, ⟨u, cu⟩, e⟩ := exists_snoc_of_ne_nil (List.cons_ne_nil y ys)
      rw [e] at hc
      have hc2 : Chain h l (pre2 ++ [(u, cu), (t, [x])]) := by simpa using hc
      exact pop_back_unlink x hc2 hsz

/-- `pop_front` on a non-empty chain with a `size_` other than 1, which is 1 exactly when
the chain holds one element: a head node of one element is unlinked, a longer head node
loses its first element. -/
theorem pop_front_chain {h : Heap T} {l : UnrolledLL} {a : Nat} {cv : List T}
    {rest : List (Nat × List T)} (hc : Chain h l ((a, cv) :: rest))
    (hone : l.size_ = 1 ↔ (((a, cv) :: rest).map Prod.snd).flatten.length = 1)
    (hsz : l.size_ ≠ 1) :
    ∃ l2 h2, pop_front l h = some (l2, h2) ∧
      Chain h2 l2 (if cv.length = 1 then rest else (a, cv.tail) :: rest) ∧
      l2.size_ = udec l.size_ := by
  obtain ⟨_, n, _, _, _, _, _, hpos, _, hs⟩ := hc.seg
  by_cases hcv : cv.length = 1
  · obtain ⟨x, rfl⟩ : ∃ x, cv = [x] := List.length_eq_one.mp hcv
    cases rest with
    | nil => exact absurd (hone.mpr (by simp)) hsz
    | cons y rest2 =>
      obtain ⟨b, cb⟩ := y
      obtain ⟨l2, h2, e, c2, z⟩ := pop_front_unlink hc hsz
      exact ⟨l2, h2, e, by rw [if_pos hcv]; exact c2, z⟩
  · cases cv with
    | nil => simp at hpos
    | cons x c0 =>
      have hp0 : 1 ≤ c0.length := by
        have hl : (x :: c0).length = c0.length + 1 := rfl
        rw [hl] at hcv
        omega
      obtain ⟨l2, h2, e, c2, z⟩ := pop_front_shift hc hp0 hsz
      exact ⟨l2, h2, e, by rw [if_neg hcv]; exact c2, z⟩

/-- In a representation `size_` is 1 exactly when the chain holds one element. -/
theorem Rep.size_one_iff {h : Heap T} {l : UnrolledLL} {cells : List (Nat × List T)}
    (hr : Rep h l cells) : l.size_ = 1 ↔ (cells.map Prod.snd).flatten.length = 1 := by
  rw [hr.size_eq]

end endops

/-! ## Sequences of end operations -/

section sequences

variable {T : Type}

/-- What a well-formed list shows to an observer: the node counts are between 1 and 6 and
sum up to `size()`, head and tail are absent exactly when `size()` is 0, the head node has
no predecessor and the tail node no successor. -/
theorem wf_observable {h : Heap T} {l : UnrolledLL} (hw : wf h l) :
    ∃ cs, counts h l = some cs ∧ (∀ c ∈ cs, 1 ≤ c ∧ c ≤ 6) ∧ size l = cs.sum ∧
      (l.head_ = none ↔ size l = 0) ∧ (l.tail_ = none ↔ size l = 0) ∧
      (∀ n, readNode h l.head_ = some n → n.prev_ = none) ∧
      (∀ n, readNode h l.tail_ = some n → n.next_ = none) := by
  obtain ⟨cells, hr⟩ := hw
  refine ⟨_, hr.counts_eq, ?_, hr.size, ?_, ?_, ?_, ?_⟩
  · intro c hc
    simp only [List.map_map, List.mem_map, Function.comp] at hc
    obtain ⟨x, hx, rfl⟩ := hc
    exact Seg.cell_bounds hr.seg x hx
  · cases cells with
    | nil =>
      have := hr.nil_inv
      subst this
      simp [UnrolledLL.empty_list, size]
    | cons x rest =>
      obtain ⟨a, c⟩ := x
      obtain ⟨hhd, _, hsz, _⟩ := hr.cons_inv
      simp only [size, hhd]
      constructor
      · intro e; simp at e
      · intro e; omega
  · cases cells with
    | nil =>
      have := hr.nil_inv
      subst this
      simp [UnrolledLL.empty_list, size]
    | cons x rest =>
      obtain ⟨a, c⟩ := x
      obtain ⟨_, ⟨t, htl⟩, hsz, _⟩ := hr.cons_inv
      simp only [size, htl]
      constructor
      · intro e; simp at e
      · intro e; omega
  · intro n hn
    cases cells with
    | nil =>
      have := hr.nil_inv
      subst this
      simp [UnrolledLL.empty_list, readNode] at hn
    | cons x rest =>
      obtain ⟨a, c⟩ := x
      obtain ⟨hhd, _, _, m, hm, hp, _⟩ := hr.cons_inv
      rw [hhd, hm] at hn
      rw [← Option.some.inj hn]; exact hp
  · intro n hn
    by_cases hnil : cells = []
    · subst hnil
      have := hr.nil_inv
      subst this
      simp [UnrolledLL.empty_list, readNode] at hn
    · obtain ⟨pre, ⟨t, c⟩, rfl⟩ := exists_snoc_of_ne_nil hnil
      obtain ⟨htl, _⟩ := hr.toChain.snoc_inv
      obtain ⟨m, hm, hnext, _⟩ := Seg.last_node hr.seg
      rw [htl, hm] at hn
      rw [← Option.some.inj hn]; exact hnext

/-- Neighbours in a chain point at each other. -/
theorem Seg.adjacent {h : Heap T} {pre rest : List (Nat × List T)} {a b : Nat}
    {ca cb : List T} {prev p : Option Nat}
    (hs : Seg h prev p (pre ++ (a, ca) :: (b, cb) :: rest)) :
    ∃ na nb, readNode h (some a) = some na ∧ readNode h (some b) = some nb ∧
      na.next_ = some b ∧ nb.prev_ = some a := by
  obtain ⟨_, na, _, _, hna, _, _, _, _, _, _, hrest⟩ := SegTo.mid hs.toSegTo
  obtain ⟨hb, nb, hnb, hp, _⟩ := hrest
  exact ⟨na, nb, hna, hnb, hb, hp⟩

variable [Inhabited T]

/-- One admissible end operation on a well-formed list, when it has a result, leaves a
well-formed list.  The pushes always have a result; a pop has none when it reaches a
`delete []`. -/
theorem applyOp_rep {o : Op T} {os : List (Op T)} {l l1 : UnrolledLL} {h h1 : Heap T}
    {cells : List (Nat × List T)} (hr : Rep h l cells) (hok : opsOk l.size_ (o :: os))
    (e : applyOp o l h = some (l1, h1)) :
    ∃ cells1, Rep h1 l1 cells1 ∧ opsOk l1.size_ os := by
  cases o with
  | push_back v =>
    obtain ⟨hlt, hok2⟩ := hok
    obtain ⟨l2, h2, cells1, e1, c1, f1, z1⟩ := push_back_chain v hr.toChain
    have e2 : applyOp (Op.push_back v) l h = some (l2, h2) := e1
    rw [e2] at e
    obtain ⟨rfl, rfl⟩ := Prod.mk.inj (Option.some.inj e)
    have hz : l2.size_ = l.size_ + 1 := by rw [z1, uinc_of_lt hlt]
    refine ⟨cells1, Rep.of_chain c1 ?_ (by omega), by rw [hz]; exact hok2⟩
    rw [hz, f1, hr.size_eq]; simp
  | push_front v =>
    obtain ⟨hlt, hok2⟩ := hok
    obtain ⟨l2, h2, e1, c1, z1, _⟩ := push_front_chain v hr.toChain
    have e2 : applyOp (Op.push_front v) l h = some (l2, h2) := e1
    rw [e2] at e
    obtain ⟨rfl, rfl⟩ := Prod.mk.inj (Option.some.inj e)
    have hz : l2.size_ = l.size_ + 1 := by rw [z1, uinc_of_lt hlt]
    refine ⟨_, Rep.of_chain c1 ?_ (by omega), by rw [hz]; exact hok2⟩
    rw [hz, hr.size_eq]; simp
  | pop_back =>
    obtain ⟨hpos, hok2⟩ := hok
    have hne : cells ≠ [] := by
      intro e0; subst e0
      have := hr.size_eq; simp at this; omega
    obtain ⟨pre, ⟨t, cv⟩, rfl⟩ := exists_snoc_of_ne_nil hne
    obtain ⟨_, _, _, _, _, _, hcp, _⟩ := Seg.last_node hr.seg
    have e0 : pop_back l h = some (l1, h1) := e
    by_cases hcv : cv.length = 1
    · obtain ⟨x, rfl⟩ := List.length_eq_one.mp hcv
      rw [pop_back_undefined hr.toChain] at e0
      exact absurd e0 (by simp)
    · have hcv2 : 2 ≤ cv.length := by
        have : 1 ≤ cv.length := hcp
        omega
      have hsz : l.size_ ≠ 1 := by
        rw [hr.size_eq]; simp; omega
      obtain ⟨l2, h2, e2, c2, z2⟩ := pop_back_chain hr.toChain hsz hcv2
      rw [e2] at e0
      obtain ⟨rfl, rfl⟩ := Prod.mk.inj (Option.some.inj e0)
      have hz : l2.size_ = l.size_ - 1 := by rw [z2, udec_of_pos hpos hr.bound]
      have hb := hr.bound
      refine ⟨_, Rep.of_chain c2 ?_ (by omega), by rw [hz]; exact hok2⟩
      rw [hz, hr.size_eq]; simp; omega
  | pop_front =>
    obtain ⟨hpos, hok2⟩ := hok
    have e0 : pop_front l h = some (l1, h1) := e
    cases cells with
    | nil =>
      have := hr.size_eq; simp at this; omega
    | cons x rest =>
      obtain ⟨a, cv⟩ := x
      by_cases hsz : l.size_ = 1
      · rw [pop_front_single hr.seg.1 hsz] at e0
        exact absurd e0 (by simp)
      · obtain ⟨l2, h2, e2, c2, z2⟩ := pop_front_chain hr.toChain hr.size_one_iff hsz
        rw [e2] at e0
        obtain ⟨rfl, rfl⟩ := Prod.mk.inj (Option.some.inj e0)
        obtain ⟨_, _, _, _, _, _, _, hcp, _, _⟩ := hr.seg
        have hz : l2.size_ = l.size_ - 1 := by rw [z2, udec_of_pos hpos hr.bound]
        have hb := hr.bound
        refine ⟨_, Rep.of_chain c2 ?_ (by omega), by rw [hz]; exact hok2⟩
        rw [hz, hr.size_eq]
        by_cases hcv : cv.length = 1
        · rw [if_pos hcv]; simp; omega
        · rw [if_neg hcv]; simp; omega

/-- An admissible sequence of end operations on a well-formed list, when it has a result,
leaves a well-formed list. -/
theorem runOps_rep : ∀ (ops : List (Op T)) (l : UnrolledLL) (h : Heap T)
    (cells : List (Nat × List T)) (l1 : UnrolledLL) (h1 : Heap T), Rep h l cells →
    opsOk l.size_ ops → runOps ops l h = some (l1, h1) → ∃ cells1, Rep h1 l1 cells1
  | [], l, h, cells, l1, h1, hr, _, e => by
    obtain ⟨rfl, rfl⟩ := Prod.mk.inj (Option.some.inj e)
    exact ⟨cells, hr⟩
  | o :: os, l, h, cells, l1, h1, hr, hok, e => by
    cases ha : applyOp o l h with
    | none => simp [runOps, ha] at e
    | some s =>
      obtain ⟨l2, h2⟩ := s
      obtain ⟨cells2, r2, hok2⟩ := applyOp_rep hr hok ha
      have e2 : runOps os l2 h2 = some (l1, h1) := by
        simpa [runOps, ha] using e
      exact runOps_rep os l2 h2 cells2 l1 h1 r2 hok2 e2

/-- A sequence of `push_back` calls run as a sequence of operations. -/
theorem runOps_push_backs (v : T) : ∀ (k : Nat) (l : UnrolledLL) (h : Heap T),
    runOps (List.replicate k (Op.push_back v)) l h = pushAll (List.replicate k v) l h
  | 0, _, _ => rfl
  | k + 1, l, h => by
    simp only [List.replicate_succ, runOps, pushAll, applyOp]
    cases hp : push_back v l h with
    | none => rfl
    | some s =>
      obtain ⟨l1, h1⟩ := s
      simp only [Option.bind_eq_bind, Option.some_bind]
      exact runOps_push_backs v k l1 h1

end sequences

/-! ## `insert` on the chain -/

section insertion

variable {T : Type} [Inhabited T]

omit [Inhabited T] in
/-- A node of a chain is the head node exactly when no node precedes it. -/
theorem Chain.head_eq_iff {h : Heap T} {l : UnrolledLL} {pre rest : List (Nat × List T)}
    {t : Nat} {cv : List T} (hc : Chain h l (pre ++ (t, cv) :: rest)) :
    some t = l.head_ ↔ pre = [] := by
  obtain ⟨hnp, _⟩ := nodup_mid hc.nodup
  cases pre with
  | nil =>
    have : l.head_ = some t := hc.seg.1
    simp [this]
  | cons x pre2 =>
    obtain ⟨a, ca⟩ := x
    have : l.head_ = some a := hc.seg.1
    rw [this]
    have hta : t ≠ a := fun e => hnp (by rw [e]; simp)
    simp [hta]

omit [Inhabited T] in
/-- A node of a chain is the tail node exactly when no node follows it. -/
theorem Chain.tail_eq_iff {h : Heap T} {l : UnrolledLL} {pre rest : List (Nat × List T)}
    {t : Nat} {cv : List T} (hc : Chain h l (pre ++ (t, cv) :: rest)) :
    some t = l.tail_ ↔ rest = [] := by
  obtain ⟨_, hnr, _⟩ := nodup_mid hc.nodup
  by_cases hr : rest = []
  · subst hr
    simp [hc.tail]
  · obtain ⟨r2, ⟨b, cb⟩, rfl⟩ := exists_snoc_of_ne_nil hr
    have htl : l.tail_ = some b := by
      rw [hc.tail]
      have : pre ++ (t, cv) :: (r2 ++ [(b, cb)]) = (pre ++ (t, cv) :: r2) ++ [(b, cb)] := by
        simp
      rw [this, List.map_append, List.getLast?_append]; rfl
    have htb : t ≠ b := fun e => hnr (by rw [e]; simp)
    simp [htl, htb, hr]

/-- `insert` at a non-zero offset of a node with room shifts the elements from that offset
one slot to the right and stores the value there. -/
theorem insert_room {h : Heap T} {l : UnrolledLL} {pre rest : List (Nat × List T)} {t : Nat}
    {cv : List T} {o : Nat} (v : T) (hc : Chain h l (pre ++ (t, cv) :: rest))
    (ho1 : 1 ≤ o) (ho : o < cv.length) (hroom : cv.length < NUM_ELEMENTS_PER_NODE) :
    ∃ h1, insert { ptr_ := some t, offset := o } v l h
        = some ({ ptr_ := some t, offset := o }, { l with size_ := uinc l.size_ }, h1) ∧
      Chain h1 { l with size_ := uinc l.size_ }
        (pre ++ (t, cv.take o ++ v :: cv.drop o) :: rest) ∧
      deref h1 { ptr_ := some t, offset := o } = some v := by
  obtain ⟨_, n, _, _, hn, _, hcnt, hlen, hcon, _, _, _⟩ := SegTo.mid hc.seg.toSegTo
  have hlt := readNode_lt hn
  have h6 : cv.length < 6 := hroom
  have hlen6 : n.elements.length = 6 := hlen
  have hud : udec cv.length = cv.length - 1 :=
    udec_of_pos (by omega) (by unfold UINT_MOD; omega)
  have hui : uinc cv.length = cv.length + 1 := uinc_of_lt (by unfold UINT_MOD; omega)
  obtain ⟨es2, e1, e2, e3⟩ := shiftRightLoop_spec o ho1 (cv.length - 1) n.elements (by omega)
  let n1 : Node T := { n with elements := es2 }
  let s1 : Heap T := h.set t (some n1)
  have r1 : ∀ q, readNode s1 q = if q = some t then some n1 else readNode h q :=
    fun q => readNode_set h t _ q hlt
  have r1t : readNode s1 (some t) = some n1 := by rw [r1]; simp
  let n2 : Node T := { n1 with num_elements := uinc n1.num_elements }
  let s2 : Heap T := s1.set t (some n2)
  have r2 : ∀ q, readNode s2 q = if q = some t then some n2 else readNode s1 q :=
    fun q => readNode_set s1 t _ q (by simp [s1]; exact hlt)
  have r2t : readNode s2 (some t) = some n2 := by rw [r2]; simp
  let n3 : Node T := { n2 with elements := es2.set o v }
  let s3 : Heap T := s2.set t (some n3)
  have r3 : ∀ q, readNode s3 q = if q = some t then some n3 else readNode s2 q :=
    fun q => readNode_set s2 t _ q (by simp [s2, s1]; exact hlt)
  have hread : ∀ q, readNode s3 q = if q = some t then some n3 else readNode h q := by
    intro q
    rw [r3, r2, r1]
    by_cases hq : q = some t <;> simp [hq]
  have hset : setElem n2.elements o v = some (es2.set o v) := by
    have : o < es2.length := by rw [e2]; omega
    simp only [n2, n1, setElem, this, if_true]
  refine ⟨s3, ?_, ?_, ?_⟩
  · have ho0 : o ≠ 0 := by omega
    have hne6 : n.num_elements ≠ NUM_ELEMENTS_PER_NODE := by rw [hcnt]; omega
    have hne6b : cv.length ≠ NUM_ELEMENTS_PER_NODE := by omega
    simp only [insert, ho0, if_false, hn, Option.bind_eq_bind, Option.some_bind, hne6, hcnt,
      hne6b, hud, e1]
    rw [modifyNode_some _ hn]
    simp only [Option.some_bind]
    rw [modifyNode_some _ r1t]
    simp only [Option.some_bind]
    rw [r2t]
    simp only [Option.some_bind]
    rw [hset]
    simp only [Option.some_bind]
    rw [modifyNode_some _ r2t]
    rfl
  · have hupd : Chain s3 l (pre ++ (t, cv.take o ++ v :: cv.drop o) :: rest) := by
      refine Chain.update_node hc hn hread rfl rfl ?_ ?_ ?_
        (by simp only [List.length_append, List.length_cons]; omega) ?_
      · simp only [n3, n2, n1]; rw [hcnt, hui]; simp; omega
      · simp only [n3]; rw [List.length_set, e2]; exact hlen
      · have hc2 : n.elements.take cv.length = cv := by
          have := hcon; simp only [Node.contents, hcnt] at this; exact this
        have := insert_contents v ho (by omega) e2 hc2 e3
        simp only [Node.contents, n3, n2, n1]
        rw [hcnt, hui]
        exact this
      · simp only [NUM_ELEMENTS_PER_NODE]; simp; omega
    exact ⟨hupd.seg, hupd.nodup, hupd.tail⟩
  · have : readNode s3 (some t) = some n3 := by rw [hread]; simp
    simp only [deref, this, Option.bind_eq_bind, Option.some_bind, n3]
    exact List.getElem?_set_self (by rw [e2]; omega)

/-- `insert` at offset 0 of the head node links a new one-element node before it, which
becomes the head node. -/
theorem insert_front_head {h : Heap T} {l : UnrolledLL} {rest : List (Nat × List T)} {t : Nat}
    {cv : List T} (v : T) (hc : Chain h l ((t, cv) :: rest)) :
    ∃ h1, insert { ptr_ := some t, offset := 0 } v l h
        = some ({ ptr_ := some h.length, offset := 0 },
            { l with head_ := some h.length, size_ := uinc l.size_ }, h1) ∧
      Chain h1 { l with head_ := some h.length, size_ := uinc l.size_ }
        ((h.length, [v]) :: (t, cv) :: rest) ∧
      deref h1 { ptr_ := some h.length, offset := 0 } = some v := by
  obtain ⟨hhd, n, hn, hprev, _⟩ := hc.seg
  have hlt := readNode_lt hn
  have hne : t ≠ h.length := by omega
  let new := Node.new v
  let s1 : Heap T := h ++ [some new]
  have r1 : ∀ q, readNode s1 q = if q = some h.length then some new else readNode h q :=
    fun q => readNode_append h _ q
  have r1t : readNode s1 (some t) = some n := by rw [r1]; simp [hne, hn]
  have r1n : readNode s1 (some h.length) = some new := by rw [r1]; simp
  let w2 : Node T := { new with prev_ := n.prev_ }
  let s2 : Heap T := s1.set h.length (some w2)
  have r2 : ∀ q, readNode s2 q = if q = some h.length then some w2 else readNode s1 q :=
    fun q => readNode_set s1 h.length _ q (by simp [s1])
  have r2n : readNode s2 (some h.length) = some w2 := by rw [r2]; simp
  let w3 : Node T := { w2 with next_ := some t }
  let s3 : Heap T := s2.set h.length (some w3)
  have r3 : ∀ q, readNode s3 q = if q = some h.length then some w3 else readNode s2 q :=
    fun q => readNode_set s2 h.length _ q (by simp [s2, s1])
  have r3t : readNode s3 (some t) = some n := by rw [r3, r2, r1t]; simp [hne]
  let s4 : Heap T := s3.set t (some { n with prev_ := some h.length })
  have r4 : ∀ q, readNode s4 q =
      if q = some t then some { n with prev_ := some h.length } else readNode s3 q :=
    fun q => readNode_set s3 t _ q (by simp [s3, s2, s1]; omega)
  have hread : ∀ q, readNode s4 q = if q = some h.length then some w3
      else if q = some t then some { n with prev_ := some h.length } else readNode h q := by
    intro q
    rw [r4, r3, r2, r1]
    by_cases hq : q = some h.length
    · subst hq; simp [Ne.symm hne]
    · simp [hq]
  refine ⟨s4, ?_, ?_, ?_⟩
  · simp only [insert, if_true, allocNode]
    rw [r1t]
    simp only [Option.bind_eq_bind, Option.some_bind]
    rw [modifyNode_some _ r1n]
    simp only [Option.some_bind]
    rw [modifyNode_some _ r2n]
    simp only [Option.some_bind]
    rw [modifyNode_some _ r3t]
    simp only [Option.some_bind, hhd, if_true]
  · have := Chain.link_head (v := v) hc hn (Nat.le_refl _) hread rfl hprev rfl
      (Node.new_length v) rfl
    exact ⟨this.seg, this.nodup, this.tail⟩
  · have : readNode s4 (some h.length) = some w3 := by rw [hread]; simp
    simp only [deref, this, Option.bind_eq_bind, Option.some_bind]
    exact Node.new_first v

/-- `insert` at offset 0 of a node with a predecessor links a new one-element node between
the two. -/
theorem insert_front_mid {h : Heap T} {l : UnrolledLL} {pre rest : List (Nat × List T)}
    {u t : Nat} {cu cv : List T} (v : T)
    (hc : Chain h l (pre ++ (u, cu) :: (t, cv) :: rest)) :
    ∃ h1, insert { ptr_ := some t, offset := 0 } v l h
        = some ({ ptr_ := some h.length, offset := 0 }, { l with size_ := uinc l.size_ }, h1) ∧
      Chain h1 { l with size_ := uinc l.size_ }
        (pre ++ (u, cu) :: (h.length, [v]) :: (t, cv) :: rest) ∧
      deref h1 { ptr_ := some h.length, offset := 0 } = some v := by
  have hc2 : Chain h l ((pre ++ [(u, cu)]) ++ (t, cv) :: rest) := by simpa using hc
  obtain ⟨na, n, hna, hn, hnext, hprev⟩ := Seg.adjacent hc.seg
  have hnothead : ¬ (some t = l.head_) := by
    rw [hc2.head_eq_iff]; simp
  obtain ⟨_, hnr, _, _, _⟩ := nodup_mid hc.nodup
  have hut : u ≠ t := fun e => hnr (by rw [e]; simp)
  have hlt := readNode_lt hn
  have hltu := readNode_lt hna
  have hne : t ≠ h.length := by omega
  have hneu : u ≠ h.length := by omega
  let new := Node.new v
  let s1 : Heap T := h ++ [some new]
  have r1 : ∀ q, readNode s1 q = if q = some h.length then some new else readNode h q :=
    fun q => readNode_append h _ q
  have r1t : readNode s1 (some t) = some n := by rw [r1]; simp [hne, hn]
  have r1n : readNode s1 (some h.length) = some new := by rw [r1]; simp
  let w2 : Node T := { new with prev_ := n.prev_ }
  let s2 : Heap T := s1.set h.length (some w2)
  have r2 : ∀ q, readNode s2 q = if q = some h.length then some w2 else readNode s1 q :=
    fun q => readNode_set s1 h.length _ q (by simp [s1])
  have r2n : readNode s2 (some h.length) = some w2 := by rw [r2]; simp
  let w3 : Node T := { w2 with next_ := some t }
  let s3 : Heap T := s2.set h.length (some w3)
  have r3 : ∀ q, readNode s3 q = if q = some h.length then some w3 else readNode s2 q :=
    fun q => readNode_set s2 h.length _ q (by simp [s2, s1])
  have r3t : readNode s3 (some t) = some n := by rw [r3, r2, r1t]; simp [hne]
  let s4 : Heap T := s3.set t (some { n with prev_ := some h.length })
  have r4 : ∀ q, readNode s4 q =
      if q = some t then some { n with prev_ := some h.length } else readNode s3 q :=
    fun q => readNode_set s3 t _ q (by simp [s3, s2, s1]; omega)
  have r4n : readNode s4 (some h.length) = some w3 := by
    rw [r4, r3]; simp [Ne.symm hne]
  have r4u : readNode s4 (some u) = some na := by
    rw [r4, r3, r2, r1]; simp [hut, hneu, hna]
  let s5 : Heap T := s4.set u (some { na with next_ := some h.length })
  have r5 : ∀ q, readNode s5 q =
      if q = some u then some { na with next_ := some h.length } else readNode s4 q :=
    fun q => readNode_set s4 u _ q (by simp [s4, s3, s2, s1]; omega)
  have hread : ∀ q, readNode s5 q = if q = some h.length then some w3
      else if q = some t then some { n with prev_ := some h.length }
      else if q = some u then some { na with next_ := some h.length }
      else readNode h q := by
    intro q
    rw [r5, r4, r3, r2, r1]
    by_cases hq : q = some h.length
    · subst hq; simp [Ne.symm hne, Ne.symm hneu]
    · by_cases hq2 : q = some t
      · subst hq2; simp [Ne.symm hut, hne]
      · simp [hq, hq2]
  have hw3p : w3.prev_ = some u := hprev
  refine ⟨s5, ?_, ?_, ?_⟩
  · simp only [insert, if_true, allocNode]
    rw [r1t]
    simp only [Option.bind_eq_bind, Option.some_bind]
    rw [modifyNode_some _ r1n]
    simp only [Option.some_bind]
    rw [modifyNode_some _ r2n]
    simp only [Option.some_bind]
    rw [modifyNode_some _ r3t]
    simp only [Option.some_bind, hnothead, if_false]
    rw [r4n]
    simp only [Option.some_bind]
    rw [hprev, modifyNode_some _ r4u]
    rfl
  · have := Chain.link_mid (v := v) hc hna hn (Nat.le_refl _) hread rfl hw3p rfl
      (Node.new_length v) rfl
    exact ⟨this.seg, this.nodup, this.tail⟩
  · have : readNode s5 (some h.length) = some w3 := by rw [hread]; simp
    simp only [deref, this, Option.bind_eq_bind, Option.some_bind]
    exact Node.new_first v

omit [Inhabited T] in
/-- The logical sequence with a value inserted into one cell. -/
theorem flatten_insert (pre rest : List (Nat × List T)) (t : Nat) (cv : List T) (v : T)
    (o : Nat) (ho : o ≤ cv.length) :
    ((pre ++ (t, cv.take o ++ v :: cv.drop o) :: rest).map Prod.snd).flatten =
      (((pre ++ (t, cv) :: rest).map Prod.snd).flatten.take
          ((pre.map Prod.snd).flatten.length + o)) ++
        v :: ((pre ++ (t, cv) :: rest).map Prod.snd).flatten.drop
          ((pre.map Prod.snd).flatten.length + o) := by
  simp only [List.map_append, List.map_cons, List.flatten_append, List.flatten_cons]
  rw [List.take_append, List.drop_append, List.take_append_of_le_length ho,
    List.drop_append_of_le_length ho]
  simp

/-- `insert` at a dereferenceable position with offset 0 or in a node with room: the chain
after the call. -/
theorem insert_chain {h : Heap T} {l : UnrolledLL} {pre rest : List (Nat × List T)} {t : Nat}
    {cv : List T} {o : Nat} (v : T) (hc : Chain h l (pre ++ (t, cv) :: rest))
    (ho : o < cv.length) (hcase : o = 0 ∨ cv.length < NUM_ELEMENTS_PER_NODE) :
    ∃ it l1 h1, insert { ptr_ := some t, offset := o } v l h = some (it, l1, h1) ∧
      Chain h1 l1 (if o = 0 then pre ++ (h.length, [v]) :: (t, cv) :: rest
        else pre ++ (t, cv.take o ++ v :: cv.drop o) :: rest) ∧
      l1.size_ = uinc l.size_ ∧ deref h1 it = some v := by
  by_cases ho0 : o = 0
  · subst ho0
    by_cases hp : pre = []
    · subst hp
      obtain ⟨h1, e1, c1, d1⟩ := insert_front_head v hc
      exact ⟨_, _, h1, e1, by simpa using c1, rfl, d1⟩
    · obtain ⟨pre2, ⟨u, cu⟩, rfl⟩ := exists_snoc_of_ne_nil hp
      have hc2 : Chain h l (pre2 ++ (u, cu) :: (t, cv) :: rest) := by simpa using hc
      obtain ⟨h1, e1, c1, d1⟩ := insert_front_mid v hc2
      exact ⟨_, _, h1, e1, by simpa using c1, rfl, d1⟩
  · have hroom : cv.length < NUM_ELEMENTS_PER_NODE := by
      rcases hcase with e | e
      · exact absurd e ho0
      · exact e
    obtain ⟨h1, e1, c1, d1⟩ := insert_room v hc (by omega) ho hroom
    exact ⟨_, _, h1, e1, by rw [if_neg ho0]; exact c1, rfl, d1⟩

end insertion

/-! ## `erase` on the chain -/

section erasure

variable {T : Type}

/-- The test `itr.ptr_ == head_ && head_->num_elements == 1` of `erase`. -/
theorem Chain.cond_head {h : Heap T} {l : UnrolledLL} {pre rest : List (Nat × List T)}
    {t : Nat} {cv : List T} (hc : Chain h l (pre ++ (t, cv) :: rest)) :
    (if some t = l.head_ then
        Option.map (fun n => decide (n.num_elements = 1)) (readNode h l.head_)
      else some false) = some (pre.isEmpty && decide (cv.length = 1)) := by
  obtain ⟨_, n, _, _, hn, _, hcnt, _⟩ := SegTo.mid hc.seg.toSegTo
  by_cases hh : some t = l.head_
  · have hp := hc.head_eq_iff.mp hh
    subst hp
    rw [if_pos hh, ← hh, hn]
    simp [hcnt]
  · have hp : pre ≠ [] := fun e => hh (hc.head_eq_iff.mpr e)
    rw [if_neg hh]
    cases pre with
    | nil => exact absurd rfl hp
    | cons x xs => simp

/-- The test `itr.ptr_ == tail_ && tail_->num_elements == 1` of `erase`. -/
theorem Chain.cond_tail {h : Heap T} {l : UnrolledLL} {pre rest : List (Nat × List T)}
    {t : Nat} {cv : List T} (hc : Chain h l (pre ++ (t, cv) :: rest)) :
    (if some t = l.tail_ then
        Option.map (fun n => decide (n.num_elements = 1)) (readNode h l.tail_)
      else some false) = some (rest.isEmpty && decide (cv.length = 1)) := by
  obtain ⟨_, n, _, _, hn, _, hcnt, _⟩ := SegTo.mid hc.seg.toSegTo
  by_cases hh : some t = l.tail_
  · have hp := hc.tail_eq_iff.mp hh
    subst hp
    rw [if_pos hh, ← hh, hn]
    simp [hcnt]
  · have hp : rest ≠ [] := fun e => hh (hc.tail_eq_iff.mpr e)
    rw [if_neg hh]
    cases rest with
    | nil => exact absurd rfl hp
    | cons x xs => simp

/-- The test `itr.ptr_ == tail_ && itr.ptr_->num_elements - 1 == itr.offset` of `erase`. -/
theorem Chain.cond_last {h : Heap T} {l : UnrolledLL} {pre rest : List (Nat × List T)}
    {t : Nat} {cv : List T} (hc : Chain h l (pre ++ (t, cv) :: rest)) (o : Nat) :
    (if some t = l.tail_ then
        Option.map (fun n => decide (udec n.num_elements = o)) (readNode h (some t))
      else some false) = some (rest.isEmpty && decide (cv.length - 1 = o)) := by
  obtain ⟨_, n, _, _, hn, _, hcnt, _, _, hpos, hle, _⟩ := SegTo.mid hc.seg.toSegTo
  have hle6 : cv.length ≤ 6 := hle
  have hud : udec cv.length = cv.length - 1 :=
    udec_of_pos hpos (by unfold UINT_MOD; omega)
  by_cases hh : some t = l.tail_
  · have hp := hc.tail_eq_iff.mp hh
    subst hp
    rw [if_pos hh, hn]
    simp [hcnt, hud]
  · have hp : rest ≠ [] := fun e => hh (hc.tail_eq_iff.mpr e)
    rw [if_neg hh]
    cases rest with
    | nil => exact absurd rfl hp
    | cons x xs => simp

end erasure

/-! ## Claims -/

section claims

variable {T : Type} [Inhabited T]

/-- Where C2 holds: on every well-formed non-empty list `push_front(v)` followed by
`pop_front()` succeeds and gives back the same list object (head, tail and size), in a
store in which every pointer dereferences to the same node as before; so the node chain
(each node's contents and element count), the logical sequence and `size()` are as they
were.  The new head node is unlinked by `delete`. -/
theorem push_front_pop_front_identity (h : Heap T) (l : UnrolledLL) (v : T) (hw : wf h l)
    (hne : empty l = false) :
    ∃ l1 h1 l2 h2, push_front v l h = some (l1, h1) ∧ pop_front l1 h1 = some (l2, h2) ∧
      l2 = l ∧ size l2 = size l ∧ (∀ p, readNode h2 p = readNode h p) ∧
      chunks h2 l2 = chunks h l ∧ counts h2 l2 = counts h l ∧ toList h2 l2 = toList h l := by
  obtain ⟨cells, hr⟩ := hw
  have key : ∃ l1 h1 h2, push_front v l h = some (l1, h1) ∧ pop_front l1 h1 = some (l, h2) ∧
      (∀ p, readNode h2 p = readNode h p) := by
    cases cells with
    | nil =>
      have hl := hr.nil_inv
      subst hl
      simp [empty, UnrolledLL.empty_list] at hne
    | cons x rest =>
      obtain ⟨a, c⟩ := x
      obtain ⟨hhd, ⟨t, htl⟩, hsz, n, hn, hprev, hcnt⟩ := hr.cons_inv
      have halt := readNode_lt hn
      -- the stores met along the way
      let new := Node.new v
      let s1 : Heap T := h ++ [some new]
      have r1 : ∀ q, readNode s1 q = if q = some h.length then some new else readNode h q :=
        fun q => readNode_append h _ q
      have hne : a ≠ h.length := by omega
      have r1a : readNode s1 (some a) = some n := by rw [r1]; simp [hne, hn]
      let s2 : Heap T := s1.set a (some { n with prev_ := some h.length })
      have r2 : ∀ q, readNode s2 q =
          if q = some a then some { n with prev_ := some h.length } else readNode s1 q :=
        fun q => readNode_set s1 a _ q (by simp [s1]; omega)
      have r2n : readNode s2 (some h.length) = some new := by
        rw [r2, r1]; simp [Ne.symm hne]
      let s3 : Heap T := s2.set h.length (some { new with next_ := some a })
      have r3 : ∀ q, readNode s3 q =
          if q = some h.length then some { new with next_ := some a } else readNode s2 q :=
        fun q => readNode_set s2 h.length _ q (by simp [s2, s1])
      have r3n : readNode s3 (some h.length) = some { new with next_ := some a } := by
        rw [r3]; simp
      let s4 : Heap T := s3.set h.length none
      have r4 : ∀ q, readNode s4 q = if q = some h.length then none else readNode s3 q :=
        fun q => readNode_set s3 h.length _ q (by simp [s3, s2, s1])
      have r4a : readNode s4 (some a) = some { n with prev_ := some h.length } := by
        rw [r4, r3, r2]; simp [hne]
      let s5 : Heap T := s4.set a (some n)
      have r5 : ∀ q, readNode s5 q = if q = some a then some n else readNode s4 q :=
        fun q => readNode_set s4 a _ q (by simp [s4, s3, s2, s1]; omega)
      refine ⟨{ l with head_ := some h.length, size_ := uinc l.size_ }, s3, s5, ?_, ?_, ?_⟩
      · simp only [push_front, allocNode, htl, hhd]
        rw [modifyNode_some _ r1a]
        simp only [Option.bind_eq_bind, Option.some_bind]
        rw [modifyNode_some _ r2n]
        rfl
      · have hs1 : uinc l.size_ ≠ 1 := uinc_ne_one hsz hr.bound
        have hs2 : udec (uinc l.size_) = l.size_ := udec_uinc hr.bound
        simp only [pop_front, hs1, if_false, r3n, Option.bind_eq_bind, Option.some_bind]
        have hone : new.num_elements = 1 := rfl
        simp only [hone, if_true]
        rw [deleteNode_some r3n]
        simp only [Option.some_bind]
        rw [modifyNode_some _ r4a]
        have hback : ({ ({ n with prev_ := some h.length } : Node T) with prev_ := none }
            : Node T) = n := by
          cases n; simp_all
        simp only [hback, Option.some_bind, hs2]
        cases l
        simp_all
      · intro p
        rw [r5]
        split
        · next hp => subst hp; exact hn.symm
        · next hp =>
          rw [r4]
          split
          · next hq =>
            subst hq
            cases hq : readNode h (some h.length) with
            | none => rfl
            | some n => exact absurd (readNode_lt hq) (by omega)
          · next hq =>
            rw [r3, r2, r1]
            simp [hq, hp]
  obtain ⟨l1, h1, h2, e1, e2, e3⟩ := key
  have hc2 : Chain h2 l cells := hr.toChain.congr_store e3
  exact ⟨l1, h1, l, h2, e1, e2, rfl, rfl, e3, by rw [hc2.chunks_eq, hr.chunks_eq],
    by rw [hc2.counts_eq, hr.counts_eq], by rw [hc2.toList_eq, hr.toList_eq]⟩

/-- Where C3 holds: on every well-formed non-empty list whose tail node has spare capacity
`push_back(v)` followed by `pop_back()` succeeds and gives back the same list object, with
the prior logical sequence, node chain and `size()`. -/
theorem push_back_pop_back_restores (h : Heap T) (l : UnrolledLL) (v : T) (hw : wf h l)
    (hne : empty l = false)
    (hspare : ∀ n, readNode h l.tail_ = some n → n.num_elements < NUM_ELEMENTS_PER_NODE) :
    ∃ l1 h1 l2 h2, push_back v l h = some (l1, h1) ∧ pop_back l1 h1 = some (l2, h2) ∧
      l2 = l ∧ size l2 = size l ∧ toList h2 l2 = toList h l ∧ chunks h2 l2 = chunks h l := by
  obtain ⟨cells, hr⟩ := hw
  have hcne : cells ≠ [] := by
    intro e
    subst e
    have := hr.nil_inv
    subst this
    simp [empty, UnrolledLL.empty_list] at hne
  obtain ⟨pre, ⟨t, c⟩, rfl⟩ := exists_snoc_of_ne_nil hcne
  obtain ⟨n, hn, _, hcnt, _, _, hpos, hle⟩ := Seg.last_node hr.seg
  obtain ⟨htl, _, _, _⟩ := hr.toChain.snoc_inv
  have hroom : c.length < NUM_ELEMENTS_PER_NODE := by
    have := hspare n (by rw [htl]; exact hn)
    rw [hcnt] at this
    exact this
  have hsz : 1 ≤ l.size_ := by
    rw [hr.size]; simp; omega
  have key : ∃ l1 h1 l2 h2, push_back v l h = some (l1, h1) ∧
      pop_back l1 h1 = some (l2, h2) ∧ Chain h2 l2 (pre ++ [(t, c)]) ∧
      l2.size_ = l.size_ := by
    obtain ⟨l1, h1, e1, c1, z1⟩ := push_back_room v hr.toChain hroom
    have hs1 : l1.size_ ≠ 1 := by rw [z1]; exact uinc_ne_one hsz hr.bound
    obtain ⟨l2, h2, e2, c2, z2⟩ := pop_back_shrink v c1 hpos hs1
    exact ⟨l1, h1, l2, h2, e1, e2, c2, by rw [z2, z1, udec_uinc hr.bound]⟩
  obtain ⟨l1, h1, l2, h2, e1, e2, c2, z2⟩ := key
  obtain ⟨p1, p2⟩ := hr.toChain.ptr_eq c2
  have hl : l2 = l := by
    cases l; cases l2; simp_all
  refine ⟨l1, h1, l2, h2, e1, e2, hl, by rw [hl], ?_, ?_⟩
  · rw [c2.toList_eq, hr.toList_eq]
  · rw [c2.chunks_eq, hr.chunks_eq]

/-- C1 (as amended): for every sequence of values, the `push_back` calls on the empty list
succeed, `size()` is the number of values modulo `2 ^ 32`, and the walk from `begin()`
that dereferences and then increments reads exactly the pushed values in order and, when
there is at least one value, arrives at `end()`. -/
theorem push_back_all_size_and_order (vs : List T) (h : Heap T) :
    ∃ l h1 e, pushAll vs UnrolledLL.empty_list h = some (l, h1) ∧
      size l = vs.length % UINT_MOD ∧
      walk h1 vs.length (begin l) = some (vs, e) ∧ (vs.length = 0 ∨ e = end_ l) := by
  obtain ⟨l, h1, cells, e1, c1, _, f1, z1⟩ := pushAll_empty vs h
  by_cases hnil : cells = []
  · subst hnil
    have hvs : vs = [] := by simpa using f1.symm
    subst hvs
    exact ⟨l, h1, begin l, e1, z1, rfl, Or.inl rfl⟩
  · have hw := c1.walk_begin hnil
    rw [f1] at hw
    exact ⟨l, h1, end_ l, e1, z1, hw, Or.inr rfl⟩

/-- C1 (counterexample): after `2 ^ 32` calls of `push_back` on the empty list, `size()`
is 0 and not the number of calls. -/
theorem push_back_all_size_wraps :
    ∃ l h1, pushAll (List.replicate 4294967296 (0 : Nat)) UnrolledLL.empty_list [] =
        some (l, h1) ∧ size l = 0 ∧
      size l ≠ (List.replicate 4294967296 (0 : Nat)).length := by
  obtain ⟨l, h1, _, e1, _, _, _, z1⟩ :=
    pushAll_empty (List.replicate 4294967296 (0 : Nat)) []
  have hz : size l = 0 := by
    rw [size, z1, List.length_replicate]; rfl
  exact ⟨l, h1, e1, hz, by rw [hz, List.length_replicate]; decide⟩

/-- C7: after `N ≥ 1` calls of `push_back` on the empty list the chain has `ceil(N/6)`
nodes, all with 6 elements except the last, which holds `N - 6 * (ceil(N/6) - 1)`. -/
theorem push_back_fills_nodes (vs : List T) (h : Heap T) (hN : 1 ≤ vs.length) :
    ∃ l h1 cs, pushAll vs UnrolledLL.empty_list h = some (l, h1) ∧
      counts h1 l = some cs ∧ cs.length = (vs.length + 5) / 6 ∧
      cs = List.replicate ((vs.length + 5) / 6 - 1) 6 ++
        [vs.length - 6 * ((vs.length + 5) / 6 - 1)] := by
  obtain ⟨l, h1, cells, e1, c1, p1, f1, _⟩ := pushAll_empty vs h
  have hne : cells ≠ [] := by
    intro e
    subst e
    have : vs = [] := by simpa using f1.symm
    subst this
    simp at hN
  have hcs := c1.packed_counts p1 hne
  rw [f1] at hcs
  refine ⟨l, h1, _, e1, c1.counts_eq, ?_, hcs⟩
  rw [hcs]
  simp
  omega

/-- Where C11 holds: for every sequence of `push_back`, `push_front`, `pop_back` and
`pop_front` calls on the empty list, in which each pop is applied to a non-empty list and
each push to a list of fewer than `2 ^ 32 - 1` elements, a run that has a result (no call
reaches a `delete []`) leaves a well-formed list: node counts between 1 and 6 that sum up
to `size()`, head and tail absent exactly when `size()` is 0, no predecessor of the head
node, no successor of the tail node (and, by the definition of `wf`, mutually inverse
links along the chain). -/
theorem end_operations_keep_wf (ops : List (Op T)) (h : Heap T) (l : UnrolledLL)
    (h1 : Heap T) (hok : opsOk 0 ops)
    (hrun : runOps ops UnrolledLL.empty_list h = some (l, h1)) :
    wf h1 l ∧
      ∃ cs, counts h1 l = some cs ∧ (∀ c ∈ cs, 1 ≤ c ∧ c ≤ 6) ∧ size l = cs.sum ∧
        (l.head_ = none ↔ size l = 0) ∧ (l.tail_ = none ↔ size l = 0) ∧
        (∀ n, readNode h1 l.head_ = some n → n.prev_ = none) ∧
        (∀ n, readNode h1 l.tail_ = some n → n.next_ = none) := by
  have hr0 : Rep h UnrolledLL.empty_list [] :=
    Rep.of_chain (Chain.of_empty_list h) rfl (by decide)
  obtain ⟨cells, hr⟩ := runOps_rep ops UnrolledLL.empty_list h [] l h1 hr0 hok hrun
  exact ⟨⟨cells, hr⟩, wf_observable ⟨cells, hr⟩⟩

/-- Beside the defect of C11: `2 ^ 32` calls of `push_back` on the empty list, a sequence
without any pop, leave a list that is not well-formed: `size()` is 0 while the chain holds
`2 ^ 32` elements and `head_` is not `NULL`. -/
theorem end_operations_wrap_not_wf :
    (∀ o ∈ List.replicate 4294967296 (Op.push_back (0 : Nat)), o = Op.push_back 0) ∧
    ∃ l h1, runOps (List.replicate 4294967296 (Op.push_back (0 : Nat)))
        UnrolledLL.empty_list [] = some (l, h1) ∧
      ¬ wf h1 l ∧ size l = 0 ∧ l.head_ ≠ none := by
  refine ⟨fun o ho => List.eq_of_mem_replicate ho, ?_⟩
  obtain ⟨l, h1, cells, e1, c1, _, f1, z1⟩ :=
    pushAll_empty (List.replicate 4294967296 (0 : Nat)) []
  have hz : l.size_ = 0 := by
    rw [z1, List.length_replicate]; rfl
  have htot : (cells.map Prod.snd).flatten.length = 4294967296 := by
    rw [f1, List.length_replicate]
  refine ⟨l, h1, by rw [runOps_push_backs]; exact e1, ?_, hz, ?_⟩
  · rintro ⟨cells2, hr⟩
    have h2 := c1.total_unique hr.toChain
    have h3 := hr.size_eq
    rw [h2, htot, hz] at h3
    exact absurd h3 (by decide)
  · intro hnone
    cases cells with
    | nil => simp at htot
    | cons x rest =>
      obtain ⟨a, c⟩ := x
      have : l.head_ = some a := c1.seg.1
      rw [this] at hnone
      exact absurd hnone (by simp)

/-- C19 (as amended): on every well-formed list `push_front(v)` succeeds and links a new
head node holding exactly `v` before the old chain, whose nodes keep their contents and
counts (also when the old head node has spare capacity); the logical sequence becomes `v`
followed by the old one, `front()` is `v`, and `size()` becomes `(size() + 1) mod 2 ^ 32`,
that is, grows by one unless it was `2 ^ 32 - 1`. -/
theorem push_front_adds_head_node (h : Heap T) (l : UnrolledLL) (v : T) (hw : wf h l) :
    ∃ cs l1 h1, chunks h l = some cs ∧ push_front v l h = some (l1, h1) ∧
      chunks h1 l1 = some ([v] :: cs) ∧ counts h1 l1 = some (1 :: cs.map List.length) ∧
      toList h1 l1 = some (v :: cs.flatten) ∧ toList h l = some cs.flatten ∧
      front h1 l1 = some v ∧ size l1 = (size l + 1) % UINT_MOD ∧
      (size l + 1 < UINT_MOD ∨ size l = 4294967295) := by
  obtain ⟨cells, hr⟩ := hw
  obtain ⟨l1, h1, e1, c1, z1, hf⟩ := push_front_chain v hr.toChain
  refine ⟨_, l1, h1, hr.chunks_eq, e1, ?_, ?_, ?_, hr.toList_eq, hf, z1, ?_⟩
  · rw [c1.chunks_eq]; rfl
  · rw [c1.counts_eq]; rfl
  · rw [c1.toList_eq]; rfl
  · have := hr.bound
    unfold UINT_MOD at *
    simp only [size]
    omega

/-- C19 (counterexample): on the well-formed list built by `2 ^ 32 - 1` calls of
`push_back`, `push_front` leaves `size() == 0`, which is not the old size plus one. -/
theorem push_front_size_wraps :
    ∃ l h, pushAll (List.replicate 4294967295 (0 : Nat)) UnrolledLL.empty_list [] =
        some (l, h) ∧ wf h l ∧ size l = 4294967295 ∧
      ∃ l1 h1, push_front 0 l h = some (l1, h1) ∧ size l1 = 0 ∧ size l1 ≠ size l + 1 := by
  obtain ⟨l, h, cells, e1, c1, _, f1, z1⟩ :=
    pushAll_empty (List.replicate 4294967295 (0 : Nat)) []
  have hz : l.size_ = 4294967295 := by
    rw [z1, List.length_replicate]; rfl
  have hr : Rep h l cells :=
    Rep.of_chain c1 (by rw [hz, f1, List.length_replicate]) (by rw [hz]; decide)
  obtain ⟨l1, h1, e2, _, z2, _⟩ := push_front_chain (0 : Nat) c1
  have hz1 : l1.size_ = 0 := by rw [z2, hz]; rfl
  exact ⟨l, h, e1, ⟨cells, hr⟩, hz, l1, h1, e2, hz1, by
    simp only [size]; rw [hz1, hz]; decide⟩

/-- Where C17 holds: with an argument `v` that is an object outside the nodes of the list,
on a well-formed list with `size() < 2 ^ 32 - 1`, for a position
`(t, o)` with `o` a valid offset of the chain node `t` and either `o = 0` or fewer than 6
elements in `t`, `insert` succeeds and leaves a well-formed list; the position denotes the
element of index `i` of the logical sequence, the new sequence has `v` immediately before
that element, `size()` grows by one, the returned iterator reads `v`, and the chain has a
new one-element node before `t` when `o = 0` and otherwise the node `t` with `v` inserted
at offset `o`. -/
theorem insert_at_position (h : Heap T) (l : UnrolledLL) (pre rest : List (Nat × List T))
    (t : Nat) (cv : List T) (o : Nat) (v : T)
    (hr : Rep h l (pre ++ (t, cv) :: rest)) (ho : o < cv.length)
    (hcase : o = 0 ∨ cv.length < NUM_ELEMENTS_PER_NODE) (hb : size l + 1 < UINT_MOD) :
    ∃ it l1 h1 xs i, insert { ptr_ := some t, offset := o } v l h = some (it, l1, h1) ∧
      wf h1 l1 ∧ toList h l = some xs ∧ i = (pre.map Prod.snd).flatten.length + o ∧
      position (pre ++ (t, cv) :: rest) i = some { ptr_ := some t, offset := o } ∧
      toList h1 l1 = some (xs.take i ++ v :: xs.drop i) ∧ size l1 = size l + 1 ∧
      deref h1 it = some v ∧
      chunks h1 l1 = some (if o = 0 then pre.map Prod.snd ++ [v] :: cv :: rest.map Prod.snd
        else pre.map Prod.snd ++ (cv.take o ++ v :: cv.drop o) :: rest.map Prod.snd) := by
  obtain ⟨it, l1, h1, e1, c1, z1, d1⟩ := insert_chain v hr.toChain ho hcase
  have hb2 : l.size_ + 1 < UINT_MOD := hb
  have hz : l1.size_ = l.size_ + 1 := by rw [z1, uinc_of_lt hb2]
  have hflat : ((if o = 0 then pre ++ (h.length, [v]) :: (t, cv) :: rest
      else pre ++ (t, cv.take o ++ v :: cv.drop o) :: rest).map Prod.snd).flatten
      = (((pre ++ (t, cv) :: rest).map Prod.snd).flatten.take
          ((pre.map Prod.snd).flatten.length + o)) ++
        v :: ((pre ++ (t, cv) :: rest).map Prod.snd).flatten.drop
          ((pre.map Prod.snd).flatten.length + o) := by
    rw [← flatten_insert pre rest t cv v o (by omega)]
    by_cases ho0 : o = 0
    · subst ho0; simp
    · rw [if_neg ho0]
  have hr1 : Rep h1 l1 (if o = 0 then pre ++ (h.length, [v]) :: (t, cv) :: rest
      else pre ++ (t, cv.take o ++ v :: cv.drop o) :: rest) := by
    refine Rep.of_chain c1 ?_ (by rw [hz]; exact hb)
    rw [hz, hflat, hr.size_eq]
    simp only [List.length_append, List.length_cons, List.length_take, List.length_drop]
    have : (pre.map Prod.snd).flatten.length + o
        ≤ ((pre ++ (t, cv) :: rest).map Prod.snd).flatten.length := by
      simp; omega
    omega
  refine ⟨it, l1, h1, _, _, e1, ⟨_, hr1⟩, hr.toList_eq, rfl,
    position_split t cv rest o ho pre, ?_, hz, d1, ?_⟩
  · rw [c1.toList_eq, hflat]
  · rw [c1.chunks_eq]
    by_cases ho0 : o = 0
    · simp [ho0]
    · simp [ho0]

/-- Beside the defect of C17: on the well-formed list built by `2 ^ 32 - 1` calls of
`push_back`, `insert(begin(), 0)` leaves `size() == 0` on a chain of `2 ^ 32` elements,
which is not well-formed. -/
theorem insert_size_wraps :
    ∃ l h, pushAll (List.replicate 4294967295 (0 : Nat)) UnrolledLL.empty_list [] =
        some (l, h) ∧ wf h l ∧ size l = 4294967295 ∧
      dereferenceable h (begin l) = true ∧ (begin l).offset = 0 ∧
      ∃ it l1 h1, insert (begin l) 0 l h = some (it, l1, h1) ∧ size l1 = 0 ∧
        ¬ wf h1 l1 := by
  obtain ⟨l, h, cells, e1, c1, _, f1, z1⟩ :=
    pushAll_empty (List.replicate 4294967295 (0 : Nat)) []
  have hz : l.size_ = 4294967295 := by
    rw [z1, List.length_replicate]; rfl
  have htot : (cells.map Prod.snd).flatten.length = 4294967295 := by
    rw [f1, List.length_replicate]
  have hr : Rep h l cells := Rep.of_chain c1 (by rw [hz, htot]) (by rw [hz]; decide)
  cases cells with
  | nil => simp at htot
  | cons x rest =>
    obtain ⟨a, cv⟩ := x
    have hhd : l.head_ = some a := c1.seg.1
    have hbegin : begin l = { ptr_ := some a, offset := 0 } := by simp [begin, hhd]
    have hp0 := c1.position_zero (by simp)
    obtain ⟨_, hd⟩ := Seg.deref_position c1.seg 0 _ hp0
    obtain ⟨h1, e2, c2, _⟩ := insert_front_head (0 : Nat) c1
    refine ⟨l, h, e1, ⟨_, hr⟩, hz, hd, rfl, _, _, h1, by rw [hbegin]; exact e2, ?_, ?_⟩
    · simp only [size]; rw [hz]; rfl
    · rintro ⟨cells2, hr2⟩
      have h2 := c2.total_unique hr2.toChain
      have h3 := hr2.size_eq
      have h4 : (((h.length, [(0 : Nat)]) :: (a, cv) :: rest).map Prod.snd).flatten.length
          = 4294967296 := by
        have : (((h.length, [(0 : Nat)]) :: (a, cv) :: rest).map Prod.snd).flatten.length
            = (((a, cv) :: rest).map Prod.snd).flatten.length + 1 := by
          simp
        rw [this, htot]
      rw [h2, h4] at h3
      have h5 : uinc l.size_ = 0 := by rw [hz]; rfl
      simp only [h5] at h3
      exact absurd h3 (by decide)

end claims

section iterclaims

variable {T : Type}

/-- Where C15 holds: on every well-formed non-empty list with logical sequence `xs`, the
iterator obtained from `begin()` by `k < xs.length` post-increments is dereferenceable and reads
`xs[k]`, and the iterator obtained by `xs.length` post-increments is `end()`. -/
theorem increments_visit_all (h : Heap T) (l : UnrolledLL) (hw : wf h l)
    (hne : empty l = false) :
    ∃ xs, toList h l = some xs ∧ 1 ≤ xs.length ∧
      (∀ k, k < xs.length → ∃ it, advance h k (begin l) = some it ∧
        dereferenceable h it = true ∧ deref h it = xs[k]?) ∧
      advance h xs.length (begin l) = some (end_ l) ∧
      end_ l = { ptr_ := l.tail_, offset := 6 } := by
  obtain ⟨cells, hr⟩ := hw
  have hcne : cells ≠ [] := by
    intro e
    subst e
    have := hr.nil_inv
    subst this
    simp [empty, UnrolledLL.empty_list] at hne
  have hc := hr.toChain
  refine ⟨_, hc.toList_eq, ?_, ?_, hc.advance_end hcne, rfl⟩
  · cases cells with
    | nil => exact absurd rfl hcne
    | cons x rest =>
      obtain ⟨a, cv⟩ := x
      obtain ⟨_, n, _, _, _, _, _, hp, _, _⟩ := hc.seg
      simp; omega
  · intro k hk
    obtain ⟨it, hp, ha⟩ := hc.advance_position k hk
    obtain ⟨hd, hdz⟩ := Seg.deref_position hc.seg k it hp
    exact ⟨it, ha, hdz, hd⟩

/-- Where C18 holds: on every well-formed list of at least two elements `pop_front()`
succeeds and leaves a well-formed list whose logical sequence is the old one without its
first element and whose `size()` is one less; a head node of one element is unlinked, a
longer head node loses its first element, and every other node keeps its contents. -/
theorem pop_front_removes_first (h : Heap T) (l : UnrolledLL) (hw : wf h l)
    (hne : empty l = false) (htwo : size l ≠ 1) :
    ∃ cv cs l2 h2, chunks h l = some (cv :: cs) ∧ 1 ≤ cv.length ∧
      pop_front l h = some (l2, h2) ∧ wf h2 l2 ∧
      chunks h2 l2 = some (if cv.length = 1 then cs else cv.tail :: cs) ∧
      toList h l = some (cv ++ cs.flatten) ∧
      toList h2 l2 = some ((cv ++ cs.flatten).tail) ∧
      size l2 + 1 = size l := by
  obtain ⟨cells, hr⟩ := hw
  cases cells with
  | nil =>
    have := hr.nil_inv
    subst this
    simp [empty, UnrolledLL.empty_list] at hne
  | cons x rest =>
    obtain ⟨a, cv⟩ := x
    obtain ⟨_, _, hsz, _⟩ := hr.cons_inv
    obtain ⟨_, _, _, _, _, _, _, hcp, _, _⟩ := hr.seg
    obtain ⟨l2, h2, e2, c2, z2⟩ := pop_front_chain hr.toChain hr.size_one_iff htwo
    have hz : l2.size_ = l.size_ - 1 := by rw [z2, udec_of_pos hsz hr.bound]
    have hb := hr.bound
    have hcvne : cv ≠ [] := by intro e; subst e; simp at hcp
    have hflat : ((if cv.length = 1 then rest else (a, cv.tail) :: rest).map
        Prod.snd).flatten = (cv ++ (rest.map Prod.snd).flatten).tail := by
      by_cases hcv : cv.length = 1
      · obtain ⟨y, rfl⟩ := List.length_eq_one.mp hcv
        simp
      · rw [if_neg hcv]
        cases cv with
        | nil => exact absurd rfl hcvne
        | cons y c0 => simp
    have hr2 : Rep h2 l2 (if cv.length = 1 then rest else (a, cv.tail) :: rest) := by
      refine Rep.of_chain c2 ?_ (by omega)
      rw [hz, hr.size_eq, hflat]
      simp
    refine ⟨cv, rest.map Prod.snd, l2, h2, hr.chunks_eq, hcp, e2, ⟨_, hr2⟩, ?_, ?_, ?_, ?_⟩
    · rw [c2.chunks_eq]
      by_cases hcv : cv.length = 1
      · simp [hcv]
      · simp [hcv]
    · rw [hr.toList_eq]; simp
    · rw [c2.toList_eq, hflat]
    · simp only [size]; omega

end iterclaims

/-! ## Claims at concrete inputs -/

/-- The identity of `push_front` and `pop_front` at a concrete input: the list built by
eight `push_back` calls and the value 0. -/
theorem push_front_pop_front_identity_witness :
    wf heap8 list8 ∧ empty list8 = false ∧
    ∃ l1 h1 l2 h2, push_front 0 list8 heap8 = some (l1, h1) ∧
      pop_front l1 h1 = some (l2, h2) ∧ l2 = list8 ∧ size l2 = size list8 ∧
      (∀ p, readNode h2 p = readNode heap8 p) ∧ chunks h2 l2 = chunks heap8 list8 ∧
      counts h2 l2 = counts heap8 list8 ∧ toList h2 l2 = toList heap8 list8 :=
  ⟨⟨_, rep_list8⟩, rfl, push_front_pop_front_identity heap8 list8 0 ⟨_, rep_list8⟩ rfl⟩

/-- The tail node of the list of eight elements holds two elements. -/
theorem list8_tail_spare :
    ∀ n, readNode heap8 list8.tail_ = some n → n.num_elements < NUM_ELEMENTS_PER_NODE := by
  intro n hn
  have h2 : readNode heap8 list8.tail_
      = some { next_ := none, prev_ := some 0, elements := [7, 8, 0, 0, 0, 0],
               num_elements := 2 } := by decide
  rw [h2] at hn
  rw [← Option.some.inj hn]
  decide

/-- The restoring pair `push_back`, `pop_back` at a concrete input: the list of eight
elements, whose tail node holds two, and the value 9. -/
theorem push_back_pop_back_restores_witness :
    wf heap8 list8 ∧ empty list8 = false ∧
    (∀ n, readNode heap8 list8.tail_ = some n → n.num_elements < NUM_ELEMENTS_PER_NODE) ∧
    ∃ l1 h1 l2 h2, push_back 9 list8 heap8 = some (l1, h1) ∧
      pop_back l1 h1 = some (l2, h2) ∧ l2 = list8 ∧ size l2 = size list8 ∧
      toList h2 l2 = toList heap8 list8 ∧ chunks h2 l2 = chunks heap8 list8 :=
  ⟨⟨_, rep_list8⟩, rfl, list8_tail_spare,
    push_back_pop_back_restores heap8 list8 9 ⟨_, rep_list8⟩ rfl list8_tail_spare⟩

/-- C7 at a concrete input: seven values pushed on the empty list in the empty store. -/
theorem push_back_fills_nodes_witness :
    1 ≤ [1, 2, 3, 4, 5, 6, 7].length ∧
    ∃ l h1 cs, pushAll [1, 2, 3, 4, 5, 6, 7] UnrolledLL.empty_list [] = some (l, h1) ∧
      counts h1 l = some cs ∧ cs.length = ([1, 2, 3, 4, 5, 6, 7].length + 5) / 6 ∧
      cs = List.replicate (([1, 2, 3, 4, 5, 6, 7].length + 5) / 6 - 1) 6 ++
        [[1, 2, 3, 4, 5, 6, 7].length - 6 * (([1, 2, 3, 4, 5, 6, 7].length + 5) / 6 - 1)] :=
  ⟨by decide, push_back_fills_nodes [1, 2, 3, 4, 5, 6, 7] [] (by decide)⟩

/-- Six `push_back` calls give one node with six elements, the seventh a second node with
one element. -/
theorem push_back_six_then_seven :
    (pushAll [1, 2, 3, 4, 5, 6] UnrolledLL.empty_list []).bind (fun s => counts s.2 s.1)
      = some [6] ∧
    (pushAll [1, 2, 3, 4, 5, 6, 7] UnrolledLL.empty_list []).bind (fun s => counts s.2 s.1)
      = some [6, 1] := by
  constructor <;> decide

/-- C4 (defect): `insert` at a non-zero offset of a full node.  In the list of one full
node the call dereferences the `NULL` successor of the node; in a list whose full node lies
between two other nodes the call succeeds, but the chain from `head_` then skips the full
node, so the logical sequence is `0, 6, 7` and not `0, 1, 9, 2, 3, 4, 5, 6, 7`. -/
theorem insert_full_node_breaks :
    wf heap6 list6 ∧ deref heap6 { ptr_ := some 0, offset := 1 } = some 2 ∧
    insert { ptr_ := some 0, offset := 1 } 9 list6 heap6 = none ∧
    wf heapMid listMid ∧ toList heapMid listMid = some [0, 1, 2, 3, 4, 5, 6, 7] ∧
    deref heapMid { ptr_ := some 0, offset := 1 } = some 2 ∧
    ∃ it l h, insert { ptr_ := some 0, offset := 1 } 9 listMid heapMid = some (it, l, h) ∧
      toList h l = some [0, 6, 7] ∧ size l = 9 ∧ deref h it = some 9 :=
  ⟨⟨_, rep_list6⟩, by decide, by decide, ⟨_, rep_listMid⟩, by decide, by decide,
    _, _, _, rfl, by decide, by decide, by decide⟩

/-- C5 (defect): `erase` on the one-element list dereferences `NULL`, and `erase` on the
two-element list releases the node with both elements and leaves an empty chain with
`size() == 1`. -/
theorem erase_small_lists :
    wf heap1 list1 ∧ deref heap1 (begin list1) = some 1 ∧
    erase (begin list1) list1 heap1 = none ∧
    wf heap2 list2 ∧ deref heap2 (begin list2) = some 1 ∧
    ∃ it l h, erase (begin list2) list2 heap2 = some (it, l, h) ∧
      toList h l = some [] ∧ size l = 1 ∧ empty l = true :=
  ⟨⟨_, rep_list1⟩, by decide, by decide, ⟨_, rep_list2⟩, by decide,
    _, _, _, rfl, by decide, by decide, by decide⟩

/-- C6 (defect): whatever the conversion of the element array to an element is, the copy
of the three-element list holds one element per source node, under `size() == 3`; the
same holds for an assignment to an empty list. -/
theorem copy_list_one_element_per_node (conv : List Nat → Nat) :
    wf heap3 list3 ∧ toList heap3 list3 = some [1, 2, 3] ∧
    (∃ l h, copy_construct conv list3 heap3 = some (l, h) ∧
      toList h l = some [conv [1, 2, 3, 0, 0, 0]] ∧ size l = 3) ∧
    (∃ l h, assign conv UnrolledLL.empty_list list3 heap3 = some (l, h) ∧
      toList h l = some [conv [1, 2, 3, 0, 0, 0]] ∧ size l = 3) :=
  ⟨⟨_, rep_list3⟩, by decide, ⟨_, _, rfl, rfl, rfl⟩, ⟨_, _, rfl, rfl, rfl⟩⟩

/-- C8 (defect): on the three-element list the loop that erases `begin()` until the list
is empty stops with `size() == 1` and `begin() != end()`; one more `erase(begin())`, as a
loop on `size()` would make, dereferences `NULL`. -/
theorem erase_until_empty_final_state :
    wf heap3 list3 ∧
    ∃ l h, eraseUntilEmpty 3 list3 heap3 = some (l, h) ∧ empty l = true ∧ size l = 1 ∧
      begin l ≠ end_ l ∧ erase (begin l) l h = none ∧
      eraseUntilSizeZero 3 list3 heap3 = none :=
  ⟨⟨_, rep_list3⟩, _, _, rfl, by decide, by decide, by decide, by decide, by decide⟩

/-- C9 (defect): on the one-element list `insert(begin(), 9)` followed by `erase(begin())`
leaves an empty chain under `size() == 1`; the element 1 is lost. -/
theorem insert_erase_begin_one_element :
    wf heap1 list1 ∧ toList heap1 list1 = some [1] ∧
    ∃ it l h it2 l2 h2, insert (begin list1) 9 list1 heap1 = some (it, l, h) ∧
      erase (begin l) l h = some (it2, l2, h2) ∧ toList h2 l2 = some [] ∧
      size l2 = 1 ∧ empty l2 = true :=
  ⟨⟨_, rep_list1⟩, by decide, _, _, _, _, _, _, rfl, rfl, by decide, by decide, by decide⟩

/-- C10 (defect): `clear()` on the three-element list, all in one node, follows `next_`
once per element and dereferences `NULL`. -/
theorem clear_three_elements_fails :
    wf heap3 list3 ∧ toList heap3 list3 = some [1, 2, 3] ∧ clear list3 heap3 = none ∧
    clear list8 heap8 = none :=
  ⟨⟨_, rep_list3⟩, by decide, by decide, by decide⟩

/-- C12 (defect): on the three-element list, decrementing `end()` gives offset 5 of the tail
node, which is not dereferenceable (the node holds three elements); reading it gives the
default value in the unused slot and not `back()`. -/
theorem decr_end_misses_last :
    wf heap3 list3 ∧ back heap3 list3 = some 3 ∧
    decr heap3 (end_ list3) = some { ptr_ := some 0, offset := 5 } ∧
    dereferenceable heap3 { ptr_ := some 0, offset := 5 } = false ∧
    deref heap3 { ptr_ := some 0, offset := 5 } = some 0 ∧
    position [(0, [1, 2, 3])] 2 = some { ptr_ := some 0, offset := 2 } :=
  ⟨⟨_, rep_list3⟩, by decide, by decide, by decide, by decide, by decide⟩

/-- C13 (defect): `insert(end(), 9)` has no result.  On the three-element list the
room-available branch stores the value at `elements[6]`, outside the array; on the list of
one full node the full-node branch dereferences the `NULL` successor of the tail node. -/
theorem insert_at_end_fails :
    wf heap3 list3 ∧ insert (end_ list3) 9 list3 heap3 = none ∧
    setElem [1, 2, 3, 0, 0, 0] (end_ list3).offset 9 = none ∧
    wf heap6 list6 ∧ insert (end_ list6) 9 list6 heap6 = none :=
  ⟨⟨_, rep_list3⟩, by decide, by decide, ⟨_, rep_list6⟩, by decide⟩

/-- C14 (defect): on the three-element list, whose chain has one node, the loop of
`destroy_list` has no result: after the first iteration the store holds no node and the
cursor is `NULL`, and the second iteration reads `NULL->next_`. -/
theorem destroy_list_walks_per_element :
    wf heap3 list3 ∧ counts heap3 list3 = some [3] ∧
    destroy_list list3 heap3 = none ∧
    destroyLoop 3 3 0 (some 0) heap3 = destroyLoop 3 2 1 none [none] ∧
    destroyLoop 3 2 1 none ([none] : Heap Nat) = none ∧
    destroy_list list8 heap8 = none :=
  ⟨⟨_, rep_list3⟩, by decide, by decide, by decide, by decide, by decide⟩

/-- C20 (defect): `begin()` and `end()` differ on every list, the empty one included, since
their offsets are 0 and 6; the loop of `print` therefore enters its body on the empty list
and dereferences `NULL`. -/
theorem begin_ne_end_on_empty (h : Heap Nat) (fuel : Nat) :
    empty UnrolledLL.empty_list = true ∧
    begin UnrolledLL.empty_list ≠ end_ UnrolledLL.empty_list ∧
    (∀ l : UnrolledLL, begin l ≠ end_ l) ∧
    deref h (begin UnrolledLL.empty_list) = none ∧
    print h UnrolledLL.empty_list fuel = none := by
  refine ⟨rfl, by decide, ?_, rfl, ?_⟩
  · intro l hl
    have := congrArg list_iterator.offset hl
    simp [begin, end_, NUM_ELEMENTS_PER_NODE] at this
  · cases fuel <;> simp [print, printLoop, begin, end_, UnrolledLL.empty_list, deref,
      readNode, NUM_ELEMENTS_PER_NODE]


/-! ## `erase`: the six cases -/

section erasecases

variable {T : Type}

/-- `erase` of the only element of the head node, which has a successor. -/
theorem erase_head_single {h : Heap T} {l : UnrolledLL} {t b : Nat} {x : T} {cb : List T}
    {rest : List (Nat × List T)} (hc : Chain h l ((t, [x]) :: (b, cb) :: rest))
    (hs0 : l.size_ ≠ 0) (hs1 : udec l.size_ ≠ 1) :
    ∃ h2, erase { ptr_ := some t, offset := 0 } l h
        = some ({ ptr_ := some b, offset := 0 },
            { l with head_ := some b, size_ := udec l.size_ }, h2) ∧
      Chain h2 { l with head_ := some b, size_ := udec l.size_ } ((b, cb) :: rest) := by
  obtain ⟨hhd, n, hn, _, hcnt, _, _, _, _, hs⟩ := hc.seg
  have hnx : n.next_ = some b := hs.1
  obtain ⟨_, nb, hnb, _⟩ := hs
  obtain ⟨_, hnr, _, _, _⟩ := nodup_head hc.nodup
  have hbt : b ≠ t := fun e => hnr (by rw [← e]; simp)
  have hlt := readNode_lt hn
  have hltb := readNode_lt hnb
  let s1 : Heap T := h.set b (some { nb with prev_ := none })
  have r1 : ∀ q, readNode s1 q =
      if q = some b then some { nb with prev_ := none } else readNode h q :=
    fun q => readNode_set h b _ q hltb
  have r1t : readNode s1 (some t) = some n := by rw [r1]; simp [Ne.symm hbt, hn]
  let s2 : Heap T := s1.set t none
  have r2 : ∀ q, readNode s2 q = if q = some t then none else readNode s1 q :=
    fun q => readNode_set s1 t _ q (by simp [s1]; exact hlt)
  have hread : ∀ q, readNode s2 q = if q = some t then none
      else if q = some b then some { nb with prev_ := none } else readNode h q := by
    intro q; rw [r2, r1]
  refine ⟨s2, ?_, ?_⟩
  · have hC2 := @Chain.cond_head T h l [] ((b, cb) :: rest) t [x] hc
    have hb2 : (([] : List (Nat × List T)).isEmpty && decide ([x].length = 1)) = true := by
      simp
    rw [hb2] at hC2
    simp only [erase, hs0, if_false, hs1]
    rw [hC2]
    simp only [Option.bind_eq_bind, Option.some_bind, if_true]
    rw [hhd, hn]
    simp only [Option.some_bind, hnx]
    rw [modifyNode_some _ hnb]
    simp only [Option.some_bind]
    rw [deleteNode_some r1t]
    rfl
  · have := Chain.unlink_head hc hnb hread
    exact ⟨this.seg, this.nodup, this.tail⟩

/-- `erase` of the only element of the tail node, which has a predecessor. -/
theorem erase_tail_single {h : Heap T} {l : UnrolledLL} {pre : List (Nat × List T)}
    {u t : Nat} {x : T} {cu : List T} (hc : Chain h l (pre ++ [(u, cu), (t, [x])]))
    (hs0 : l.size_ ≠ 0) (hs1 : udec l.size_ ≠ 1) :
    ∃ h2, erase { ptr_ := some t, offset := 0 } l h
        = some ({ ptr_ := some u, offset := NUM_ELEMENTS_PER_NODE },
            { l with tail_ := some u, size_ := udec l.size_ }, h2) ∧
      Chain h2 { l with tail_ := some u, size_ := udec l.size_ } (pre ++ [(u, cu)]) := by
  have hc2 : Chain h l ((pre ++ [(u, cu)]) ++ (t, [x]) :: []) := by simpa using hc
  obtain ⟨nu, n, hnu, hn, hnext, hprev⟩ := Seg.adjacent hc.seg
  obtain ⟨_, hnr, _, _, _⟩ := nodup_mid hc.nodup
  have hut : u ≠ t := fun e => hnr (by rw [e]; simp)
  have htl : l.tail_ = some t := by rw [hc.tail]; simp
  have hlt := readNode_lt hn
  have hltu := readNode_lt hnu
  let s1 : Heap T := h.set u (some { nu with next_ := none })
  have r1 : ∀ q, readNode s1 q =
      if q = some u then some { nu with next_ := none } else readNode h q :=
    fun q => readNode_set h u _ q hltu
  have r1t : readNode s1 (some t) = some n := by rw [r1]; simp [Ne.symm hut, hn]
  let s2 : Heap T := s1.set t none
  have r2 : ∀ q, readNode s2 q = if q = some t then none else readNode s1 q :=
    fun q => readNode_set s1 t _ q (by simp [s1]; exact hlt)
  have hread : ∀ q, readNode s2 q = if q = some t then none
      else if q = some u then some { nu with next_ := none } else readNode h q := by
    intro q; rw [r2, r1]
  refine ⟨s2, ?_, ?_⟩
  · have hC2 := hc2.cond_head
    have hC3 := hc2.cond_tail
    have hb2 : ((pre ++ [(u, cu)]).isEmpty && decide ([x].length = 1)) = false := by
      cases pre <;> simp
    have hb3 : (([] : List (Nat × List T)).isEmpty && decide ([x].length = 1)) = true := by
      simp
    rw [hb2] at hC2
    rw [hb3] at hC3
    simp only [erase, hs0, if_false, hs1]
    rw [hC2]
    simp only [Option.bind_eq_bind, Option.some_bind, Bool.false_eq_true, if_false]
    rw [hC3]
    simp only [Option.some_bind, if_true]
    rw [htl, hn]
    simp only [Option.some_bind, hprev]
    rw [modifyNode_some _ hnu]
    simp only [Option.some_bind]
    rw [deleteNode_some r1t]
    rfl
  · have := Chain.unlink_tail hc hnu hread
    exact ⟨this.seg, this.nodup, this.tail⟩

/-- `erase` of the only element of a node between two other nodes. -/
theorem erase_mid_single {h : Heap T} {l : UnrolledLL} {pre rest : List (Nat × List T)}
    {u t b : Nat} {x : T} {cu cb : List T}
    (hc : Chain h l (pre ++ (u, cu) :: (t, [x]) :: (b, cb) :: rest))
    (hs0 : l.size_ ≠ 0) (hs1 : udec l.size_ ≠ 1) :
    ∃ h2, erase { ptr_ := some t, offset := 0 } l h
        = some ({ ptr_ := some b, offset := 0 }, { l with size_ := udec l.size_ }, h2) ∧
      Chain h2 { l with size_ := udec l.size_ } (pre ++ (u, cu) :: (b, cb) :: rest) := by
  have hc2 : Chain h l ((pre ++ [(u, cu)]) ++ (t, [x]) :: (b, cb) :: rest) := by
    simpa using hc
  obtain ⟨nu, n, hnu, hn, _, hprev⟩ := Seg.adjacent hc.seg
  obtain ⟨_, n2, _, _, hn2, _, hcnt, _, _, _, _, hrest⟩ := SegTo.mid hc2.seg.toSegTo
  have hnn : n = n2 := by rw [hn] at hn2; exact Option.some.inj hn2
  subst hnn
  have hnext : n.next_ = some b := hrest.1
  obtain ⟨_, nb, hnb, _⟩ := hrest
  obtain ⟨_, hnr, _, hndr, _⟩ := nodup_mid hc.nodup
  obtain ⟨_, hnr2, _, _, _⟩ := nodup_head hndr
  have hut : u ≠ t := fun e => hnr (by rw [e]; simp)
  have hub : u ≠ b := fun e => hnr (by rw [e]; simp)
  have htb : t ≠ b := fun e => hnr2 (by rw [e]; simp)
  have hltu := readNode_lt hnu
  have hltb := readNode_lt hnb
  let s1 : Heap T := h.set u (some { nu with next_ := some b })
  have r1 : ∀ q, readNode s1 q =
      if q = some u then some { nu with next_ := some b } else readNode h q :=
    fun q => readNode_set h u _ q hltu
  have r1t : readNode s1 (some t) = some n := by rw [r1]; simp [Ne.symm hut, hn]
  have r1b : readNode s1 (some b) = some nb := by rw [r1]; simp [Ne.symm hub, hnb]
  let s2 : Heap T := s1.set b (some { nb with prev_ := some u })
  have r2 : ∀ q, readNode s2 q =
      if q = some b then some { nb with prev_ := some u } else readNode s1 q :=
    fun q => readNode_set s1 b _ q (by simp [s1]; exact hltb)
  have r2t : readNode s2 (some t) = some n := by rw [r2]; simp [htb, r1t]
  have hread : ∀ q, readNode s2 q = if q = some u then some { nu with next_ := some b }
      else if q = some b then some { nb with prev_ := some u } else readNode h q := by
    intro q; rw [r2, r1]
    by_cases hq : q = some u
    · subst hq; simp [hub]
    · simp [hq]
  refine ⟨s2, ?_, ?_⟩
  · have hC2 := hc2.cond_head
    have hC3 := hc2.cond_tail
    have hC4 := hc2.cond_last 0
    have hb2 : ((pre ++ [(u, cu)]).isEmpty && decide ([x].length = 1)) = false := by
      cases pre <;> simp
    have hb3 : (((b, cb) :: rest).isEmpty && decide ([x].length = 1)) = false := by simp
    have hb4 : (((b, cb) :: rest).isEmpty && decide ([x].length - 1 = 0)) = false := by simp
    rw [hb2] at hC2
    rw [hb3] at hC3
    rw [hb4] at hC4
    have hone : n.num_elements = 1 := by simpa using hcnt
    simp only [erase, hs0, if_false, hs1]
    rw [hC2]
    simp only [Option.bind_eq_bind, Option.some_bind, Bool.false_eq_true, if_false]
    rw [hC3]
    simp only [Option.some_bind, Bool.false_eq_true, if_false]
    rw [hC4]
    simp only [Option.some_bind, Bool.false_eq_true, if_false]
    rw [hn]
    simp only [Option.some_bind, hone, if_true, hprev, hnext]
    rw [modifyNode_some _ hnu]
    simp only [Option.some_bind]
    rw [r1t]
    simp only [Option.some_bind, hnext, hprev]
    rw [modifyNode_some _ r1b]
    simp only [Option.some_bind]
    rw [r2t]
    simp only [Option.some_bind, hnext]
  · have := Chain.unlink_mid hc hnu hnb hread
    exact ⟨this.seg, this.nodup, this.tail⟩

/-- `erase` of the last element of the chain, in a tail node with more than one element. -/
theorem erase_tail_last {h : Heap T} {l : UnrolledLL} {pre : List (Nat × List T)} {t : Nat}
    {cv : List T} {o : Nat} (hc : Chain h l (pre ++ [(t, cv)])) (h2 : 2 ≤ cv.length)
    (ho : o + 1 = cv.length) (hs0 : l.size_ ≠ 0) (hs1 : udec l.size_ ≠ 1) :
    ∃ h1, erase { ptr_ := some t, offset := o } l h
        = some ({ ptr_ := some t, offset := NUM_ELEMENTS_PER_NODE },
            { l with size_ := udec l.size_ }, h1) ∧
      Chain h1 { l with size_ := udec l.size_ } (pre ++ [(t, cv.eraseIdx o)]) := by
  obtain ⟨_, n, _, _, hn, _, hcnt, hlen, hcon, _, hle, _⟩ := SegTo.mid hc.seg.toSegTo
  have hle6 : cv.length ≤ 6 := hle
  have htl : l.tail_ = some t := by rw [hc.tail]; simp
  have hlt := readNode_lt hn
  have hud : udec cv.length = cv.length - 1 :=
    udec_of_pos (by omega) (by unfold UINT_MOD; omega)
  let n1 : Node T := { n with num_elements := udec n.num_elements }
  have hread : ∀ q, readNode (h.set t (some n1)) q
      = if q = some t then some n1 else readNode h q :=
    fun q => readNode_set h t _ q hlt
  refine ⟨h.set t (some n1), ?_, ?_⟩
  · have hC2 := hc.cond_head
    have hC3 := hc.cond_tail
    have hC4 := hc.cond_last o
    have hne1 : cv.length ≠ 1 := by omega
    have hb2 : (pre.isEmpty && decide (cv.length = 1)) = false := by simp [hne1]
    have hb3 : (([] : List (Nat × List T)).isEmpty && decide (cv.length = 1)) = false := by
      simp [hne1]
    have hb4 : (([] : List (Nat × List T)).isEmpty && decide (cv.length - 1 = o)) = true := by
      have : cv.length - 1 = o := by omega
      simp [this]
    rw [hb2] at hC2
    rw [hb3] at hC3
    rw [hb4] at hC4
    simp only [erase, hs0, if_false, hs1]
    rw [hC2]
    simp only [Option.bind_eq_bind, Option.some_bind, Bool.false_eq_true, if_false]
    rw [hC3]
    simp only [Option.some_bind, Bool.false_eq_true, if_false]
    rw [hC4]
    simp only [Option.some_bind, if_true]
    rw [htl, modifyNode_some _ hn]
    rfl
  · have hupd : Chain (h.set t (some n1)) l (pre ++ (t, cv.eraseIdx o) :: []) := by
      refine Chain.update_node hc hn hread rfl rfl ?_ hlen ?_ ?_ ?_
      · simp only [n1]; rw [hcnt, hud, List.length_eraseIdx, if_pos (by omega)]
      · have hc2 : n.elements.take cv.length = cv := by
          have := hcon; simp only [Node.contents, hcnt] at this; exact this
        have : n.elements.take (cv.length - 1) = cv.eraseIdx o :=
          shift_contents (by omega) hc2 (fun j => by
            have : ¬ (o ≤ j ∧ j < o + (cv.length - 1 - o)) := by omega
            rw [if_neg this])
        simp only [Node.contents, n1]
        rw [hcnt, hud]
        exact this
      · rw [List.length_eraseIdx, if_pos (by omega)]; omega
      · rw [List.length_eraseIdx, if_pos (by omega)]
        simp only [NUM_ELEMENTS_PER_NODE]; omega
    exact ⟨hupd.seg, hupd.nodup, hupd.tail⟩

/-- `erase` of an element that is not the last of its node: the rest of the node is shifted
one slot to the left. -/
theorem erase_shift {h : Heap T} {l : UnrolledLL} {pre rest : List (Nat × List T)} {t : Nat}
    {cv : List T} {o : Nat} (hc : Chain h l (pre ++ (t, cv) :: rest))
    (ho : o + 1 < cv.length) (hs0 : l.size_ ≠ 0) (hs1 : udec l.size_ ≠ 1) :
    ∃ h1, erase { ptr_ := some t, offset := o } l h
        = some ({ ptr_ := some t, offset := o }, { l with size_ := udec l.size_ }, h1) ∧
      Chain h1 { l with size_ := udec l.size_ } (pre ++ (t, cv.eraseIdx o) :: rest) := by
  obtain ⟨_, n, _, _, hn, _, hcnt, hlen, hcon, _, hle, _⟩ := SegTo.mid hc.seg.toSegTo
  have hle6 : cv.length ≤ 6 := hle
  have hlen6 : n.elements.length = 6 := hlen
  have hlt := readNode_lt hn
  have hud : udec cv.length = cv.length - 1 :=
    udec_of_pos (by omega) (by unfold UINT_MOD; omega)
  obtain ⟨es2, e1, e2, e3⟩ := shiftLeftLoop_spec (cv.length - 1 - o) o n.elements (by omega)
  let n1 : Node T := { n with elements := es2 }
  let n2 : Node T := { n1 with num_elements := udec n1.num_elements }
  have hread : ∀ q, readNode ((h.set t (some n1)).set t (some n2)) q
      = if q = some t then some n2 else readNode h q :=
    fun q => readNode_set_set h t _ _ q hlt
  have r1 : readNode (h.set t (some n1)) (some t) = some n1 := by
    rw [readNode_set _ _ _ _ hlt]; simp
  refine ⟨(h.set t (some n1)).set t (some n2), ?_, ?_⟩
  · have hC2 := hc.cond_head
    have hC3 := hc.cond_tail
    have hC4 := hc.cond_last o
    have hne1 : cv.length ≠ 1 := by omega
    have hneo : cv.length - 1 ≠ o := by omega
    have hb2 : (pre.isEmpty && decide (cv.length = 1)) = false := by simp [hne1]
    have hb3 : (rest.isEmpty && decide (cv.length = 1)) = false := by simp [hne1]
    have hb4 : (rest.isEmpty && decide (cv.length - 1 = o)) = false := by simp [hneo]
    rw [hb2] at hC2
    rw [hb3] at hC3
    rw [hb4] at hC4
    have hcne : n.num_elements ≠ 1 := by rw [hcnt]; exact hne1
    have hone : o ≠ udec n.num_elements := by rw [hcnt, hud]; exact Ne.symm hneo
    simp only [erase, hs0, if_false, hs1]
    rw [hC2]
    simp only [Option.bind_eq_bind, Option.some_bind, Bool.false_eq_true, if_false]
    rw [hC3]
    simp only [Option.some_bind, Bool.false_eq_true, if_false]
    rw [hC4]
    simp only [Option.some_bind, Bool.false_eq_true, if_false]
    rw [hn]
    simp only [Option.some_bind, hcne, if_false, hone, ne_eq, not_false_eq_true, if_true]
    rw [hcnt, hud, e1]
    simp only [Option.some_bind]
    rw [modifyNode_some _ hn]
    simp only [Option.some_bind]
    rw [modifyNode_some _ r1]
    rfl
  · have hupd : Chain ((h.set t (some n1)).set t (some n2)) l
        (pre ++ (t, cv.eraseIdx o) :: rest) := by
      refine Chain.update_node hc hn hread rfl rfl ?_ ?_ ?_ ?_ ?_
      · simp only [n2, n1]; rw [hcnt, hud, List.length_eraseIdx, if_pos (by omega)]
      · simp only [n2, n1]; rw [e2]; exact hlen
      · have hc2 : n.elements.take cv.length = cv := by
          have := hcon; simp only [Node.contents, hcnt] at this; exact this
        have : es2.take (cv.length - 1) = cv.eraseIdx o :=
          shift_contents (by omega) hc2 e3
        simp only [Node.contents, n2, n1]
        rw [hcnt, hud]
        exact this
      · rw [List.length_eraseIdx, if_pos (by omega)]; omega
      · rw [List.length_eraseIdx, if_pos (by omega)]
        simp only [NUM_ELEMENTS_PER_NODE]; omega
    exact ⟨hupd.seg, hupd.nodup, hupd.tail⟩

/-- `erase` of the last element of a node with more than one element that has a
successor. -/
theorem erase_node_last {h : Heap T} {l : UnrolledLL} {pre rest : List (Nat × List T)}
    {t b : Nat} {cv cb : List T} {o : Nat}
    (hc : Chain h l (pre ++ (t, cv) :: (b, cb) :: rest)) (h2 : 2 ≤ cv.length)
    (ho : o + 1 = cv.length) (hs0 : l.size_ ≠ 0) (hs1 : udec l.size_ ≠ 1) :
    ∃ h1, erase { ptr_ := some t, offset := o } l h
        = some ({ ptr_ := some b, offset := 0 }, { l with size_ := udec l.size_ }, h1) ∧
      Chain h1 { l with size_ := udec l.size_ }
        (pre ++ (t, cv.eraseIdx o) :: (b, cb) :: rest) := by
  obtain ⟨_, n, _, _, hn, _, hcnt, hlen, hcon, _, hle, hrest⟩ := SegTo.mid hc.seg.toSegTo
  have hnext : n.next_ = some b := hrest.1
  have hle6 : cv.length ≤ 6 := hle
  have hlt := readNode_lt hn
  have hud : udec cv.length = cv.length - 1 :=
    udec_of_pos (by omega) (by unfold UINT_MOD; omega)
  let n1 : Node T := { n with num_elements := udec n.num_elements }
  have hread : ∀ q, readNode (h.set t (some n1)) q
      = if q = some t then some n1 else readNode h q :=
    fun q => readNode_set h t _ q hlt
  have r1 : readNode (h.set t (some n1)) (some t) = some n1 := by rw [hread]; simp
  refine ⟨h.set t (some n1), ?_, ?_⟩
  · have hC2 := hc.cond_head
    have hC3 := hc.cond_tail
    have hC4 := hc.cond_last o
    have hne1 : cv.length ≠ 1 := by omega
    have hb2 : (pre.isEmpty && decide (cv.length = 1)) = false := by simp [hne1]
    have hb3 : (((b, cb) :: rest).isEmpty && decide (cv.length = 1)) = false := by simp
    have hb4 : (((b, cb) :: rest).isEmpty && decide (cv.length - 1 = o)) = false := by simp
    rw [hb2] at hC2
    rw [hb3] at hC3
    rw [hb4] at hC4
    have hcne : n.num_elements ≠ 1 := by rw [hcnt]; exact hne1
    have hone : ¬ (o ≠ udec n.num_elements) := by rw [hcnt, hud]; omega
    simp only [erase, hs0, if_false, hs1]
    rw [hC2]
    simp only [Option.bind_eq_bind, Option.some_bind, Bool.false_eq_true, if_false]
    rw [hC3]
    simp only [Option.some_bind, Bool.false_eq_true, if_false]
    rw [hC4]
    simp only [Option.some_bind, Bool.false_eq_true, if_false]
    rw [hn]
    simp only [Option.some_bind, hcne, if_false, hone]
    rw [modifyNode_some _ hn]
    simp only [Option.some_bind]
    rw [r1]
    simp only [Option.some_bind, n1, hnext]
  · have hupd : Chain (h.set t (some n1)) l (pre ++ (t, cv.eraseIdx o) :: (b, cb) :: rest) := by
      refine Chain.update_node hc hn hread rfl rfl ?_ hlen ?_ ?_ ?_
      · simp only [n1]; rw [hcnt, hud, List.length_eraseIdx, if_pos (by omega)]
      · have hc2 : n.elements.take cv.length = cv := by
          have := hcon; simp only [Node.contents, hcnt] at this; exact this
        have : n.elements.take (cv.length - 1) = cv.eraseIdx o :=
          shift_contents (by omega) hc2 (fun j => by
            have : ¬ (o ≤ j ∧ j < o + (cv.length - 1 - o)) := by omega
            rw [if_neg this])
        simp only [Node.contents, n1]
        rw [hcnt, hud]
        exact this
      · rw [List.length_eraseIdx, if_pos (by omega)]; omega
      · rw [List.length_eraseIdx, if_pos (by omega)]
        simp only [NUM_ELEMENTS_PER_NODE]; omega
    exact ⟨hupd.seg, hupd.nodup, hupd.tail⟩

end erasecases

/-! ## `erase` on lists of at least three elements -/

section erasechain

variable {T : Type}

/-- The logical sequence with one element of one cell removed. -/
theorem flatten_erase (pre rest : List (Nat × List T)) (t : Nat) (cv : List T) (o : Nat)
    (ho : o < cv.length) :
    ((pre ++ (t, cv.eraseIdx o) :: rest).map Prod.snd).flatten =
      ((pre ++ (t, cv) :: rest).map Prod.snd).flatten.eraseIdx
        ((pre.map Prod.snd).flatten.length + o) := by
  simp only [List.map_append, List.map_cons, List.flatten_append, List.flatten_cons]
  rw [List.eraseIdx_append_of_length_le (by omega)]
  have : (List.map Prod.snd pre).flatten.length + o - (List.map Prod.snd pre).flatten.length
      = o := by omega
  rw [this, List.eraseIdx_append_of_lt_length ho]

/-- `erase` at a dereferenceable position of a chain of at least two elements, when the
stored size is neither 0 nor 2: the chain after the call and the returned iterator. -/
theorem erase_chain {h : Heap T} {l : UnrolledLL} {pre rest : List (Nat × List T)} {t : Nat}
    {cv : List T} {o : Nat} (hc : Chain h l (pre ++ (t, cv) :: rest)) (ho : o < cv.length)
    (hs0 : l.size_ ≠ 0) (hs1 : udec l.size_ ≠ 1)
    (htwo : 2 ≤ ((pre ++ (t, cv) :: rest).map Prod.snd).flatten.length) :
    ∃ it l1 h1 cells1, erase { ptr_ := some t, offset := o } l h = some (it, l1, h1) ∧
      Chain h1 l1 cells1 ∧ l1.size_ = udec l.size_ ∧
      cells1 = (if cv.length = 1 then pre ++ rest else pre ++ (t, cv.eraseIdx o) :: rest) ∧
      (cells1.map Prod.snd).flatten =
        ((pre ++ (t, cv) :: rest).map Prod.snd).flatten.eraseIdx
          ((pre.map Prod.snd).flatten.length + o) ∧
      ((pre.map Prod.snd).flatten.length + o + 1
          < ((pre ++ (t, cv) :: rest).map Prod.snd).flatten.length ∧
          position cells1 ((pre.map Prod.snd).flatten.length + o) = some it ∨
        (pre.map Prod.snd).flatten.length + o + 1
          = ((pre ++ (t, cv) :: rest).map Prod.snd).flatten.length ∧ it = end_ l1) := by
  have htot : ((pre ++ (t, cv) :: rest).map Prod.snd).flatten.length
      = (pre.map Prod.snd).flatten.length + cv.length
        + (rest.map Prod.snd).flatten.length := by
    simp; omega
  have hbounds := Seg.cell_bounds hc.seg
  have hfe := flatten_erase pre rest t cv o ho
  by_cases hcv : cv.length = 1
  · obtain ⟨x, rfl⟩ := List.length_eq_one.mp hcv
    have ho0 : o = 0 := by simp at ho; exact ho
    subst ho0
    have hfe2 : ((pre ++ rest).map Prod.snd).flatten
        = ((pre ++ (t, [x]) :: rest).map Prod.snd).flatten.eraseIdx
          ((pre.map Prod.snd).flatten.length + 0) := by
      rw [← hfe]; simp
    by_cases hp : pre = []
    · subst hp
      cases rest with
      | nil => simp at htwo
      | cons y rest2 =>
        obtain ⟨b, cb⟩ := y
        obtain ⟨h2, e, c2⟩ := erase_head_single hc hs0 hs1
        have hcb := (hbounds (b, cb) (by simp)).1
        have h0 : 0 < cb.length := hcb
        have hr0 : 0 < (((b, cb) :: rest2).map Prod.snd).flatten.length := by
          simp only [List.map_cons, List.flatten_cons, List.length_append]; omega
        refine ⟨_, _, h2, _, e, c2, rfl, by simp, by simp, Or.inl ⟨?_, ?_⟩⟩
        · rw [htot]
          simp only [List.map_nil, List.flatten_nil, List.length_nil, List.length_singleton]
          omega
        · simp [position, h0]
    · obtain ⟨pre2, ⟨u, cu⟩, rfl⟩ := exists_snoc_of_ne_nil hp
      cases rest with
      | nil =>
        have hc2 : Chain h l (pre2 ++ [(u, cu), (t, [x])]) := by simpa using hc
        obtain ⟨h2, e, c2⟩ := erase_tail_single hc2 hs0 hs1
        refine ⟨_, _, h2, _, e, c2, rfl, by simp, by simpa using hfe2, Or.inr ⟨?_, rfl⟩⟩
        rw [htot]; simp
      | cons y rest2 =>
        obtain ⟨b, cb⟩ := y
        have hc2 : Chain h l (pre2 ++ (u, cu) :: (t, [x]) :: (b, cb) :: rest2) := by
          simpa using hc
        obtain ⟨h2, e, c2⟩ := erase_mid_single hc2 hs0 hs1
        have hcb : 0 < cb.length := (hbounds (b, cb) (by simp)).1
        have hr0 : 0 < (((b, cb) :: rest2).map Prod.snd).flatten.length := by
          simp only [List.map_cons, List.flatten_cons, List.length_append]; omega
        refine ⟨_, _, h2, pre2 ++ [(u, cu)] ++ (b, cb) :: rest2, e, by simpa using c2, rfl,
          by simp, by simpa using hfe2, Or.inl ⟨?_, ?_⟩⟩
        · rw [htot]; simp only [List.length_singleton]; omega
        · exact position_split b cb rest2 0 hcb (pre2 ++ [(u, cu)])
  · have hpos := (hbounds (t, cv) (by simp)).1
    have h2 : 2 ≤ cv.length := by simp only at hpos; omega
    by_cases hlast : o + 1 < cv.length
    · obtain ⟨h1, e, c1⟩ := erase_shift hc hlast hs0 hs1
      refine ⟨_, _, h1, _, e, c1, rfl, by rw [if_neg hcv], hfe, Or.inl ⟨?_, ?_⟩⟩
      · rw [htot]; omega
      · exact position_split t (cv.eraseIdx o) rest o
          (by rw [List.length_eraseIdx, if_pos ho]; omega) pre
    · have ho1 : o + 1 = cv.length := by omega
      cases rest with
      | nil =>
        obtain ⟨h1, e, c1⟩ := erase_tail_last hc h2 ho1 hs0 hs1
        have htl : l.tail_ = some t := by rw [hc.tail]; simp
        refine ⟨_, _, h1, _, e, c1, rfl, by rw [if_neg hcv], hfe, Or.inr ⟨?_, ?_⟩⟩
        · rw [htot]; simp; omega
        · simp [end_, htl]
      | cons y rest2 =>
        obtain ⟨b, cb⟩ := y
        obtain ⟨h1, e, c1⟩ := erase_node_last hc h2 ho1 hs0 hs1
        have hcb : 0 < cb.length := (hbounds (b, cb) (by simp)).1
        have hr0 : 0 < (((b, cb) :: rest2).map Prod.snd).flatten.length := by
          simp only [List.map_cons, List.flatten_cons, List.length_append]; omega
        refine ⟨_, _, h1, _, e, c1, rfl, by rw [if_neg hcv], hfe, Or.inl ⟨?_, ?_⟩⟩
        · rw [htot]; omega
        · have := position_split b cb rest2 0 hcb (pre ++ [(t, cv.eraseIdx o)])
          have hk : ((pre ++ [(t, cv.eraseIdx o)]).map Prod.snd).flatten.length + 0
              = (pre.map Prod.snd).flatten.length + o := by
            simp [List.length_eraseIdx, ho]; omega
          rw [hk] at this
          simpa using this

end erasechain

section eraseclaim

variable {T : Type}

/-- C16: on a well-formed list of at least three elements, for a position `(t, o)` with
`o` a valid offset of the chain node `t`, denoting the element of index `i` of the logical
sequence, `erase` succeeds and leaves a well-formed list without that element, and the
returned iterator is the position of index `i` in the resulting list, where it reads the
element that followed the erased one, or it is `end()` of the resulting list when the
erased element was the last. -/
theorem erase_returns_next (h : Heap T) (l : UnrolledLL) (pre rest : List (Nat × List T))
    (t : Nat) (cv : List T) (o : Nat) (hr : Rep h l (pre ++ (t, cv) :: rest))
    (ho : o < cv.length) (h3 : 3 ≤ size l) :
    ∃ it l1 h1 cells1 xs i, erase { ptr_ := some t, offset := o } l h = some (it, l1, h1) ∧
      toList h l = some xs ∧ i = (pre.map Prod.snd).flatten.length + o ∧
      position (pre ++ (t, cv) :: rest) i = some { ptr_ := some t, offset := o } ∧
      Rep h1 l1 cells1 ∧ wf h1 l1 ∧ toList h1 l1 = some (xs.eraseIdx i) ∧
      size l1 + 1 = size l ∧
      (i + 1 < xs.length ∧ position cells1 i = some it ∧ dereferenceable h1 it = true ∧
          deref h1 it = xs[i + 1]? ∨
        i + 1 = xs.length ∧ it = end_ l1) := by
  have hsz : 3 ≤ l.size_ := h3
  have hb := hr.bound
  have hs0 : l.size_ ≠ 0 := by omega
  have hud : udec l.size_ = l.size_ - 1 := udec_of_pos (by omega) hb
  have hs1 : udec l.size_ ≠ 1 := by rw [hud]; omega
  have htot := hr.size_eq
  have hsplit : ((pre ++ (t, cv) :: rest).map Prod.snd).flatten.length
      = (pre.map Prod.snd).flatten.length + cv.length
        + (rest.map Prod.snd).flatten.length := by
    simp only [List.map_append, List.map_cons, List.flatten_append, List.flatten_cons,
      List.length_append]
    omega
  obtain ⟨it, l1, h1, cells1, e, c1, z1, _, hfl, hit⟩ :=
    erase_chain hr.toChain ho hs0 hs1 (by omega)
  have hlen1 : (cells1.map Prod.snd).flatten.length = l.size_ - 1 := by
    rw [hfl, List.length_eraseIdx, if_pos (by rw [hsplit]; omega), ← htot]
  have hr1 : Rep h1 l1 cells1 := Rep.of_chain c1 (by rw [z1, hud, hlen1]) (by rw [z1, hud]; omega)
  refine ⟨it, l1, h1, cells1, _, _, e, hr.toList_eq, rfl, position_split t cv rest o ho pre,
    hr1, ⟨_, hr1⟩, by rw [c1.toList_eq, hfl], by simp only [size]; rw [z1, hud]; omega, ?_⟩
  rcases hit with ⟨hlt, hp⟩ | ⟨heq, hend⟩
  · obtain ⟨hd, hdz⟩ := Seg.deref_position c1.seg _ it hp
    refine Or.inl ⟨hlt, hp, hdz, ?_⟩
    rw [hd, hfl, List.getElem?_eraseIdx, if_neg (by omega)]
  · exact Or.inr ⟨heq, hend⟩

end eraseclaim


/-! ## The general theorems at concrete inputs -/

/-- A run of end operations that has a result, at a concrete input: three pushes followed
by a pop at each end, from the empty list in the empty store. -/
theorem end_operations_keep_wf_witness :
    opsOk 0 [Op.push_back 1, Op.push_front 2, Op.push_back 3, Op.pop_front, Op.pop_back] ∧
    runOps [Op.push_back 1, Op.push_front 2, Op.push_back 3, Op.pop_front, Op.pop_back]
        UnrolledLL.empty_list ([] : Heap Nat)
      = some ({ head_ := some 0, tail_ := some 0, size_ := 1 },
          [some { next_ := none, prev_ := none, elements := [1, 3, 0, 0, 0, 0],
                  num_elements := 1 }, none]) ∧
    wf [some { next_ := none, prev_ := none, elements := [1, 3, 0, 0, 0, 0],
               num_elements := 1 }, none]
      { head_ := some 0, tail_ := some 0, size_ := 1 } :=
  ⟨by simp [opsOk, UINT_MOD], by decide,
    (end_operations_keep_wf
      [Op.push_back 1, Op.push_front 2, Op.push_back 3, Op.pop_front, Op.pop_back] [] _ _
      (by simp [opsOk, UINT_MOD]) (by decide)).1⟩

/-- The post-increment walk at a concrete input: the list of a full node followed by a node
of two elements. -/
theorem increments_visit_all_witness :
    wf heap8 list8 ∧ empty list8 = false ∧
    ∃ xs, toList heap8 list8 = some xs ∧ 1 ≤ xs.length ∧
      (∀ k, k < xs.length → ∃ it, advance heap8 k (begin list8) = some it ∧
        dereferenceable heap8 it = true ∧ deref heap8 it = xs[k]?) ∧
      advance heap8 xs.length (begin list8) = some (end_ list8) ∧
      end_ list8 = { ptr_ := list8.tail_, offset := 6 } :=
  ⟨⟨_, rep_list8⟩, rfl, increments_visit_all heap8 list8 ⟨_, rep_list8⟩ rfl⟩

/-- C16 at a concrete input: erasing the last element of the full head node of the list of
eight elements. -/
theorem erase_returns_next_witness :
    Rep heap8 list8 ([] ++ (0, [1, 2, 3, 4, 5, 6]) :: [(1, [7, 8])]) ∧
    5 < [1, 2, 3, 4, 5, 6].length ∧ 3 ≤ size list8 ∧
    ∃ it l1 h1 cells1 xs i, erase { ptr_ := some 0, offset := 5 } list8 heap8
        = some (it, l1, h1) ∧
      toList heap8 list8 = some xs ∧
      i = ((([] : List (Nat × List Nat)).map Prod.snd).flatten.length + 5) ∧
      position ([] ++ (0, [1, 2, 3, 4, 5, 6]) :: [(1, [7, 8])]) i
        = some { ptr_ := some 0, offset := 5 } ∧
      Rep h1 l1 cells1 ∧ wf h1 l1 ∧ toList h1 l1 = some (xs.eraseIdx i) ∧
      size l1 + 1 = size list8 ∧
      (i + 1 < xs.length ∧ position cells1 i = some it ∧ dereferenceable h1 it = true ∧
          deref h1 it = xs[i + 1]? ∨
        i + 1 = xs.length ∧ it = end_ l1) :=
  ⟨rep_list8, by decide, by decide,
    erase_returns_next heap8 list8 [] [(1, [7, 8])] 0 [1, 2, 3, 4, 5, 6] 5 rep_list8
      (by decide) (by decide)⟩

/-- The effect of `insert` with an argument outside the list at a concrete input: inserting
9 before the last element of the list of eight elements, into the tail node of two
elements. -/
theorem insert_at_position_witness :
    Rep heap8 list8 ([(0, [1, 2, 3, 4, 5, 6])] ++ (1, [7, 8]) :: []) ∧
    1 < [7, 8].length ∧ (1 = 0 ∨ [7, 8].length < NUM_ELEMENTS_PER_NODE) ∧
    size list8 + 1 < UINT_MOD ∧
    ∃ it l1 h1 xs i, insert { ptr_ := some 1, offset := 1 } 9 list8 heap8
        = some (it, l1, h1) ∧
      wf h1 l1 ∧ toList heap8 list8 = some xs ∧
      i = ([(0, [1, 2, 3, 4, 5, 6])].map Prod.snd).flatten.length + 1 ∧
      position ([(0, [1, 2, 3, 4, 5, 6])] ++ (1, [7, 8]) :: []) i
        = some { ptr_ := some 1, offset := 1 } ∧
      toList h1 l1 = some (xs.take i ++ 9 :: xs.drop i) ∧ size l1 = size list8 + 1 ∧
      deref h1 it = some 9 ∧
      chunks h1 l1 = some (if 1 = 0
        then [(0, [1, 2, 3, 4, 5, 6])].map Prod.snd ++ [9] :: [7, 8]
          :: ([] : List (Nat × List Nat)).map Prod.snd
        else [(0, [1, 2, 3, 4, 5, 6])].map Prod.snd ++ ([7, 8].take 1 ++ 9 :: [7, 8].drop 1)
          :: ([] : List (Nat × List Nat)).map Prod.snd) :=
  ⟨rep_list8, by decide, Or.inr (by decide), by decide,
    insert_at_position heap8 list8 [(0, [1, 2, 3, 4, 5, 6])] [] 1 [7, 8] 1 9 rep_list8
      (by decide) (Or.inr (by decide)) (by decide)⟩

/-- The effect of `pop_front` at a concrete input: the list of a full node followed by a
node of two elements. -/
theorem pop_front_removes_first_witness :
    wf heap8 list8 ∧ empty list8 = false ∧ size list8 ≠ 1 ∧
    ∃ cv cs l2 h2, chunks heap8 list8 = some (cv :: cs) ∧ 1 ≤ cv.length ∧
      pop_front list8 heap8 = some (l2, h2) ∧ wf h2 l2 ∧
      chunks h2 l2 = some (if cv.length = 1 then cs else cv.tail :: cs) ∧
      toList heap8 list8 = some (cv ++ cs.flatten) ∧
      toList h2 l2 = some ((cv ++ cs.flatten).tail) ∧
      size l2 + 1 = size list8 :=
  ⟨⟨_, rep_list8⟩, rfl, by decide,
    pop_front_removes_first heap8 list8 ⟨_, rep_list8⟩ rfl (by decide)⟩

/-- C19 at a concrete input: the list of three elements in one node, which has spare
capacity, and the value 0. -/
theorem push_front_adds_head_node_witness :
    wf heap3 list3 ∧
    ∃ cs l1 h1, chunks heap3 list3 = some cs ∧ push_front 0 list3 heap3 = some (l1, h1) ∧
      chunks h1 l1 = some ([0] :: cs) ∧ counts h1 l1 = some (1 :: cs.map List.length) ∧
      toList h1 l1 = some (0 :: cs.flatten) ∧ toList heap3 list3 = some cs.flatten ∧
      front h1 l1 = some 0 ∧ size l1 = (size list3 + 1) % UINT_MOD ∧
      (size list3 + 1 < UINT_MOD ∨ size list3 = 4294967295) :=
  ⟨⟨_, rep_list3⟩, push_front_adds_head_node heap3 list3 0 ⟨_, rep_list3⟩⟩
/-! ## Arguments by reference, the pre-increment and `delete []` -/

section references

variable {T : Type} [Inhabited T]

/-- With an argument that is an object outside the nodes, `insert_ref` is `insert`. -/
theorem insert_ref_object (itr : list_iterator) (v : T) (l : UnrolledLL) (h : Heap T) :
    insert_ref itr (ConstRef.object v) l h = insert itr v l h := by
  unfold insert_ref insert
  by_cases h0 : itr.offset = 0
  · simp only [h0, if_true, ConstRef.get, Option.bind_eq_bind, Option.some_bind]
  · simp only [h0, if_false, ConstRef.get, Option.bind_eq_bind, Option.some_bind, allocNode]
    refine Option.bind_congr fun cur _ => ?_
    by_cases hf : cur.num_elements = NUM_ELEMENTS_PER_NODE
    · simp only [hf, if_true]
      refine Option.bind_congr fun last _ => ?_
      refine Option.bind_congr fun h2 _ => ?_
      refine Option.bind_congr fun h3 _ => ?_
      refine Option.bind_congr fun c3 _ => ?_
      refine Option.bind_congr fun h4 _ => ?_
      refine Option.bind_congr fun c4 _ => ?_
      refine Option.bind_congr fun h5 _ => ?_
      refine Option.bind_congr fun c5 hc5 => ?_
      refine Option.bind_congr fun es _ => ?_
      have hc6 : readNode h5 itr.ptr_ = some c5 := hc5
      cases hp : itr.ptr_ with
      | none => rw [hp] at hc6; simp [readNode] at hc6
      | some a =>
        rw [hp] at hc6
        have hlt := readNode_lt hc6
        have hr : readNode (h5.set a (some { c5 with elements := es })) (some a)
            = some { c5 with elements := es } := by
          rw [readNode_set h5 a _ _ hlt]; simp
        rw [modifyNode_some _ hc6]
        simp only [Option.some_bind]
        rw [hr]
        simp only [Option.some_bind]
        refine Option.bind_congr fun es1 _ => ?_
        rw [modifyNode_some _ hr, modifyNode_some _ hc6, List.set_set]
    · simp only [hf, if_false]

/-- On every well-formed list whose tail node is full, `push_back(v)` followed by
`pop_back()` has no result: the new tail node is released by `delete []`. -/
theorem push_back_pop_back_full {h : Heap T} {l : UnrolledLL} {pre : List (Nat × List T)}
    {t : Nat} {c : List T} (v : T) (hr : Rep h l (pre ++ [(t, c)]))
    (hfull : c.length = NUM_ELEMENTS_PER_NODE) :
    ∃ l1 h1, push_back v l h = some (l1, h1) ∧ pop_back l1 h1 = none := by
  obtain ⟨l1, h1, e1, c1, z1⟩ := push_back_full v hr.toChain hfull
  have hsz : 1 ≤ l.size_ := by
    rw [hr.size_eq]
    simp only [List.map_append, List.map_cons, List.map_nil, List.flatten_append,
      List.flatten_cons, List.flatten_nil, List.append_nil, List.length_append, hfull,
      NUM_ELEMENTS_PER_NODE]
    omega
  have hs1 : l1.size_ ≠ 1 := by rw [z1]; exact uinc_ne_one hsz hr.bound
  exact ⟨l1, h1, e1, pop_back_unlink v c1 hs1⟩

end references

section defects

/-- The pre-increment has no result on any iterator in any store. -/
theorem preIncr_none {T : Type} (h : Heap T) (it : list_iterator) : preIncr h it = none := by
  unfold preIncr
  cases readNode h it.ptr_ with
  | none => rfl
  | some n => simp [Node.ptrMember]

/-- C2 (defect): on the empty list, which is well-formed, `push_front(v)` creates the only
node by `new Node<T>(v)` and `pop_front()` then releases it by `delete [] head_`, the
array form of `delete` applied to a node that is not an array: undefined behaviour, where
the claim has the empty list again. -/
theorem push_front_pop_front_empty_undefined {T : Type} [Inhabited T] (v : T) (h : Heap T) :
    wf h UnrolledLL.empty_list ∧ size UnrolledLL.empty_list = 0 ∧
    ∃ l1 h1, push_front v UnrolledLL.empty_list h = some (l1, h1) ∧ size l1 = 1 ∧
      l1.head_ = some h.length ∧ readNode h1 l1.head_ = some (Node.new v) ∧
      deleteArray h1 l1.head_ = none ∧ pop_front l1 h1 = none := by
  refine ⟨⟨[], Rep.of_chain (Chain.of_empty_list h) rfl (by decide)⟩, rfl,
    { head_ := some h.length, tail_ := some h.length, size_ := 1 },
    h ++ [some (Node.new v)], rfl, rfl, rfl, ?_, rfl, rfl⟩
  rw [readNode_append]; simp

/-- C3 (defect): on the list of one full node `push_back(7)` creates a second node by
`new Node<T>(v)`, and `pop_back()` then unlinks it and releases it by `delete [] temp`,
the array form of `delete` applied to a node that is not an array: undefined behaviour,
where the claim has the prior list again. -/
theorem push_back_pop_back_full_undefined :
    wf heap6 list6 ∧ empty list6 = false ∧ counts heap6 list6 = some [6] ∧
    ∃ l1 h1, push_back 7 list6 heap6 = some (l1, h1) ∧ counts h1 l1 = some [6, 1] ∧
      l1.tail_ = some 1 ∧ size l1 = 7 ∧ deleteArray h1 l1.tail_ = none ∧
      pop_back l1 h1 = none :=
  ⟨⟨_, rep_list6⟩, rfl, by decide, _, _, rfl, by decide, rfl, rfl, rfl, by decide⟩

/-- C11 (defect): three sequences of end operations from the empty list, each pop applied
to a non-empty list, that have no result because a pop releases a node by `delete []`:
`push_back(1); pop_back()`, `push_back(1); pop_front()`, and seven `push_back` calls
followed by `pop_back()`, which unlinks the one-element tail node. -/
theorem end_operations_reach_delete_array :
    opsOk 0 [Op.push_back (1 : Nat), Op.pop_back] ∧
    runOps [Op.push_back 1] UnrolledLL.empty_list ([] : Heap Nat) = some (list1, heap1) ∧
    wf heap1 list1 ∧ pop_back list1 heap1 = none ∧ pop_front list1 heap1 = none ∧
    runOps [Op.push_back 1, Op.pop_back] UnrolledLL.empty_list ([] : Heap Nat) = none ∧
    opsOk 0 [Op.push_back (1 : Nat), Op.pop_front] ∧
    runOps [Op.push_back 1, Op.pop_front] UnrolledLL.empty_list ([] : Heap Nat) = none ∧
    opsOk 0 [Op.push_back (1 : Nat), Op.push_back 2, Op.push_back 3, Op.push_back 4,
      Op.push_back 5, Op.push_back 6, Op.push_back 7, Op.pop_back] ∧
    runOps [Op.push_back 1, Op.push_back 2, Op.push_back 3, Op.push_back 4,
      Op.push_back 5, Op.push_back 6, Op.push_back 7, Op.pop_back]
      UnrolledLL.empty_list ([] : Heap Nat) = none :=
  ⟨by simp [opsOk, UINT_MOD], by decide, ⟨_, rep_list1⟩, by decide, by decide, by decide,
    by simp [opsOk, UINT_MOD], by decide, by simp [opsOk, UINT_MOD], by decide⟩

/-- C15 (defect): the pre-increment `operator++()` reads `ptr_->next`, which `Node<T>`
does not declare, and has no result on any iterator; on the list 1, 2, 3 the claim has
`begin()` incremented once read 2, which only the post-increment does. -/
theorem pre_increment_has_no_result :
    (∀ n : Node Nat, n.ptrMember ("next") = none ∧ n.ptrMember ("next_") = some n.next_) ∧
    (∀ (h : Heap Nat) (it : list_iterator), preIncr h it = none) ∧
    wf heap3 list3 ∧ toList heap3 list3 = some [1, 2, 3] ∧
    preIncr heap3 (begin list3) = none ∧
    postIncr heap3 (begin list3) = some { ptr_ := some 0, offset := 1 } ∧
    deref heap3 { ptr_ := some 0, offset := 1 } = some 2 :=
  ⟨fun _ => ⟨rfl, rfl⟩, fun h it => preIncr_none h it, ⟨_, rep_list3⟩, by decide,
    preIncr_none _ _, by decide, by decide⟩

/-- C17 (defect): on the list 1, 2, 3 in one node, `insert(pos, back())` with `pos` at the
element 2 passes a reference to the last element; the elements from `pos` on are shifted
right before `v` is read, so the value stored is 2 and not 3: the sequence becomes
1, 2, 2, 3 and the returned iterator reads 2, where the claim has 1, 3, 2, 3 and 3, as
the same call with the value 3 held outside the list gives. -/
theorem insert_reads_argument_after_shift :
    wf heap3 list3 ∧ toList heap3 list3 = some [1, 2, 3] ∧
    dereferenceable heap3 { ptr_ := some 0, offset := 1 } = true ∧
    deref heap3 { ptr_ := some 0, offset := 1 } = some 2 ∧
    back heap3 list3 = some 3 ∧
    ConstRef.get heap3 (ConstRef.element { ptr_ := some 0, offset := 2 }) = some 3 ∧
    (∃ it l1 h1, insert_ref { ptr_ := some 0, offset := 1 }
        (ConstRef.element { ptr_ := some 0, offset := 2 }) list3 heap3 = some (it, l1, h1) ∧
      toList h1 l1 = some [1, 2, 2, 3] ∧ deref h1 it = some 2) ∧
    (∃ it l1 h1, insert_ref { ptr_ := some 0, offset := 1 } (ConstRef.object 3) list3 heap3
        = some (it, l1, h1) ∧
      toList h1 l1 = some [1, 3, 2, 3] ∧ deref h1 it = some 3) :=
  ⟨⟨_, rep_list3⟩, by decide, by decide, by decide, by decide, by decide,
    ⟨_, _, _, rfl, by decide, by decide⟩, ⟨_, _, _, rfl, by decide, by decide⟩⟩

/-- C18 (defect): on the list of one element `pop_front()` releases the only node by
`delete [] head_`, the array form of `delete` applied to a node created by
`new Node<T>(v)`: undefined behaviour, where the claim has the empty list. -/
theorem pop_front_sole_node_undefined :
    wf heap1 list1 ∧ empty list1 = false ∧ toList heap1 list1 = some [1] ∧
    size list1 = 1 ∧ deleteArray heap1 list1.head_ = none ∧ pop_front list1 heap1 = none :=
  ⟨⟨_, rep_list1⟩, rfl, by decide, rfl, rfl, by decide⟩

end defects

end Unrolled
